import Mathlib

/-
  Verification development for the Hytale mod-translation repository,
  module translation_manager.py and its callers.

  Python strings are modelled as List Char.  Python truthiness of a string
  is nonemptiness, and of an Optional[str] value it is "some nonempty
  string".  Unicode corner cases are abstracted conservatively: str.strip
  and the regex class \s use the Python whitespace code points listed in
  isPyWs below, and the IGNORECASE character classes are modelled on the
  ASCII letters (the exotic case-folding code points play no role in any
  statement below).
-/

namespace HytaleTM

abbrev LC := List Char

/-- Convert a Lean string literal to the List Char model of a Python str. -/
def sL (s : String) : LC := s.toList

/-- Python whitespace, as used by str.strip and by the regex class \s:
the ASCII whitespace characters plus the Unicode whitespace code points. -/
def isPyWs (c : Char) : Bool :=
  let n := c.toNat
  n == 32 || n == 9 || n == 10 || n == 13 || n == 11 || n == 12 ||
  n == 0x1c || n == 0x1d || n == 0x1e || n == 0x1f || n == 0x85 ||
  n == 0xa0 || n == 0x1680 || (0x2000 ≤ n && n ≤ 0x200a) ||
  n == 0x2028 || n == 0x2029 || n == 0x202f || n == 0x205f || n == 0x3000

/-- Python str.lstrip(). -/
def pyLStrip (s : LC) : LC := s.dropWhile isPyWs

/-- Python str.rstrip(). -/
def pyRStrip (s : LC) : LC := (s.reverse.dropWhile isPyWs).reverse

/-- Python str.strip(). -/
def pyStrip (s : LC) : LC := pyRStrip (pyLStrip s)

/-- The whitespace run removed by lstrip: seg[:len(seg) - len(seg.lstrip())]
in smart_translate. -/
def leadWs (s : LC) : LC := s.takeWhile isPyWs

/-- The whitespace run removed by rstrip: seg[len(seg.rstrip()):]
in smart_translate. -/
def trailWs (s : LC) : LC := (s.reverse.takeWhile isPyWs).reverse

/-- ASCII letter (code points 65-90 and 97-122): the model of the classes
[A-Z] (under re.IGNORECASE) and [a-zA-Z], and of str.isalpha per
character. -/
def isAsciiLetter (c : Char) : Bool :=
  let n := c.toNat
  (65 ≤ n && n ≤ 90) || (97 ≤ n && n ≤ 122)

/-- The character class [^>] of the angle-tag alternative. -/
def notGt (x : Char) : Bool := x ≠ '>'

/- ---------------------------------------------------------------
   The regex _TAG_PATTERN (translation_manager.py lines 20-28):
     <[^>]+>  |  \[[A-Z]+\]  |  \\n  |  " \\n "    with re.IGNORECASE.
   Each alternative is modelled as a matcher that, when it succeeds at the
   head of the text, returns the matched span and the remaining text.
   The tokenizer scans one position at a time trying the alternatives in
   their written order, which is the leftmost-match semantics of
   re.finditer on this pattern.
   --------------------------------------------------------------- -/

/-- Alternative 1 of _TAG_PATTERN: an angle tag, regex <[^>]+>. -/
def matchAngle : LC → Option (LC × LC)
  | c :: rest =>
    if c = '<' then
      let inner := rest.takeWhile notGt
      if inner.isEmpty then none
      else
        match rest.dropWhile notGt with
        | c2 :: tl => if c2 = '>' then some ('<' :: (inner ++ [c2]), tl) else none
        | [] => none
    else none
  | [] => none

/-- Alternative 2 of _TAG_PATTERN: a bracket code, regex \[[A-Z]+\] under
IGNORECASE. -/
def matchBracket : LC → Option (LC × LC)
  | c :: rest =>
    if c = '[' then
      let inner := rest.takeWhile isAsciiLetter
      if inner.isEmpty then none
      else
        match rest.dropWhile isAsciiLetter with
        | c2 :: tl => if c2 = ']' then some ('[' :: (inner ++ [c2]), tl) else none
        | [] => none
    else none
  | [] => none

/-- Alternative 3 of _TAG_PATTERN: the literal two-character escape \n
(the letter case-insensitive). -/
def matchEscN : LC → Option (LC × LC)
  | c1 :: c2 :: rest =>
    if c1 = '\\' ∧ (c2 = 'n' ∨ c2 = 'N') then some ([c1, c2], rest) else none
  | _ => none

/-- Alternative 4 of _TAG_PATTERN: the escape padded with one space on
each side. -/
def matchSpacedEscN : LC → Option (LC × LC)
  | c1 :: c2 :: c3 :: c4 :: rest =>
    if c1 = ' ' ∧ c2 = '\\' ∧ (c3 = 'n' ∨ c3 = 'N') ∧ c4 = ' ' then
      some ([c1, c2, c3, c4], rest)
    else none
  | _ => none

/-- One attempt of _TAG_PATTERN at the current position: the four
alternatives tried in their written order. -/
def matchTagAt (s : LC) : Option (LC × LC) :=
  (matchAngle s).orElse fun _ =>
  (matchBracket s).orElse fun _ =>
  (matchEscN s).orElse fun _ =>
  matchSpacedEscN s

theorem matchAngle_spec {s m r : LC} (h : matchAngle s = some (m, r)) :
    m ++ r = s ∧ m ≠ [] ∧ ∃ c ∈ m, isPyWs c = false := by
  match s with
  | [] => simp [matchAngle] at h
  | c :: rest =>
    by_cases hc : c = '<'
    case neg => simp [matchAngle, hc] at h
    subst hc
    by_cases he : (rest.takeWhile notGt).isEmpty
    · simp [matchAngle, he] at h
    · match hd : rest.dropWhile notGt with
      | [] => simp [matchAngle, he, hd] at h
      | c2 :: tl =>
        by_cases hc2 : c2 = '>'
        · subst hc2
          have hmr : '<' :: (rest.takeWhile notGt ++ ['>']) = m ∧ tl = r := by
            have := h
            simp only [matchAngle, he, hd, if_false, if_true, Bool.false_eq_true,
              Option.some.injEq, Prod.mk.injEq] at this
            exact this
          obtain ⟨hm, hr⟩ := hmr
          subst hm
          subst hr
          refine ⟨?_, by simp, ⟨'<', by simp, by decide⟩⟩
          have hsplit := List.takeWhile_append_dropWhile (p := notGt) (l := rest)
          rw [hd] at hsplit
          simp only [List.cons_append, List.append_assoc, List.singleton_append,
            List.nil_append]
          rw [hsplit]
        · simp [matchAngle, he, hd, hc2] at h

theorem matchBracket_spec {s m r : LC} (h : matchBracket s = some (m, r)) :
    m ++ r = s ∧ m ≠ [] ∧ ∃ c ∈ m, isPyWs c = false := by
  match s with
  | [] => simp [matchBracket] at h
  | c :: rest =>
    by_cases hc : c = '['
    case neg => simp [matchBracket, hc] at h
    subst hc
    by_cases he : (rest.takeWhile isAsciiLetter).isEmpty
    · simp [matchBracket, he] at h
    · match hd : rest.dropWhile isAsciiLetter with
      | [] => simp [matchBracket, he, hd] at h
      | c2 :: tl =>
        by_cases hc2 : c2 = ']'
        · subst hc2
          have hmr : '[' :: (rest.takeWhile isAsciiLetter ++ [']']) = m ∧ tl = r := by
            have := h
            simp only [matchBracket, he, hd, if_false, if_true, Bool.false_eq_true,
              Option.some.injEq, Prod.mk.injEq] at this
            exact this
          obtain ⟨hm, hr⟩ := hmr
          subst hm
          subst hr
          refine ⟨?_, by simp, ⟨'[', by simp, by decide⟩⟩
          have hsplit := List.takeWhile_append_dropWhile (p := isAsciiLetter) (l := rest)
          rw [hd] at hsplit
          simp only [List.cons_append, List.append_assoc, List.singleton_append,
            List.nil_append]
          rw [hsplit]
        · simp [matchBracket, he, hd, hc2] at h

theorem matchEscN_spec {s m r : LC} (h : matchEscN s = some (m, r)) :
    m ++ r = s ∧ m ≠ [] ∧ ∃ c ∈ m, isPyWs c = false := by
  match s with
  | [] => simp [matchEscN] at h
  | [c] => simp [matchEscN] at h
  | c1 :: c2 :: rest =>
    simp only [matchEscN] at h
    split at h
    · next hc =>
      injection h with h2
      injection h2 with hm hr
      subst hm
      subst hr
      obtain ⟨h1, _⟩ := hc
      subst h1
      exact ⟨rfl, by simp, ⟨'\\', by simp, by decide⟩⟩
    · exact Option.noConfusion h

theorem matchSpacedEscN_spec {s m r : LC} (h : matchSpacedEscN s = some (m, r)) :
    m ++ r = s ∧ m ≠ [] ∧ ∃ c ∈ m, isPyWs c = false := by
  match s with
  | [] => simp [matchSpacedEscN] at h
  | [c] => simp [matchSpacedEscN] at h
  | [c, d] => simp [matchSpacedEscN] at h
  | [c, d, e] => simp [matchSpacedEscN] at h
  | c1 :: c2 :: c3 :: c4 :: rest =>
    simp only [matchSpacedEscN] at h
    split at h
    · next hc =>
      injection h with h2
      injection h2 with hm hr
      subst hm
      subst hr
      obtain ⟨h1, h2, _, h4⟩ := hc
      subst h1
      subst h2
      subst h4
      exact ⟨rfl, by simp, ⟨'\\', by simp, by decide⟩⟩
    · exact Option.noConfusion h

theorem matchTagAt_spec {s m r : LC} (h : matchTagAt s = some (m, r)) :
    m ++ r = s ∧ m ≠ [] ∧ ∃ c ∈ m, isPyWs c = false := by
  simp only [matchTagAt, Option.orElse] at h
  split at h
  · next h1 =>
    cases h
    exact matchAngle_spec h1
  · split at h
    · next h2 =>
      cases h
      exact matchBracket_spec h2
    · split at h
      · next h3 =>
        cases h
        exact matchEscN_spec h3
      · exact matchSpacedEscN_spec h

/- ---------------------------------------------------------------
   parse_tagged_text (translation_manager.py lines 31-59).
   The Python loop walks the finditer matches; here the scan advances one
   character at a time, accumulating the pending literal run (in reverse)
   and flushing it when a match fires, exactly as the Python code emits
   text[last_end:m.start()] before each match.  The fuel argument only
   makes the recursion structural; parse_tagged_text supplies fuel equal
   to the text length, which is always sufficient because every step
   consumes at least one character.
   --------------------------------------------------------------- -/

def ptAux : Nat → LC → LC → List (LC × Bool)
  | 0, pending, s =>
      if (pending.reverse ++ s).isEmpty then [] else [(pending.reverse ++ s, false)]
  | fuel + 1, pending, s =>
      match matchTagAt s with
      | some (m, r) =>
          (if pending.isEmpty then [] else [(pending.reverse, false)]) ++
            (m, true) :: ptAux fuel [] r
      | none =>
          match s with
          | [] => if pending.isEmpty then [] else [(pending.reverse, false)]
          | c :: cs => ptAux fuel (c :: pending) cs

/-- parse_tagged_text: split the text into (content, is_tag) segments. -/
def parse_tagged_text (s : LC) : List (LC × Bool) := ptAux s.length [] s

/-- Concatenation of the contents of a segment list. -/
def concatSegs (l : List (LC × Bool)) : LC := l.foldr (fun p acc => p.1 ++ acc) []

theorem concatSegs_nil : concatSegs [] = [] := rfl

theorem concatSegs_cons (p : LC × Bool) (l : List (LC × Bool)) :
    concatSegs (p :: l) = p.1 ++ concatSegs l := rfl

theorem concatSegs_append (l1 l2 : List (LC × Bool)) :
    concatSegs (l1 ++ l2) = concatSegs l1 ++ concatSegs l2 := by
  induction l1 with
  | nil => simp [concatSegs]
  | cons p tl ih =>
      simp only [List.cons_append, concatSegs_cons, ih, List.append_assoc]

theorem ptAux_concat (fuel : Nat) (pending s : LC) :
    concatSegs (ptAux fuel pending s) = pending.reverse ++ s := by
  induction fuel generalizing pending s with
  | zero =>
      simp only [ptAux]
      split
      · next hemp =>
          rw [List.isEmpty_iff] at hemp
          rw [hemp]
          rfl
      · simp [concatSegs]
  | succ fuel ih =>
      cases hm : matchTagAt s with
      | some mr =>
          obtain ⟨m, r⟩ := mr
          obtain ⟨hsplit, hne, _⟩ := matchTagAt_spec hm
          simp only [ptAux, hm]
          rw [concatSegs_append, concatSegs_cons, ih]
          split
          · next hemp =>
              rw [List.isEmpty_iff] at hemp
              simp [hemp, concatSegs, hsplit]
          · simp only [concatSegs_cons, concatSegs_nil, List.append_nil,
              List.reverse_nil, List.nil_append, List.append_assoc]
            rw [hsplit]
      | none =>
          cases s with
          | nil =>
              simp only [ptAux, hm]
              split
              · next hemp =>
                  rw [List.isEmpty_iff] at hemp
                  rw [hemp]
                  rfl
              · simp [concatSegs]
          | cons c cs =>
              simp only [ptAux, hm]
              rw [ih]
              simp

theorem ptAux_nonempty (fuel : Nat) (pending s : LC) :
    ∀ p ∈ ptAux fuel pending s, p.1 ≠ [] := by
  induction fuel generalizing pending s with
  | zero =>
      intro p hp
      simp only [ptAux] at hp
      split at hp
      · simp at hp
      · next hemp =>
          simp only [List.mem_singleton] at hp
          subst hp
          simpa [List.isEmpty_iff] using hemp
  | succ fuel ih =>
      intro p hp
      cases hm : matchTagAt s with
      | some mr =>
          obtain ⟨m, r⟩ := mr
          simp only [ptAux, hm] at hp
          obtain ⟨_, hne, _⟩ := matchTagAt_spec hm
          rw [List.mem_append] at hp
          rcases hp with hp | hp
          · split at hp
            · simp at hp
            · next hemp =>
                simp only [List.mem_singleton] at hp
                subst hp
                simpa [List.isEmpty_iff] using hemp
          · rw [List.mem_cons] at hp
            rcases hp with hp | hp
            · subst hp
              exact hne
            · exact ih [] r p hp
      | none =>
          cases s with
          | nil =>
              simp only [ptAux, hm] at hp
              split at hp
              · simp at hp
              · next hemp =>
                  simp only [List.mem_singleton] at hp
                  subst hp
                  simpa [List.isEmpty_iff] using hemp
          | cons c cs =>
              simp only [ptAux, hm] at hp
              exact ih (c :: pending) cs p hp

/-- C1.  Tokenizer round-trip: concatenating the segment contents of
parse_tagged_text(s) in order reproduces s exactly, and no emitted
segment has empty content. -/
theorem C1_tokenizer_roundtrip (s : LC) :
    concatSegs (parse_tagged_text s) = s ∧
    ∀ p ∈ parse_tagged_text s, p.1 ≠ [] := by
  constructor
  · simpa using ptAux_concat s.length [] s
  · exact ptAux_nonempty s.length [] s

/- ---------------------------------------------------------------
   smart_translate (translation_manager.py lines 62-108).
   translate_func(text) -> (translated, error) is modelled as a pure
   function into Option LC pairs; Python truthiness of such a value is
   pyTruthy.  The mutable translated_segments list and errors list of the
   Python loop become the state of a left fold over text_segments.
   --------------------------------------------------------------- -/

/-- Truthiness of a Python Optional[str]: not None and not empty. -/
def pyTruthy : Option LC → Bool
  | none => false
  | some s => !s.isEmpty

/-- The filter of the text_segments comprehension:
not is_tag and seg.strip(). -/
def isTextSeg (p : Nat × (LC × Bool)) : Bool :=
  !p.2.2 && !(pyStrip p.2.1).isEmpty

/-- One iteration of the translation loop of smart_translate: state is
(translated_segments, errors). -/
def stStep (f : LC → Option LC × Option LC) (st : List (LC × Bool) × List LC)
    (p : Nat × (LC × Bool)) : List (LC × Bool) × List LC :=
  let seg := p.2.1
  let seg_clean := pyStrip seg
  if seg_clean.isEmpty then st
  else
    let tr := (f seg_clean).1
    let err := (f seg_clean).2
    let tsegs :=
      if pyTruthy tr then
        st.1.set p.1 (leadWs seg ++ tr.getD [] ++ trailWs seg, false)
      else st.1
    let errs := if pyTruthy err then st.2 ++ [err.getD []] else st.2
    (tsegs, errs)

/-- smart_translate: translate the text, keeping tags in place. -/
def smart_translate (text : LC) (f : LC → Option LC × Option LC) :
    Option LC × Option LC :=
  if text.isEmpty || (pyStrip text).isEmpty then (none, none)
  else
    let segments := parse_tagged_text text
    if segments.all (fun p => p.2) || !(segments.any (fun p => p.2)) then f text
    else
      let text_segments := segments.enum.filter isTextSeg
      if text_segments.isEmpty then (some text, none)
      else
        let res := text_segments.foldl (stStep f) (segments, [])
        (some (concatSegs res.1), res.2.head?)

theorem pyStrip_eq_nil_iff (s : LC) : pyStrip s = [] ↔ ∀ c ∈ s, isPyWs c = true := by
  constructor
  · intro h c hc
    by_contra hw
    rw [pyStrip, pyRStrip, List.reverse_eq_nil_iff, List.dropWhile_eq_nil_iff] at h
    have hcl : c ∈ pyLStrip s ∨ c ∈ s.takeWhile isPyWs := by
      have hsplit := List.takeWhile_append_dropWhile (p := isPyWs) (l := s)
      rw [← hsplit] at hc
      rw [List.mem_append] at hc
      rcases hc with hc | hc
      · exact Or.inr hc
      · exact Or.inl hc
    rcases hcl with hcl | hcl
    · have := h c (by simpa using hcl)
      exact hw this
    · exact hw (List.mem_takeWhile_imp hcl)
  · intro h
    rw [pyStrip, pyRStrip, List.reverse_eq_nil_iff, List.dropWhile_eq_nil_iff]
    intro c hc
    apply h
    have : c ∈ pyLStrip s := by simpa using hc
    have hsub : pyLStrip s ⊆ s := (List.dropWhile_sublist isPyWs).subset
    exact hsub this

theorem ptAux_tag_nonws (fuel : Nat) (pending s : LC) :
    ∀ m, (m, true) ∈ ptAux fuel pending s → ∃ c ∈ m, isPyWs c = false := by
  induction fuel generalizing pending s with
  | zero =>
      intro m hm
      simp only [ptAux] at hm
      split at hm
      · simp at hm
      · simp only [List.mem_singleton, Prod.mk.injEq] at hm
        exact absurd hm.2 (by simp)
  | succ fuel ih =>
      intro m hm
      cases hmt : matchTagAt s with
      | some mr =>
          obtain ⟨mt, r⟩ := mr
          simp only [ptAux, hmt] at hm
          obtain ⟨_, _, hnw⟩ := matchTagAt_spec hmt
          rw [List.mem_append] at hm
          rcases hm with hm | hm
          · split at hm
            · simp at hm
            · simp only [List.mem_singleton, Prod.mk.injEq] at hm
              exact absurd hm.2 (by simp)
          · rw [List.mem_cons] at hm
            rcases hm with hm | hm
            · obtain ⟨hm1, _⟩ := Prod.mk.injEq .. ▸ hm
              injection hm with hm1 hm2
              subst hm1
              exact hnw
            · exact ih [] r m hm
      | none =>
          cases s with
          | nil =>
              simp only [ptAux, hmt] at hm
              split at hm
              · simp at hm
              · simp only [List.mem_singleton, Prod.mk.injEq] at hm
                exact absurd hm.2 (by simp)
          | cons c cs =>
              simp only [ptAux, hmt] at hm
              exact ih (c :: pending) cs m hm

theorem mem_concatSegs {l : List (LC × Bool)} {p : LC × Bool} (hp : p ∈ l)
    {c : Char} (hc : c ∈ p.1) : c ∈ concatSegs l := by
  induction l with
  | nil => simp at hp
  | cons q tl ih =>
      rw [List.mem_cons] at hp
      rw [concatSegs_cons, List.mem_append]
      rcases hp with hp | hp
      · subst hp
        exact Or.inl hc
      · exact Or.inr (ih hp)

theorem parse_tagged_text_concat (s : LC) :
    concatSegs (parse_tagged_text s) = s := by
  simpa using ptAux_concat s.length [] s

/-- A string all of whose tokenizer segments are markup cannot be empty or
whitespace-only, because every markup span contains a non-whitespace
character. -/
theorem strip_ne_nil_of_all_tags {s : LC} (hne : s ≠ [])
    (hall : (parse_tagged_text s).all (fun p => p.2) = true) :
    pyStrip s ≠ [] := by
  have hconc := parse_tagged_text_concat s
  have hsegs_ne : parse_tagged_text s ≠ [] := by
    intro h0
    rw [h0] at hconc
    exact hne hconc.symm
  obtain ⟨p, hp⟩ := List.exists_mem_of_ne_nil _ hsegs_ne
  have hptag : p.2 = true := by simpa using List.all_eq_true.mp hall p hp
  have hp2 : (p.1, true) ∈ parse_tagged_text s := by
    rcases p with ⟨m, b⟩
    simp only at hptag
    subst hptag
    exact hp
  obtain ⟨c, hcm, hcw⟩ := ptAux_tag_nonws s.length [] s p.1 hp2
  have hcs : c ∈ s := hconc ▸ mem_concatSegs hp hcm
  intro h0
  rw [pyStrip_eq_nil_iff] at h0
  rw [h0 c hcs] at hcw
  exact Bool.noConfusion hcw

/-- The counterexample instance for C2: a translate function that
rewrites everything to the single letter X. -/
def c2_f : LC → Option LC × Option LC := fun _ => (some (sL ("X")), none)

/-- C2 counterexample.  The string consisting of the single angle tag
&lt;b&gt; is non-empty and tokenizes purely to markup, yet smart_translate
hands it to the injected translate function and returns its answer, not
the text unchanged. -/
theorem C2_counterexample :
    sL ("<b>") ≠ [] ∧
    (parse_tagged_text (sL ("<b>"))).all (fun p => p.2) = true ∧
    smart_translate (sL ("<b>")) c2_f = (some (sL ("X")), none) ∧
    smart_translate (sL ("<b>")) c2_f ≠ (some (sL ("<b>")), none) := by
  decide

/-- C2 amended.  For every non-empty string s whose tokenization consists
purely of markup segments, smart_translate(s, f) delegates the whole
string to the injected translate function and returns f(s) unchanged;
the return-the-text-unchanged-with-null-error behaviour belongs instead
to mixed tokenizations whose literal segments are all whitespace-only. -/
theorem C2_amended (s : LC) (f : LC → Option LC × Option LC) (hne : s ≠ [])
    (hall : (parse_tagged_text s).all (fun p => p.2) = true) :
    smart_translate s f = f s := by
  have hstrip := strip_ne_nil_of_all_tags hne hall
  have hb : ∀ (l : LC), l ≠ [] → l.isEmpty = false := by
    intro l hl
    cases l with
    | nil => exact absurd rfl hl
    | cons a t => rfl
  have h1 : (s.isEmpty || (pyStrip s).isEmpty) = false := by
    rw [hb s hne, hb _ hstrip]
    rfl
  have h2 : ((parse_tagged_text s).all (fun p => p.2) ||
      !((parse_tagged_text s).any (fun p => p.2))) = true := by
    simp [hall]
  rw [smart_translate]
  rw [if_neg (by simp [h1])]
  rw [if_pos (by simpa using h2)]

/-- Witness for C2 amended at a concrete purely-markup input. -/
def c2_wf : LC → Option LC × Option LC := fun t => (none, some t)

theorem C2_amended_witness :
    smart_translate (sL ("[TAG]")) c2_wf = c2_wf (sL ("[TAG]")) :=
  C2_amended (sL ("[TAG]")) c2_wf (by decide) (by decide)

/-- C4 counterexample.  In the scenario string, the escape is not emitted
as the bare two-character segment backslash-n: no such markup segment
occurs in the tokenization (the padded four-character form is emitted
instead). -/
theorem C4_counterexample :
    ¬ ((sL ("\\n"), true) ∈
      parse_tagged_text (sL ("Defeats <color is=\"red\">Alive</color> in \\n battle"))) := by
  decide

/-- C4 amended.  The scenario string tokenizes with the two angle tags as
markup, the escape captured in its padded four-character form
space-backslash-n-space as its own markup segment, and the literal
segments "Defeats ", "Alive", " in" and "battle". -/
theorem C4_amended :
    parse_tagged_text (sL ("Defeats <color is=\"red\">Alive</color> in \\n battle")) =
      [(sL ("Defeats "), false), (sL ("<color is=\"red\">"), true), (sL ("Alive"), false),
       (sL ("</color>"), true), (sL (" in"), false), (sL (" \\n "), true),
       (sL ("battle"), false)] := by
  decide

/- ---------------------------------------------------------------
   Characterization of the translation loop of smart_translate: the
   final translated_segments list is a pointwise transformation of the
   original segments, and the errors list collects, in segment order, the
   truthy errors returned for the translated literal segments.
   --------------------------------------------------------------- -/

/-- What the loop body of smart_translate does to one segment: markup and
whitespace-only literal segments are untouched; a literal segment with
content is replaced by its translation wrapped in the original leading
and trailing whitespace whenever the translation is truthy. -/
def segTransform (f : LC → Option LC × Option LC) (p : LC × Bool) : LC × Bool :=
  if p.2 then p
  else if (pyStrip p.1).isEmpty then p
  else
    let tr := (f (pyStrip p.1)).1
    if pyTruthy tr then (leadWs p.1 ++ tr.getD [] ++ trailWs p.1, false) else p

/-- The truthy error recorded by the loop body for one segment, if any. -/
def segError (f : LC → Option LC × Option LC) (p : LC × Bool) : Option LC :=
  if p.2 then none
  else if (pyStrip p.1).isEmpty then none
  else
    let err := (f (pyStrip p.1)).2
    if pyTruthy err then some (err.getD []) else none

/-- The errors list accumulated by the loop, in segment order. -/
def segErrors (f : LC → Option LC × Option LC) (l : List (LC × Bool)) : List LC :=
  l.filterMap (segError f)

theorem segTransform_of_not_text {f : LC → Option LC × Option LC} {n : Nat}
    {p : LC × Bool} (h : isTextSeg (n, p) = false) : segTransform f p = p := by
  rw [isTextSeg] at h
  by_cases h2 : p.2 = true
  · simp [segTransform, h2]
  · rw [Bool.not_eq_true] at h2
    have h3 : (pyStrip p.1).isEmpty = true := by
      rw [h2] at h
      simpa using h
    rw [segTransform, if_neg (by simp [h2]), if_pos h3]

theorem segError_of_not_text {f : LC → Option LC × Option LC} {n : Nat}
    {p : LC × Bool} (h : isTextSeg (n, p) = false) : segError f p = none := by
  rw [isTextSeg] at h
  by_cases h2 : p.2 = true
  · simp [segError, h2]
  · rw [Bool.not_eq_true] at h2
    have h3 : (pyStrip p.1).isEmpty = true := by
      rw [h2] at h
      simpa using h
    rw [segError, if_neg (by simp [h2]), if_pos h3]

theorem segErrors_cons (f : LC → Option LC × Option LC) (t : LC × Bool)
    (ts : List (LC × Bool)) :
    segErrors f (t :: ts) = (segError f t).toList ++ segErrors f ts := by
  rw [segErrors, segErrors, List.filterMap_cons]
  cases segError f t <;> simp

theorem set_append_cons (pre : List (LC × Bool)) (t x : LC × Bool)
    (ts : List (LC × Bool)) :
    (pre ++ t :: ts).set pre.length x = pre ++ x :: ts := by
  induction pre with
  | nil => rfl
  | cons a tl ih => simp [ih]

/-- The loop of smart_translate, started on the segment list with a
prefix already in place, rewrites the processed suffix pointwise by
segTransform and appends the truthy errors in order. -/
theorem stFold_spec (f : LC → Option LC × Option LC) (tail : List (LC × Bool)) :
    ∀ (pre : List (LC × Bool)) (errs : List LC),
    ((List.enumFrom pre.length tail).filter isTextSeg).foldl (stStep f)
        (pre ++ tail, errs) =
      (pre ++ tail.map (segTransform f), errs ++ segErrors f tail) := by
  induction tail with
  | nil =>
      intro pre errs
      simp [List.enumFrom, segErrors]
  | cons t ts ih =>
      intro pre errs
      simp only [List.enumFrom, List.filter_cons]
      by_cases ht : isTextSeg (pre.length, t) = true
      · rw [if_pos ht]
        have h1 : (!t.2 && !(pyStrip t.1).isEmpty) = true := ht
        rw [Bool.and_eq_true] at h1
        have htag : t.2 = false := by
          have := h1.1
          revert this
          cases t.2 <;> simp
        have hstr : (pyStrip t.1).isEmpty = false := by
          have := h1.2
          revert this
          cases (pyStrip t.1).isEmpty <;> simp
        have htf : segTransform f t =
            (if pyTruthy (f (pyStrip t.1)).1 = true then
              (leadWs t.1 ++ ((f (pyStrip t.1)).1).getD [] ++ trailWs t.1, false)
            else t) := by
          rw [segTransform, if_neg (by simp [htag]), if_neg (by simp [hstr])]
        have hte : segError f t =
            (if pyTruthy (f (pyStrip t.1)).2 = true then
              some (((f (pyStrip t.1)).2).getD []) else none) := by
          rw [segError, if_neg (by simp [htag]), if_neg (by simp [hstr])]
        have hstep : stStep f (pre ++ t :: ts, errs) (pre.length, t) =
            (pre ++ segTransform f t :: ts, errs ++ (segError f t).toList) := by
          rw [stStep]
          simp only [hstr, Bool.false_eq_true, if_false]
          rw [htf, hte]
          by_cases htr : pyTruthy (f (pyStrip t.1)).1 = true
          · rw [if_pos htr, if_pos htr, set_append_cons]
            by_cases herr : pyTruthy (f (pyStrip t.1)).2 = true
            · rw [if_pos herr, if_pos herr]
              simp
            · rw [if_neg herr, if_neg herr]
              simp
          · rw [if_neg htr, if_neg htr]
            by_cases herr : pyTruthy (f (pyStrip t.1)).2 = true
            · rw [if_pos herr, if_pos herr]
              simp
            · rw [if_neg herr, if_neg herr]
              simp
        rw [List.foldl_cons, hstep]
        have ihx := ih (pre ++ [segTransform f t]) (errs ++ (segError f t).toList)
        simp only [List.length_append, List.length_cons, List.length_nil,
          List.append_assoc, List.cons_append, List.nil_append,
          Nat.zero_add, Nat.add_zero] at ihx
        rw [ihx]
        rw [List.map_cons, segErrors_cons]
      · rw [if_neg ht]
        rw [Bool.not_eq_true] at ht
        have ihx := ih (pre ++ [t]) errs
        simp only [List.length_append, List.length_cons, List.length_nil,
          List.append_assoc, List.cons_append, List.nil_append,
          Nat.zero_add, Nat.add_zero] at ihx
        rw [ihx]
        rw [List.map_cons, segTransform_of_not_text (f := f) ht, segErrors_cons,
          segError_of_not_text (f := f) ht]
        simp

/-- If no enumerated segment passes the text_segments filter, the loop
transformation is the identity on every segment. -/
theorem map_segTransform_of_filter_nil (f : LC → Option LC × Option LC) :
    ∀ (l : List (LC × Bool)) (n : Nat),
    (List.enumFrom n l).filter isTextSeg = [] → l.map (segTransform f) = l := by
  intro l
  induction l with
  | nil => intro n _; rfl
  | cons t ts ih =>
      intro n h
      simp only [List.enumFrom, List.filter_cons] at h
      by_cases ht : isTextSeg (n, t) = true
      · rw [if_pos ht] at h
        exact absurd h (by simp)
      · rw [if_neg ht] at h
        rw [Bool.not_eq_true] at ht
        simp only [List.map]
        rw [segTransform_of_not_text (f := f) ht, ih (n + 1) h]

/-- Companion to map_segTransform_of_filter_nil: with no text segment,
no error is recorded either. -/
theorem segErrors_of_filter_nil (f : LC → Option LC × Option LC) :
    ∀ (l : List (LC × Bool)) (n : Nat),
    (List.enumFrom n l).filter isTextSeg = [] → segErrors f l = [] := by
  intro l
  induction l with
  | nil => intro n _; rfl
  | cons t ts ih =>
      intro n h
      simp only [List.enumFrom, List.filter_cons] at h
      by_cases ht : isTextSeg (n, t) = true
      · rw [if_pos ht] at h
        exact absurd h (by simp)
      · rw [if_neg ht] at h
        rw [Bool.not_eq_true] at ht
        rw [segErrors_cons, segError_of_not_text (f := f) ht, ih (n + 1) h]
        rfl

theorem isEmpty_false_of_ne_nil {l : LC} (h : l ≠ []) : l.isEmpty = false := by
  cases l with
  | nil => exact absurd rfl h
  | cons a t => rfl

/-- A markup segment in the tokenization forces the whole string to be
non-empty and not whitespace-only. -/
theorem s_facts_of_tag_mem {s m : LC} (hm : (m, true) ∈ parse_tagged_text s) :
    s ≠ [] ∧ pyStrip s ≠ [] := by
  have hconc := parse_tagged_text_concat s
  obtain ⟨c, hcm, hcw⟩ := ptAux_tag_nonws s.length [] s m hm
  have hcs : c ∈ s := hconc ▸ mem_concatSegs hm hcm
  constructor
  · intro h0
    rw [h0] at hcs
    exact absurd hcs (by simp)
  · intro h0
    rw [pyStrip_eq_nil_iff] at h0
    rw [h0 c hcs] at hcw
    exact Bool.noConfusion hcw

/-- On a mixed tokenization (at least one markup segment, at least one
literal segment), smart_translate returns the concatenation of the
pointwise-transformed segments as the result and the first recorded
truthy error as the error. -/
theorem smart_translate_mixed (s : LC) (f : LC → Option LC × Option LC)
    (htag : ∃ p ∈ parse_tagged_text s, p.2 = true)
    (hlit : ∃ p ∈ parse_tagged_text s, p.2 = false) :
    smart_translate s f =
      (some (concatSegs ((parse_tagged_text s).map (segTransform f))),
       (segErrors f (parse_tagged_text s)).head?) := by
  obtain ⟨p, hp, hp2⟩ := htag
  have hp3 : (p.1, true) ∈ parse_tagged_text s := by
    rcases p with ⟨m, b⟩
    simp only at hp2
    subst hp2
    exact hp
  obtain ⟨hne, hstrip⟩ := s_facts_of_tag_mem hp3
  have hcond1 : (s.isEmpty || (pyStrip s).isEmpty) = false := by
    rw [isEmpty_false_of_ne_nil hne, isEmpty_false_of_ne_nil hstrip]
    rfl
  have hall : (parse_tagged_text s).all (fun q => q.2) = false := by
    obtain ⟨q, hq, hq2⟩ := hlit
    rw [Bool.eq_false_iff]
    intro hcontra
    have := List.all_eq_true.mp hcontra q hq
    simp only at this
    rw [hq2] at this
    exact Bool.noConfusion this
  have hany : (parse_tagged_text s).any (fun q => q.2) = true :=
    List.any_eq_true.mpr ⟨p, hp, by simpa using hp2⟩
  have hcond2 : ((parse_tagged_text s).all (fun q => q.2) ||
      !((parse_tagged_text s).any (fun q => q.2))) = false := by
    rw [hall, hany]
    rfl
  rw [smart_translate]
  rw [if_neg (by simp [hcond1]), if_neg (by simp [hcond2])]
  by_cases hemp : ((parse_tagged_text s).enum.filter isTextSeg).isEmpty = true
  · rw [if_pos hemp]
    rw [List.isEmpty_iff] at hemp
    have hid := map_segTransform_of_filter_nil f (parse_tagged_text s) 0 hemp
    have herr := segErrors_of_filter_nil f (parse_tagged_text s) 0 hemp
    rw [hid, herr, parse_tagged_text_concat]
    rfl
  · rw [if_neg hemp]
    have hfold := stFold_spec f (parse_tagged_text s) [] []
    simp only [List.length_nil, List.nil_append] at hfold
    have henum : List.enumFrom 0 (parse_tagged_text s) = (parse_tagged_text s).enum := rfl
    rw [henum] at hfold
    simp only [hfold]

/-- C3 counterexample instance. -/
def c3_f : LC → Option LC × Option LC := fun _ => (some (sL ("X")), none)

/-- C3 counterexample.  The string consisting of the single bracket code
[TMP] tokenizes to one markup segment, yet smart_translate delegates it
whole to the injected translate function, whose output need not contain
the markup segment at all. -/
theorem C3_counterexample :
    parse_tagged_text (sL ("[TMP]")) = [(sL ("[TMP]"), true)] ∧
    smart_translate (sL ("[TMP]")) c3_f = (some (sL ("X")), none) ∧
    ¬ (sL ("[TMP]")) <:+: (sL ("X")) := by
  refine ⟨by decide, by decide, by decide⟩

/-- C3 amended.  For every string whose tokenization contains at least one
markup segment AND at least one literal segment, smart_translate returns
some result obtained by transforming the segment list pointwise: the
result is the in-order concatenation in which every markup segment is
kept verbatim at its position and only literal segments may be replaced
by their translations. -/
theorem C3_markup_preservation (s : LC) (f : LC → Option LC × Option LC)
    (htag : ∃ p ∈ parse_tagged_text s, p.2 = true)
    (hlit : ∃ p ∈ parse_tagged_text s, p.2 = false) :
    ∃ e, smart_translate s f =
        (some (concatSegs ((parse_tagged_text s).map (segTransform f))), e) ∧
      ((parse_tagged_text s).map (segTransform f)).length =
        (parse_tagged_text s).length ∧
      ∀ p ∈ parse_tagged_text s, p.2 = true → segTransform f p = p := by
  refine ⟨(segErrors f (parse_tagged_text s)).head?,
    smart_translate_mixed s f htag hlit, by simp, ?_⟩
  intro p _ h2
  simp [segTransform, h2]

/-- Witness translate function for C3. -/
def c3_wf : LC → Option LC × Option LC := fun _ => (some (sL ("Y")), none)

theorem C3_markup_preservation_witness :
    (∃ p ∈ parse_tagged_text (sL ("x<b>")), p.2 = true) ∧
    (∃ p ∈ parse_tagged_text (sL ("x<b>")), p.2 = false) ∧
    ∃ e, smart_translate (sL ("x<b>")) c3_wf =
        (some (concatSegs ((parse_tagged_text (sL ("x<b>"))).map (segTransform c3_wf))), e) ∧
      ((parse_tagged_text (sL ("x<b>"))).map (segTransform c3_wf)).length =
        (parse_tagged_text (sL ("x<b>"))).length ∧
      ∀ p ∈ parse_tagged_text (sL ("x<b>")), p.2 = true → segTransform c3_wf p = p :=
  ⟨by decide, by decide,
    C3_markup_preservation (sL ("x<b>")) c3_wf (by decide) (by decide)⟩

/-- C9.  On a mixed tokenization where the injected translate function
fails on at least one literal segment and succeeds on at least one other,
smart_translate still returns the partially translated concatenation
(successful segments replaced, failed segments kept as their original
text, by segTransform) and reports as its error the first truthy error
recorded across the segment translations in order, which exists. -/
theorem C9_error_aggregation (s : LC) (f : LC → Option LC × Option LC)
    (htag : ∃ p ∈ parse_tagged_text s, p.2 = true)
    (hfail : ∃ p ∈ parse_tagged_text s, p.2 = false ∧
      (pyStrip p.1).isEmpty = false ∧ pyTruthy (f (pyStrip p.1)).2 = true)
    (hsucc : ∃ p ∈ parse_tagged_text s, p.2 = false ∧
      (pyStrip p.1).isEmpty = false ∧ pyTruthy (f (pyStrip p.1)).1 = true) :
    smart_translate s f =
      (some (concatSegs ((parse_tagged_text s).map (segTransform f))),
       (segErrors f (parse_tagged_text s)).head?) ∧
      segErrors f (parse_tagged_text s) ≠ [] := by
  obtain ⟨p, hp, hptag, hpstr, hperr⟩ := hfail
  constructor
  · exact smart_translate_mixed s f htag ⟨p, hp, hptag⟩
  · intro h0
    have hsome : segError f p = some (((f (pyStrip p.1)).2).getD []) := by
      rw [segError, if_neg (by simp [hptag]), if_neg (by simp [hpstr]), if_pos hperr]
    have : segError f p = none := by
      rw [segErrors] at h0
      exact List.filterMap_eq_nil_iff.mp h0 p hp
    rw [hsome] at this
    exact Option.noConfusion this

/-- Witness translate function for C9: succeeds on the literal a, fails
with error E elsewhere. -/
def c9_wf : LC → Option LC × Option LC :=
  fun t => if t = sL ("a") then (some (sL ("A")), none) else (none, some (sL ("E")))

theorem C9_error_aggregation_witness :
    (∃ p ∈ parse_tagged_text (sL ("a<b>c")), p.2 = true) ∧
    (∃ p ∈ parse_tagged_text (sL ("a<b>c")), p.2 = false ∧
      (pyStrip p.1).isEmpty = false ∧ pyTruthy (c9_wf (pyStrip p.1)).2 = true) ∧
    (∃ p ∈ parse_tagged_text (sL ("a<b>c")), p.2 = false ∧
      (pyStrip p.1).isEmpty = false ∧ pyTruthy (c9_wf (pyStrip p.1)).1 = true) ∧
    (smart_translate (sL ("a<b>c")) c9_wf =
      (some (concatSegs ((parse_tagged_text (sL ("a<b>c"))).map (segTransform c9_wf))),
       (segErrors c9_wf (parse_tagged_text (sL ("a<b>c")))).head?) ∧
      segErrors c9_wf (parse_tagged_text (sL ("a<b>c"))) ≠ []) :=
  ⟨by decide, by decide, by decide,
    C9_error_aggregation (sL ("a<b>c")) c9_wf (by decide) (by decide) (by decide)⟩

/- ---------------------------------------------------------------
   _should_skip_source (translation_manager.py lines 138-170) and its
   regex helpers.  The three inline regex searches are simple scans:
   \{[a-zA-Z_%] finds a brace followed by a letter, underscore or percent;
   _\s*} finds an underscore whose next non-whitespace character is a
   closing brace; \{\s*_ symmetrically.  "pat in s" is substring search.
   --------------------------------------------------------------- -/

/-- Python substring test: pat in s. -/
def pyContainsChar (s : LC) (c : Char) : Bool := s.any (fun x => x == c)

/-- Python substring test for a string pattern. -/
def pyContainsSub (pat : LC) : LC → Bool
  | [] => pat.isEmpty
  | c :: tl => pat.isPrefixOf (c :: tl) || pyContainsSub pat tl

/-- re.search of \{[a-zA-Z_%] : a brace immediately followed by a letter,
underscore or percent sign. -/
def searchBraceVar : LC → Bool
  | [] => false
  | c :: tl =>
      (c == '{' && (match tl with
        | d :: _ => isAsciiLetter d || d == '_' || d == '%'
        | [] => false)) || searchBraceVar tl

/-- re.search of _\s*} : an underscore whose next non-whitespace
character is a closing brace. -/
def searchUBrace : LC → Bool
  | [] => false
  | c :: tl =>
      (c == '_' && ((tl.dropWhile isPyWs).head? == some '}')) || searchUBrace tl

/-- re.search of \{\s*_ : an opening brace whose next non-whitespace
character is an underscore. -/
def searchBraceU : LC → Bool
  | [] => false
  | c :: tl =>
      (c == '{' && ((tl.dropWhile isPyWs).head? == some '_')) || searchBraceU tl

/-- s.replace applied to underscore, space and newline, then tested for
emptiness. -/
def replacedEmpty (s : LC) : Bool :=
  (s.filter (fun c => !(c == '_' || c == ' ' || c == '\n'))).isEmpty

/-- Python str.isalnum per character, modelled on ASCII. -/
def pyIsAlnum (c : Char) : Bool :=
  isAsciiLetter c || (48 ≤ c.toNat && c.toNat ≤ 57)

/-- Python s.isalpha(): non-empty and every character alphabetic. -/
def pyStrIsAlpha (s : LC) : Bool := !s.isEmpty && s.all isAsciiLetter

/-- Python string repetition part * m. -/
def pyRepeat (p : LC) : Nat → LC
  | 0 => []
  | n + 1 => p ++ pyRepeat p n

/-- The merged-duplicate loop of _should_skip_source: some n from 1 to
len(s)//2 divides len(s) and s[:n] * (len(s)//n) == s. -/
def hasRepeatedPattern (s : LC) : Bool :=
  (List.range' 1 (s.length / 2)).any (fun n =>
    s.length % n == 0 && pyRepeat (s.take n) (s.length / n) == s)

/-- _should_skip_source: strings that must not be sent to translation. -/
def should_skip_source (text : LC) : Bool :=
  if text.isEmpty || (pyStrip text).isEmpty then true
  else
    let s := pyStrip text
    if pyContainsChar s '{' && pyContainsChar s '}' && searchBraceVar s then true
    else if pyContainsSub (sL ("%s")) s || pyContainsSub (sL ("%d")) s ||
        pyContainsSub (sL ("%(")) s then true
    else if searchUBrace s || searchBraceU s then true
    else if replacedEmpty s then true
    else if !pyContainsChar s ' ' && !pyContainsChar s '\n' && pyContainsChar s '_' &&
        s.all (fun c => pyIsAlnum c || c == '_') then true
    else if !pyContainsChar s ' ' && !pyContainsChar s '\n' &&
        decide (2 ≤ s.length) && pyStrIsAlpha s then
      hasRepeatedPattern s
    else false

theorem isAsciiLetter_not_ws {c : Char} (h : isAsciiLetter c = true) :
    isPyWs c = false := by
  rw [isAsciiLetter] at h
  simp only [Bool.or_eq_true, Bool.and_eq_true, decide_eq_true_eq] at h
  rw [isPyWs, Bool.eq_false_iff]
  intro hw
  simp only [Bool.or_eq_true, Bool.and_eq_true, decide_eq_true_eq, beq_iff_eq] at hw
  omega

theorem dropWhile_eq_self_of_all {p : Char → Bool} {s : LC}
    (h : ∀ c ∈ s, p c = false) : s.dropWhile p = s := by
  cases s with
  | nil => rfl
  | cons c tl =>
      rw [List.dropWhile_cons, h c (by simp)]
      simp

theorem pyStrip_eq_self {s : LC} (h : ∀ c ∈ s, isPyWs c = false) : pyStrip s = s := by
  rw [pyStrip, pyLStrip, pyRStrip]
  rw [dropWhile_eq_self_of_all h]
  rw [dropWhile_eq_self_of_all (by intro c hc; exact h c (by simpa using hc))]
  simp

theorem alpha_no_char {s : LC} {c : Char} (hall : ∀ x ∈ s, isAsciiLetter x = true)
    (hc : isAsciiLetter c = false) : pyContainsChar s c = false := by
  rw [Bool.eq_false_iff]
  intro htrue
  rw [pyContainsChar, List.any_eq_true] at htrue
  obtain ⟨x, hx, hxc⟩ := htrue
  have hxe : x = c := by simpa using hxc
  subst hxe
  rw [hall x hx] at hc
  exact Bool.noConfusion hc

theorem pyContainsSub_mem {pat s : LC} (h : pyContainsSub pat s = true)
    {c : Char} (hc : c ∈ pat) : c ∈ s := by
  induction s with
  | nil =>
      rw [pyContainsSub] at h
      rw [List.isEmpty_iff] at h
      subst h
      simp at hc
  | cons a tl ih =>
      rw [pyContainsSub, Bool.or_eq_true] at h
      rcases h with h | h
      · have hpre : pat <+: a :: tl := by
          rw [← List.isPrefixOf_iff_prefix]
          exact h
        exact hpre.subset hc
      · exact List.mem_cons_of_mem a (ih h)

theorem alpha_no_sub {s : LC} (hall : ∀ x ∈ s, isAsciiLetter x = true)
    {pat : LC} {c : Char} (hc : c ∈ pat) (hca : isAsciiLetter c = false) :
    pyContainsSub pat s = false := by
  rw [Bool.eq_false_iff]
  intro htrue
  have := pyContainsSub_mem htrue hc
  rw [hall c this] at hca
  exact Bool.noConfusion hca

theorem searchUBrace_mem {s : LC} (h : searchUBrace s = true) : '_' ∈ s := by
  induction s with
  | nil => exact Bool.noConfusion h
  | cons a tl ih =>
      rw [searchUBrace, Bool.or_eq_true] at h
      rcases h with h | h
      · rw [Bool.and_eq_true] at h
        have : a = '_' := by simpa using h.1
        subst this
        simp
      · exact List.mem_cons_of_mem a (ih h)

theorem searchBraceU_mem {s : LC} (h : searchBraceU s = true) : '{' ∈ s := by
  induction s with
  | nil => exact Bool.noConfusion h
  | cons a tl ih =>
      rw [searchBraceU, Bool.or_eq_true] at h
      rcases h with h | h
      · rw [Bool.and_eq_true] at h
        have : a = '{' := by simpa using h.1
        subst this
        simp
      · exact List.mem_cons_of_mem a (ih h)

theorem replacedEmpty_false_of_alpha {s : LC} (hne : s ≠ [])
    (hall : ∀ x ∈ s, isAsciiLetter x = true) : replacedEmpty s = false := by
  rw [replacedEmpty]
  have hfil : s.filter (fun c => !(c == '_' || c == ' ' || c == '\n')) = s := by
    rw [List.filter_eq_self]
    intro a ha
    have halpha := hall a ha
    have h1 : (a == '_') = false := by
      rw [beq_eq_false_iff_ne]
      intro h0
      subst h0
      exact absurd halpha (by decide)
    have h2 : (a == ' ') = false := by
      rw [beq_eq_false_iff_ne]
      intro h0
      subst h0
      exact absurd halpha (by decide)
    have h3 : (a == '\n') = false := by
      rw [beq_eq_false_iff_ne]
      intro h0
      subst h0
      exact absurd halpha (by decide)
    rw [h1, h2, h3]
    rfl
  rw [hfil]
  exact isEmpty_false_of_ne_nil hne

theorem pyRepeat_length (p : LC) (k : Nat) : (pyRepeat p k).length = k * p.length := by
  induction k with
  | zero => simp [pyRepeat]
  | succ n ih =>
      rw [pyRepeat, List.length_append, ih]
      ring

/-- C10.  Any string of at least two alphabetic characters, with no
spaces or newlines, that is an exact repetition of two or more copies of
a shorter non-empty substring is skipped by _should_skip_source; the
five-letter string Alive alone is not skipped. -/
theorem C10_repeated_substring_skip :
    (∀ (s p : LC) (k : Nat),
      (∀ c ∈ s, isAsciiLetter c = true) → 2 ≤ s.length → p ≠ [] → 2 ≤ k →
      s = pyRepeat p k → should_skip_source s = true) ∧
    should_skip_source (sL ("Alive")) = false := by
  constructor
  · intro s p k hal hlen hp hk hrep
    have hnonws : ∀ c ∈ s, isPyWs c = false :=
      fun c hc => isAsciiLetter_not_ws (hal c hc)
    have hstrip : pyStrip s = s := pyStrip_eq_self hnonws
    have hsne : s ≠ [] := by
      intro h0
      rw [h0] at hlen
      simp at hlen
    have hplen : 0 < p.length := List.length_pos.mpr hp
    have hslen : s.length = k * p.length := by rw [hrep, pyRepeat_length]
    have hcbrace : pyContainsChar s '{' = false := alpha_no_char hal (by decide)
    have hcsp : pyContainsChar s ' ' = false := alpha_no_char hal (by decide)
    have hcnl : pyContainsChar s '\n' = false := alpha_no_char hal (by decide)
    have hcus : pyContainsChar s '_' = false := alpha_no_char hal (by decide)
    have hsub1 : pyContainsSub (sL ("%s")) s = false :=
      alpha_no_sub hal (by decide) (c := '%') (by decide)
    have hsub2 : pyContainsSub (sL ("%d")) s = false :=
      alpha_no_sub hal (by decide) (c := '%') (by decide)
    have hsub3 : pyContainsSub (sL ("%(")) s = false :=
      alpha_no_sub hal (by decide) (c := '%') (by decide)
    have hub : searchUBrace s = false := by
      rw [Bool.eq_false_iff]
      intro h0
      have := searchUBrace_mem h0
      have := hal _ this
      simp [isAsciiLetter] at this
    have hbu : searchBraceU s = false := by
      rw [Bool.eq_false_iff]
      intro h0
      have := searchBraceU_mem h0
      have := hal _ this
      simp [isAsciiLetter] at this
    have hre : replacedEmpty s = false := replacedEmpty_false_of_alpha hsne hal
    have halpha : pyStrIsAlpha s = true := by
      rw [pyStrIsAlpha, isEmpty_false_of_ne_nil hsne]
      simp only [Bool.not_false, Bool.true_and]
      exact List.all_eq_true.mpr (fun c hc => hal c hc)
    rw [should_skip_source]
    rw [hstrip]
    rw [if_neg (by rw [isEmpty_false_of_ne_nil hsne]; simp)]
    rw [if_neg (by rw [hcbrace]; simp)]
    rw [if_neg (by rw [hsub1, hsub2, hsub3]; simp)]
    rw [if_neg (by rw [hub, hbu]; simp)]
    rw [if_neg (by rw [hre]; simp)]
    rw [if_neg (by rw [hcus]; simp)]
    rw [if_pos (by
      rw [hcsp, hcnl, halpha]
      simp only [Bool.not_false, Bool.true_and, Bool.and_true]
      rw [decide_eq_true_eq]
      exact hlen)]
    rw [hasRepeatedPattern, List.any_eq_true]
    refine ⟨p.length, ?_, ?_⟩
    · rw [List.mem_range'_1]
      constructor
      · exact hplen
      · have h2p : 2 * p.length ≤ s.length := by
          rw [hslen]
          exact Nat.mul_le_mul_right p.length hk
        have : p.length ≤ s.length / 2 := by omega
        omega
    · rw [Bool.and_eq_true]
      constructor
      · rw [hslen]
        simp [Nat.mul_mod_left]
      · have htake : s.take p.length = p := by
          rw [hrep]
          cases k with
          | zero => omega
          | succ n =>
              rw [pyRepeat]
              exact List.take_left p (pyRepeat p n)
        have hdiv : s.length / p.length = k := by
          rw [hslen]
          exact Nat.mul_div_cancel k hplen
        rw [htake, hdiv, ← hrep]
        exact beq_self_eq_true s
  · decide

theorem C10_repeated_substring_skip_witness :
    should_skip_source (sL ("AliveAlive")) = true :=
  C10_repeated_substring_skip.1 (sL ("AliveAlive")) (sL ("Alive")) 2
    (by decide) (by decide) (by decide) (by decide) (by decide)

/- ---------------------------------------------------------------
   The .lang layer (translation_manager.py lines 173-189, 208-214,
   457-463, 467-499 and 519-533).  Python dicts over string keys are
   modelled as association lists with unique keys in insertion order;
   dictInsert mirrors d[k] = v (update in place, append if new).
   str.splitlines is modelled with the Python line-boundary characters.
   --------------------------------------------------------------- -/

/-- The Python str.splitlines line-boundary characters. -/
def isLineBreak (c : Char) : Bool :=
  let n := c.toNat
  n == 10 || n == 13 || n == 11 || n == 12 || n == 0x1c || n == 0x1d ||
  n == 0x1e || n == 0x85 || n == 0x2028 || n == 0x2029

/-- Worker of splitLines: acc holds the current line reversed.  A
carriage return followed by a newline counts as one boundary. -/
def slGo : LC → LC → List LC
  | acc, [] => [acc.reverse]
  | acc, c :: cs =>
      if c = '\r' then
        match cs with
        | [] => [acc.reverse]
        | c2 :: rest =>
            if c2 = '\n' then
              acc.reverse :: (if rest.isEmpty then [] else slGo [] rest)
            else acc.reverse :: slGo [] (c2 :: rest)
      else if isLineBreak c then
        acc.reverse :: (if cs.isEmpty then [] else slGo [] cs)
      else slGo (c :: acc) cs

/-- Python str.splitlines(). -/
def splitLines (s : LC) : List LC := if s.isEmpty then [] else slGo [] s

/-- Python dict membership. -/
def dictMem (d : List (LC × LC)) (k : LC) : Bool := d.any (fun p => p.1 == k)

/-- Python dict lookup d.get(k). -/
def dictGet (d : List (LC × LC)) (k : LC) : Option LC :=
  (d.find? (fun p => p.1 == k)).map (fun p => p.2)

/-- Python dict assignment d[k] = v: update in place, append if new. -/
def dictInsert (d : List (LC × LC)) (k v : LC) : List (LC × LC) :=
  if dictMem d k then d.map (fun p => if p.1 == k then (k, v) else p)
  else d ++ [(k, v)]

/-- The character class of everything except the equals sign. -/
def neEq (x : Char) : Bool := x != '='

/-- One line of parse_lang_content: strip, skip blank and comment lines,
split at the first equals sign, strip key and value. -/
def parseLangLine (acc : List (LC × LC)) (line : LC) : List (LC × LC) :=
  let l := pyStrip line
  if l.isEmpty then acc
  else if l.head? == some '#' then acc
  else if pyContainsChar l '=' then
    dictInsert acc (pyStrip (l.takeWhile neEq)) (pyStrip ((l.dropWhile neEq).tail))
  else acc

/-- parse_lang_content (translation_manager.py lines 174-183). -/
def parse_lang_content (text : LC) : List (LC × LC) :=
  (splitLines text).foldl parseLangLine []

/-- Lexicographic comparison of strings by code point, Python str <=. -/
def lcLe : LC → LC → Bool
  | [], _ => true
  | _ :: _, [] => false
  | a :: as, b :: bs =>
      if a.toNat < b.toNat then true
      else if b.toNat < a.toNat then false
      else lcLe as bs

/-- Python tuple comparison on (key, value) pairs, as used by sorted on
dict items. -/
def pairLe (p q : LC × LC) : Bool :=
  if p.1 == q.1 then lcLe p.2 q.2 else lcLe p.1 q.1

def insSorted (p : LC × LC) : List (LC × LC) → List (LC × LC)
  | [] => [p]
  | q :: qs => if pairLe p q then p :: q :: qs else q :: insSorted p qs

/-- Python sorted(entries.items()). -/
def sortPairs : List (LC × LC) → List (LC × LC)
  | [] => []
  | p :: ps => insSorted p (sortPairs ps)

/-- Join with newline. -/
def joinNL : List LC → LC
  | [] => []
  | l :: ls =>
      match ls with
      | [] => l
      | _ :: _ => l ++ '\n' :: joinNL ls

/-- lang_to_content (translation_manager.py lines 186-189); the saving
code calls it with use_spaces=False, separator "=". -/
def lang_to_content (entries : List (LC × LC)) (use_spaces : Bool) : LC :=
  joinNL ((sortPairs entries).map
    (fun p => p.1 ++ (if use_spaces then sL (" = ") else sL ("=")) ++ p.2))

/-- ASCII lowercase of one character, model of str.lower(). -/
def pyLowerChar (c : Char) : Char :=
  if 65 ≤ c.toNat ∧ c.toNat ≤ 90 then Char.ofNat (c.toNat + 32) else c

/-- Python str.lower(), on ASCII. -/
def pyLower (s : LC) : LC := s.map pyLowerChar

/-- Python s.replace(pat, repl, 1): replace the leftmost occurrence. -/
def replaceFirst (pat repl : LC) : LC → LC
  | [] => []
  | c :: cs =>
      if pat.isPrefixOf (c :: cs) then repl ++ (c :: cs).drop pat.length
      else c :: replaceFirst pat repl cs

/-- _key_case_variant (translation_manager.py lines 208-214). -/
def key_case_variant (key : LC) : LC :=
  if pyContainsSub (sL ("benchcategories.")) (pyLower key) then
    if pyContainsSub (sL ("benchcategories.")) key then
      replaceFirst (sL ("benchcategories.")) (sL ("benchCategories.")) key
    else
      replaceFirst (sL ("benchCategories.")) (sL ("benchcategories.")) key
  else key

/-- The alias loop of save_all_translations (lines 527-530): iterate a
snapshot of the merged items and add the case-variant alias for each key
that is absent from the current dict. -/
def aliasPass (d : List (LC × LC)) : List (LC × LC) :=
  d.foldl (fun acc p =>
    let alt := key_case_variant p.1
    if alt != p.1 && !(dictMem acc alt) then dictInsert acc alt p.2 else acc) d

/-- Python dict.update(entries) as used at line 525: insert each entry in
order. -/
def dictUpdate (d : List (LC × LC)) (entries : List (LC × LC)) : List (LC × LC) :=
  entries.foldl (fun acc p => dictInsert acc p.1 p.2) d

/-- The target-locale write of save_all_translations for one .lang file
(lines 519-533): parse the existing content if the file exists, merge the
new entries over it, add case-variant aliases, serialize sorted with the
bare equals separator. -/
def write_ru_lang (oldContent : Option LC) (entries : List (LC × LC)) : LC :=
  let existing_ru := match oldContent with
    | some t => parse_lang_content t
    | none => []
  lang_to_content (aliasPass (dictUpdate existing_ru entries)) false

/-- The row dictionaries of the catalogue: {type, file_rel, key, source,
translated}. -/
inductive RowType where
  | manifest
  | lang
  | ui
  | common_json
  | json
deriving DecidableEq, Repr

structure Row where
  type : RowType
  file_rel : LC
  key : LC
  source : LC
  translated : Option LC
deriving DecidableEq, Repr

/-- Split a path on the slash character, Python str.split("/"). -/
def splitSlash : LC → List LC
  | [] => [[]]
  | c :: cs =>
      if c = '/' then [] :: splitSlash cs
      else
        match splitSlash cs with
        | h :: t => (c :: h) :: t
        | [] => [[c]]

/-- Join path parts with slashes, Python "/".join(parts). -/
def joinSlash : List LC → LC
  | [] => []
  | p :: ps =>
      match ps with
      | [] => p
      | _ :: _ => p ++ '/' :: joinSlash ps

/-- The locale-directory test of lang_file_rel_to_ru: a non-empty part,
not already ru-RU, that starts with en or has length five with a dash in
the middle. -/
def isLocalePart (p : LC) : Bool :=
  !p.isEmpty && p != sL ("ru-RU") &&
    ((sL ("en")).isPrefixOf p || (p.length == 5 && p.get? 2 == some '-'))

def replaceLocalePart : List LC → List LC
  | [] => []
  | p :: ps => if isLocalePart p then sL ("ru-RU") :: ps else p :: replaceLocalePart ps

/-- lang_file_rel_to_ru (translation_manager.py lines 457-463). -/
def lang_file_rel_to_ru (rel : LC) : LC :=
  joinSlash (replaceLocalePart
    (splitSlash (rel.map (fun c => if c = '\\' then '/' else c))))

/-- The grouping pass of save_all_translations restricted to the lang
rows of one target file (lines 479-493): iterate the rows in order, strip
the translated text, keep the non-empty ones whose relative path maps to
the given target-locale path. -/
def lang_entries_for (rows : List Row) (ru_rel : LC) : List (LC × LC) :=
  rows.foldl (fun acc r =>
    let tr := pyStrip (r.translated.getD [])
    if r.type = RowType.lang ∧ ¬tr.isEmpty ∧ lang_file_rel_to_ru r.file_rel = ru_rel
    then dictInsert acc r.key tr else acc) []

/- ---------------------------------------------------------------
   Line-safety: the conditions under which a key or value survives the
   serialize-then-reparse round trip of the .lang format.
   --------------------------------------------------------------- -/

/-- No line-boundary character. -/
def lineSafe (s : LC) : Bool := s.all (fun c => !isLineBreak c)

/-- A key that the .lang line format stores faithfully: no line
boundaries, no equals sign, strip-invariant, and not starting with the
comment character. -/
def goodKey (k : LC) : Bool :=
  lineSafe k && !(pyContainsChar k '=') && (pyStrip k == k) && !(k.head? == some '#')

/-- A value that the .lang line format stores faithfully: no line
boundaries and strip-invariant. -/
def goodVal (v : LC) : Bool := lineSafe v && (pyStrip v == v)

theorem dropWhile_eq_self_iff_head {p : Char → Bool} {s : LC} :
    s.dropWhile p = s ↔ ∀ c, s.head? = some c → p c = false := by
  cases s with
  | nil => simp
  | cons c t =>
      rw [List.dropWhile_cons]
      by_cases hc : p c = true
      · rw [if_pos hc]
        constructor
        · intro h
          have hlen : (t.dropWhile p).length ≤ t.length := (List.dropWhile_sublist p).length_le
          have hcontra : (c :: t).length ≤ t.length := by rw [← h]; exact hlen
          rw [List.length_cons] at hcontra
          omega
        · intro h
          have := h c (by simp)
          rw [hc] at this
          exact absurd this (by simp)
      · rw [if_neg hc]
        constructor
        · intro _ d hd
          have hcd : c = d := by simpa using hd
          subst hcd
          simpa using hc
        · intro _
          rfl

theorem pyLStrip_eq_self_iff {s : LC} :
    pyLStrip s = s ↔ ∀ c, s.head? = some c → isPyWs c = false := by
  rw [pyLStrip]
  exact dropWhile_eq_self_iff_head

theorem pyRStrip_eq_self_iff {s : LC} :
    pyRStrip s = s ↔ ∀ c, s.reverse.head? = some c → isPyWs c = false := by
  rw [pyRStrip]
  constructor
  · intro h c hc
    have h2 : s.reverse.dropWhile isPyWs = s.reverse := by
      have := congrArg List.reverse h
      simpa using this
    exact (dropWhile_eq_self_iff_head.mp h2) c hc
  · intro h
    rw [dropWhile_eq_self_iff_head.mpr h]
    simp

theorem pyLStrip_length_le (s : LC) : (pyLStrip s).length ≤ s.length :=
  (List.dropWhile_sublist isPyWs).length_le

theorem pyRStrip_length_le (s : LC) : (pyRStrip s).length ≤ s.length := by
  rw [pyRStrip]
  have := (List.dropWhile_sublist (l := s.reverse) isPyWs).length_le
  simpa using this

theorem pyStrip_eq_self_iff {s : LC} :
    pyStrip s = s ↔ (∀ c, s.head? = some c → isPyWs c = false) ∧
      (∀ c, s.reverse.head? = some c → isPyWs c = false) := by
  constructor
  · intro h
    have hl : pyLStrip s = s := by
      have h1 : (pyStrip s).length ≤ (pyLStrip s).length := pyRStrip_length_le _
      have h2 : (pyLStrip s).length ≤ s.length := pyLStrip_length_le s
      have h3 : (pyStrip s).length = s.length := by rw [h]
      have hsub : pyLStrip s <:+ s := List.dropWhile_suffix isPyWs
      have : (pyLStrip s).length = s.length := by omega
      exact List.Sublist.eq_of_length hsub.sublist this
    have hr : pyRStrip s = s := by
      rw [pyStrip, hl] at h
      exact h
    exact ⟨pyLStrip_eq_self_iff.mp hl, pyRStrip_eq_self_iff.mp hr⟩
  · intro ⟨h1, h2⟩
    rw [pyStrip, pyLStrip_eq_self_iff.mpr h1, pyRStrip_eq_self_iff.mpr h2]

theorem pyRStrip_isPre (s : LC) : pyRStrip s <+: s := by
  rw [pyRStrip]
  have hsuf : s.reverse.dropWhile isPyWs <:+ s.reverse := List.dropWhile_suffix isPyWs
  obtain ⟨t, ht⟩ := hsuf
  refine ⟨t.reverse, ?_⟩
  have := congrArg List.reverse ht
  simpa using this

theorem pyStrip_subset (s : LC) : pyStrip s ⊆ s := by
  intro c hc
  have h1 : pyStrip s ⊆ pyLStrip s := (pyRStrip_isPre (pyLStrip s)).sublist.subset
  have h2 : pyLStrip s ⊆ s := (List.dropWhile_sublist isPyWs).subset
  exact h2 (h1 hc)

theorem dropWhile_head_false {p : Char → Bool} {s : LC} {c : Char} {t : LC}
    (h : s.dropWhile p = c :: t) : p c = false := by
  induction s with
  | nil => simp at h
  | cons a as ih =>
      rw [List.dropWhile_cons] at h
      by_cases ha : p a = true
      · rw [if_pos ha] at h
        exact ih h
      · rw [if_neg ha] at h
        injection h with h1 _
        subst h1
        simpa using ha

theorem pyStrip_head_not_ws {s : LC} {c : Char} (h : (pyStrip s).head? = some c) :
    isPyWs c = false := by
  obtain ⟨t, ht⟩ : ∃ t, pyStrip s = c :: t := by
    cases hs : pyStrip s with
    | nil => rw [hs] at h; simp at h
    | cons a t =>
        rw [hs] at h
        have : a = c := by simpa using h
        subst this
        exact ⟨t, rfl⟩
  have hpre : pyStrip s <+: pyLStrip s := pyRStrip_isPre (pyLStrip s)
  obtain ⟨w, hw⟩ := hpre
  rw [ht] at hw
  rw [pyLStrip] at hw
  have hdw : s.dropWhile isPyWs = c :: (t ++ w) := by
    rw [← hw]
    simp
  exact dropWhile_head_false hdw

theorem pyStrip_revhead_not_ws {s : LC} {c : Char}
    (h : (pyStrip s).reverse.head? = some c) : isPyWs c = false := by
  have : ∃ t, (pyLStrip s).reverse.dropWhile isPyWs = c :: t := by
    have hrev : (pyStrip s).reverse = (pyLStrip s).reverse.dropWhile isPyWs := by
      rw [pyStrip, pyRStrip]
      simp
    rw [hrev] at h
    cases hs : (pyLStrip s).reverse.dropWhile isPyWs with
    | nil => rw [hs] at h; simp at h
    | cons a t =>
        rw [hs] at h
        have : a = c := by simpa using h
        subst this
        exact ⟨t, rfl⟩
  obtain ⟨t, ht⟩ := this
  exact dropWhile_head_false ht

theorem pyStrip_idem (s : LC) : pyStrip (pyStrip s) = pyStrip s :=
  pyStrip_eq_self_iff.mpr
    ⟨fun c hc => pyStrip_head_not_ws hc, fun c hc => pyStrip_revhead_not_ws hc⟩

theorem slGo_cons_break {c : Char} (hcr : ¬ c = '\r') (hbr : isLineBreak c = true)
    (acc X : LC) :
    slGo acc (c :: X) = acc.reverse :: (if X.isEmpty then [] else slGo [] X) := by
  cases X with
  | nil => rw [slGo.eq_2, if_neg hcr, if_pos hbr]
  | cons c2 rest => rw [slGo.eq_3, if_neg hcr, if_pos hbr]

theorem slGo_cons_nonbreak {c : Char} (hcr : ¬ c = '\r') (hbr : isLineBreak c = false)
    (acc X : LC) : slGo acc (c :: X) = slGo (c :: acc) X := by
  cases X with
  | nil => rw [slGo.eq_2, if_neg hcr, if_neg (by simp [hbr])]
  | cons c2 rest => rw [slGo.eq_3, if_neg hcr, if_neg (by simp [hbr])]

theorem slGo_append_lineSafe {l : LC} (hl : lineSafe l = true) :
    ∀ (acc rest : LC), slGo acc (l ++ rest) = slGo (l.reverse ++ acc) rest := by
  induction l with
  | nil => intro acc rest; simp
  | cons c cs ih =>
      intro acc rest
      rw [lineSafe, List.all_cons, Bool.and_eq_true] at hl
      have hc : isLineBreak c = false := by
        have := hl.1
        simpa using this
      have hcr : ¬ c = '\r' := by
        intro h0
        subst h0
        exact absurd hc (by decide)
      rw [List.cons_append, slGo_cons_nonbreak hcr hc]
      rw [ih (by rw [lineSafe]; exact hl.2) (c :: acc) rest]
      simp

theorem slGo_final {l : LC} (hl : lineSafe l = true) (acc : LC) :
    slGo acc l = [acc.reverse ++ l] := by
  have := slGo_append_lineSafe hl acc []
  rw [List.append_nil] at this
  rw [this, slGo]
  simp

theorem joinNL_ne_nil {l : LC} {ls : List LC} (hl : l ≠ []) :
    joinNL (l :: ls) ≠ [] := by
  cases ls with
  | nil => simpa [joinNL] using hl
  | cons l2 rest =>
      show l ++ '\n' :: joinNL (l2 :: rest) ≠ []
      intro h0
      rw [List.append_eq_nil] at h0
      exact absurd h0.2 (by simp)

theorem splitLines_joinNL {lines : List LC}
    (h : ∀ l ∈ lines, l ≠ [] ∧ lineSafe l = true) :
    splitLines (joinNL lines) = lines := by
  induction lines with
  | nil => rfl
  | cons l ls ih =>
      obtain ⟨hne, hsafe⟩ := h l (by simp)
      cases ls with
      | nil =>
          show splitLines l = [l]
          rw [splitLines, if_neg (by simpa using isEmpty_false_of_ne_nil hne)]
          rw [slGo_final hsafe []]
          simp
      | cons l2 rest =>
          show splitLines (l ++ '\n' :: joinNL (l2 :: rest)) = l :: l2 :: rest
          rw [splitLines,
            if_neg (by
              rw [Bool.not_eq_true]
              apply isEmpty_false_of_ne_nil
              intro h0
              rw [List.append_eq_nil] at h0
              exact hne h0.1)]
          rw [slGo_append_lineSafe hsafe [] ('\n' :: joinNL (l2 :: rest))]
          rw [slGo_cons_break (by decide) (by decide)]
          have hj2 : joinNL (l2 :: rest) ≠ [] := joinNL_ne_nil (h l2 (by simp)).1
          rw [if_neg (by simpa using isEmpty_false_of_ne_nil hj2)]
          have ihx := ih (fun x hx => h x (by simp [hx]))
          rw [splitLines, if_neg (by simpa using isEmpty_false_of_ne_nil hj2)] at ihx
          rw [ihx]
          simp

theorem slGo_lineSafe (acc s : LC) : lineSafe acc.reverse = true →
    ∀ l ∈ slGo acc s, lineSafe l = true := by
  induction acc, s using slGo.induct with
  | case1 acc =>
      intro hacc l hl
      rw [slGo] at hl
      rw [List.mem_singleton] at hl
      subst hl
      exact hacc
  | case2 acc =>
      intro hacc l hl
      rw [slGo, if_pos rfl] at hl
      rw [List.mem_singleton] at hl
      subst hl
      exact hacc
  | case3 acc rest ih =>
      intro hacc l hl
      rw [slGo, if_pos rfl, if_pos rfl] at hl
      rw [List.mem_cons] at hl
      rcases hl with hl | hl
      · subst hl; exact hacc
      · split at hl
        · simp at hl
        · exact ih (by decide) l hl
  | case4 acc c2 rest hc2 ih =>
      intro hacc l hl
      rw [slGo, if_pos rfl, if_neg hc2] at hl
      rw [List.mem_cons] at hl
      rcases hl with hl | hl
      · subst hl; exact hacc
      · exact ih (by decide) l hl
  | case5 acc c cs hcr hbr ih =>
      intro hacc l hl
      rw [slGo_cons_break hcr hbr] at hl
      rw [List.mem_cons] at hl
      rcases hl with hl | hl
      · subst hl; exact hacc
      · split at hl
        · simp at hl
        · exact ih (by decide) l hl
  | case6 acc c cs hcr hbr ih =>
      intro hacc l hl
      rw [slGo_cons_nonbreak hcr (by simpa using hbr)] at hl
      refine ih ?_ l hl
      rw [List.reverse_cons, lineSafe, List.all_append]
      rw [lineSafe] at hacc
      rw [hacc]
      simp only [Bool.true_and, List.all_cons, List.all_nil, Bool.and_true]
      rw [Bool.not_eq_true] at hbr
      simp [hbr]

theorem splitLines_lineSafe {s : LC} : ∀ l ∈ splitLines s, lineSafe l = true := by
  rw [splitLines]
  split
  · simp
  · exact slGo_lineSafe [] s (by decide)

theorem takeWhile_append_until {p : Char → Bool} {a : LC} (ha : ∀ c ∈ a, p c = true)
    {x : Char} (hx : p x = false) (b : LC) :
    (a ++ x :: b).takeWhile p = a ∧ (a ++ x :: b).dropWhile p = x :: b := by
  induction a with
  | nil =>
      constructor
      · rw [List.nil_append, List.takeWhile_cons, hx]
        rfl
      · rw [List.nil_append, List.dropWhile_cons, hx]
        rfl
  | cons c cs ih =>
      have hc : p c = true := ha c (by simp)
      obtain ⟨ih1, ih2⟩ := ih (fun d hd => ha d (by simp [hd]))
      constructor
      · rw [List.cons_append, List.takeWhile_cons, hc]
        simp only [if_true]
        rw [ih1]
      · rw [List.cons_append, List.dropWhile_cons, hc]
        simp only [if_true]
        rw [ih2]

theorem goodKey_props {k : LC} (h : goodKey k = true) :
    lineSafe k = true ∧ pyContainsChar k '=' = false ∧ pyStrip k = k ∧
      ¬ (k.head? = some '#') := by
  rw [goodKey] at h
  simp only [Bool.and_eq_true, Bool.not_eq_eq_eq_not, Bool.not_true, beq_iff_eq] at h
  obtain ⟨⟨⟨h1, h2⟩, h3⟩, h4⟩ := h
  refine ⟨h1, by simpa using h2, h3, ?_⟩
  intro h0
  rw [h0] at h4
  simp at h4

theorem goodVal_props {v : LC} (h : goodVal v = true) :
    lineSafe v = true ∧ pyStrip v = v := by
  rw [goodVal] at h
  simp only [Bool.and_eq_true, beq_iff_eq] at h
  exact h

theorem head_append_cons {a : LC} {x : Char} {b : LC} :
    (a ++ x :: b).head? = some (a.headD x) := by
  cases a with
  | nil => rfl
  | cons c cs => rfl

theorem langLine_strip {k v : LC} (hk : goodKey k = true) (hv : goodVal v = true) :
    pyStrip (k ++ '=' :: v) = k ++ '=' :: v := by
  obtain ⟨_, _, hks, _⟩ := goodKey_props hk
  obtain ⟨_, hvs⟩ := goodVal_props hv
  rw [pyStrip_eq_self_iff]
  constructor
  · intro c hc
    cases k with
    | nil =>
        have h0 : '=' = c := by simpa using hc
        subst h0
        decide
    | cons a tl =>
        have hac : a = c := by simpa using hc
        subst hac
        exact pyStrip_eq_self_iff.mp hks |>.1 a (by simp)
  · intro c hc
    rw [List.reverse_append, List.reverse_cons] at hc
    cases hvr : v.reverse with
    | nil =>
        rw [hvr] at hc
        have h0 : '=' = c := by simpa using hc
        subst h0
        decide
    | cons a tl =>
        rw [hvr] at hc
        have hac : a = c := by simpa using hc
        subst hac
        refine pyStrip_eq_self_iff.mp hvs |>.2 a ?_
        rw [hvr]
        simp

theorem parseLangLine_langLine {k v : LC} (hk : goodKey k = true)
    (hv : goodVal v = true) (acc : List (LC × LC)) :
    parseLangLine acc (k ++ '=' :: v) = dictInsert acc k v := by
  obtain ⟨_, hkeq, hks, hkh⟩ := goodKey_props hk
  obtain ⟨_, hvs⟩ := goodVal_props hv
  have hka : ∀ c ∈ k, neEq c = true := by
    intro c hc
    rw [neEq]
    simp only [bne_iff_ne, ne_eq]
    intro h0
    subst h0
    have hct : pyContainsChar k '=' = true := by
      rw [pyContainsChar, List.any_eq_true]
      exact ⟨'=', hc, by simp⟩
    rw [hct] at hkeq
    exact Bool.noConfusion hkeq
  obtain ⟨htw, hdw⟩ := takeWhile_append_until hka (x := '=') (by decide) v
  rw [parseLangLine]
  simp only [langLine_strip hk hv]
  rw [if_neg (by
    simp only [Bool.not_eq_true]
    apply isEmpty_false_of_ne_nil
    intro h0
    rw [List.append_eq_nil] at h0
    exact absurd h0.2 (by simp))]
  rw [if_neg (by
    rw [head_append_cons]
    cases k with
    | nil => simp
    | cons a tl =>
        simp only [List.headD_cons, beq_iff_eq, Option.some.injEq]
        intro h0
        exact hkh (by simp [h0]))]
  rw [if_pos (by
    rw [pyContainsChar, List.any_eq_true]
    exact ⟨'=', by simp, by simp⟩)]
  rw [htw, hdw]
  rw [List.tail_cons, hks, hvs]

theorem foldl_parseLangLine_map {ps : List (LC × LC)}
    (h : ∀ p ∈ ps, goodKey p.1 = true ∧ goodVal p.2 = true) :
    ∀ acc, (ps.map (fun p => p.1 ++ '=' :: p.2)).foldl parseLangLine acc =
      dictUpdate acc ps := by
  induction ps with
  | nil => intro acc; rfl
  | cons p ps ih =>
      intro acc
      obtain ⟨hk, hv⟩ := h p (by simp)
      rw [List.map_cons, List.foldl_cons, parseLangLine_langLine hk hv]
      rw [ih (fun q hq => h q (by simp [hq]))]
      rfl

/- ---------------------------------------------------------------
   Dictionary lemmas: dictInsert, dictUpdate, dictGet.
   --------------------------------------------------------------- -/

theorem dictMem_false_get {d : List (LC × LC)} {k : LC} (h : dictMem d k = false) :
    dictGet d k = none := by
  have hfind : d.find? (fun p => p.1 == k) = none := by
    rw [List.find?_eq_none]
    intro p hp
    rw [dictMem, List.any_eq_false] at h
    exact h p hp
  rw [dictGet, hfind]
  rfl

theorem dictGet_some_mem {d : List (LC × LC)} {k v : LC}
    (h : dictGet d k = some v) : (k, v) ∈ d := by
  rw [dictGet] at h
  cases hf : d.find? (fun p => p.1 == k) with
  | none => rw [hf] at h; simp at h
  | some p =>
      rw [hf] at h
      have hp2 : p.2 = v := by simpa using h
      have hmem := List.mem_of_find?_eq_some hf
      have hpred := List.find?_some hf
      have hp1 : p.1 = k := by simpa using hpred
      have : p = (k, v) := by
        rcases p with ⟨a, b⟩
        simp only at hp1 hp2
        rw [hp1, hp2]
      rw [← this]
      exact hmem

theorem dictGet_ne_none_mem {d : List (LC × LC)} {k : LC}
    (h : dictGet d k ≠ none) : dictMem d k = true := by
  by_contra h0
  rw [Bool.not_eq_true] at h0
  exact h (dictMem_false_get h0)

theorem dictGet_cons (p : LC × LC) (ps : List (LC × LC)) (k : LC) :
    dictGet (p :: ps) k = if (p.1 == k) = true then some p.2 else dictGet ps k := by
  by_cases hp : (p.1 == k) = true
  · rw [if_pos hp, dictGet]
    simp only [List.find?_cons, hp]
    rfl
  · rw [if_neg hp, dictGet]
    rw [Bool.not_eq_true] at hp
    simp only [List.find?_cons, hp]
    rw [dictGet]

theorem dictGet_map_ne {d : List (LC × LC)} {k v k2 : LC} (hne : k2 ≠ k) :
    dictGet (d.map (fun p => if p.1 == k then (k, v) else p)) k2 = dictGet d k2 := by
  induction d with
  | nil => rfl
  | cons p ps ih =>
      rw [List.map_cons, dictGet_cons, dictGet_cons]
      by_cases hp : (p.1 == k) = true
      · have hp1 : p.1 = k := by simpa using hp
        rw [if_pos hp]
        have hleft : ((k, v).1 == k2) = false := by
          simp [Ne.symm hne]
        have hright : (p.1 == k2) = false := by
          rw [hp1]
          simp [Ne.symm hne]
        rw [hleft, hright]
        simp only [Bool.false_eq_true, if_false]
        exact ih
      · rw [if_neg hp]
        by_cases hp2 : (p.1 == k2) = true
        · rw [hp2]
          simp
        · rw [Bool.not_eq_true] at hp2
          rw [hp2]
          simp only [Bool.false_eq_true, if_false]
          exact ih

theorem dictGet_setval_self {d : List (LC × LC)} {k v : LC}
    (hm : dictMem d k = true) :
    dictGet (d.map (fun p => if p.1 == k then (k, v) else p)) k = some v := by
  induction d with
  | nil => exact absurd hm (by simp [dictMem])
  | cons p ps ih =>
      rw [List.map_cons, dictGet_cons]
      by_cases hp : (p.1 == k) = true
      · rw [if_pos hp]
        simp
      · rw [if_neg hp]
        have hm2 : dictMem ps k = true := by
          rw [dictMem, List.any_cons] at hm
          rcases Bool.or_eq_true_iff.mp hm with h0 | h0
          · exact absurd h0 hp
          · exact h0
        rw [if_neg (by simpa using hp)]
        exact ih hm2

theorem dictGet_append (d e : List (LC × LC)) (k : LC) :
    dictGet (d ++ e) k =
      match dictGet d k with
      | some v => some v
      | none => dictGet e k := by
  induction d with
  | nil => simp [dictGet]
  | cons p ps ih =>
      rw [List.cons_append, dictGet_cons, dictGet_cons]
      by_cases hp : (p.1 == k) = true
      · rw [if_pos hp, if_pos hp]
      · rw [if_neg hp, if_neg hp]
        exact ih

theorem dictGet_insert (d : List (LC × LC)) (k v k2 : LC) :
    dictGet (dictInsert d k v) k2 = if k2 = k then some v else dictGet d k2 := by
  rw [dictInsert]
  by_cases hm : dictMem d k = true
  · rw [if_pos hm]
    by_cases hk2 : k2 = k
    · subst hk2
      rw [if_pos rfl]
      exact dictGet_setval_self hm
    · rw [if_neg hk2]
      exact dictGet_map_ne hk2
  · rw [if_neg hm, dictGet_append]
    by_cases hk2 : k2 = k
    · subst hk2
      rw [if_pos rfl]
      rw [Bool.not_eq_true] at hm
      rw [dictMem_false_get hm]
      rw [dictGet_cons]
      rw [if_pos (by simp)]
    · rw [if_neg hk2]
      cases hf : dictGet d k2 with
      | some w => rfl
      | none =>
          simp only []
          rw [dictGet_cons, if_neg (by simp [Ne.symm hk2])]
          rfl

theorem dictUpdate_get_notin {entries : List (LC × LC)} {k : LC}
    (h : ∀ p ∈ entries, p.1 ≠ k) (d : List (LC × LC)) :
    dictGet (dictUpdate d entries) k = dictGet d k := by
  induction entries generalizing d with
  | nil => rfl
  | cons e es ih =>
      rw [dictUpdate, List.foldl_cons]
      have step : dictGet (dictUpdate (dictInsert d e.1 e.2) es) k =
          dictGet (dictInsert d e.1 e.2) k := ih (fun p hp => h p (by simp [hp])) _
      rw [dictUpdate] at step
      rw [step, dictGet_insert, if_neg (fun h0 => h e (by simp) (by rw [h0]))]

/-- Both components of a dictionary entry survive the .lang line format. -/
def goodPair (p : LC × LC) : Prop := goodKey p.1 = true ∧ goodVal p.2 = true

/-- Distinct keys, the Python dict invariant. -/
def dk (d : List (LC × LC)) : Prop := d.Pairwise (fun a b => a.1 ≠ b.1)

theorem lineSafe_subset {s t : LC} (hsub : t ⊆ s) (hs : lineSafe s = true) :
    lineSafe t = true := by
  rw [lineSafe, List.all_eq_true] at hs ⊢
  exact fun c hc => hs c (hsub hc)

theorem dictInsert_good {d : List (LC × LC)} {k v : LC}
    (hd : ∀ p ∈ d, goodPair p) (hk : goodKey k = true) (hv : goodVal v = true) :
    ∀ p ∈ dictInsert d k v, goodPair p := by
  intro p hp
  rw [dictInsert] at hp
  split at hp
  · rw [List.mem_map] at hp
    obtain ⟨q, hq, hqp⟩ := hp
    by_cases hq1 : (q.1 == k) = true
    · rw [if_pos hq1] at hqp
      rw [← hqp]
      exact ⟨hk, hv⟩
    · rw [if_neg hq1] at hqp
      rw [← hqp]
      exact hd q hq
  · rw [List.mem_append] at hp
    rcases hp with hp | hp
    · exact hd p hp
    · rw [List.mem_singleton] at hp
      rw [hp]
      exact ⟨hk, hv⟩

theorem dictInsert_dk {d : List (LC × LC)} {k v : LC} (hd : dk d) :
    dk (dictInsert d k v) := by
  rw [dictInsert]
  split
  · rw [dk]
    have hmap : (d.map (fun p => if p.1 == k then (k, v) else p)).Pairwise
        (fun a b => a.1 ≠ b.1) := by
      rw [List.pairwise_map]
      refine hd.imp_of_mem ?_
      intro a b _ _ hab
      by_cases ha : (a.1 == k) = true
      · have ha1 : a.1 = k := by simpa using ha
        rw [if_pos ha]
        by_cases hb : (b.1 == k) = true
        · have hb1 : b.1 = k := by simpa using hb
          exact absurd (ha1.trans hb1.symm) hab
        · rw [if_neg hb]
          simp only []
          intro h0
          apply hb
          rw [← h0]
          simp
      · rw [if_neg ha]
        by_cases hb : (b.1 == k) = true
        · rw [if_pos hb]
          have hb1 : b.1 = k := by simpa using hb
          simp only []
          intro h0
          apply ha
          rw [h0]
          simp
        · rw [if_neg hb]
          exact hab
    exact hmap
  · next hmem =>
      rw [dk, List.pairwise_append]
      refine ⟨hd, by simp, ?_⟩
      intro a ha b hb
      rw [List.mem_singleton] at hb
      rw [hb]
      simp only []
      intro h0
      rw [Bool.not_eq_true] at hmem
      rw [dictMem, List.any_eq_false] at hmem
      exact absurd (by simp [h0]) (hmem a ha)

theorem dictUpdate_good {entries : List (LC × LC)}
    (he : ∀ p ∈ entries, goodPair p) :
    ∀ {d : List (LC × LC)}, (∀ p ∈ d, goodPair p) →
    ∀ p ∈ dictUpdate d entries, goodPair p := by
  induction entries with
  | nil => intro d hd p hp; exact hd p hp
  | cons e es ih =>
      intro d hd p hp
      rw [dictUpdate, List.foldl_cons] at hp
      obtain ⟨hek, hev⟩ := he e (by simp)
      refine ih (fun q hq => he q (by simp [hq])) ?_ p hp
      exact dictInsert_good hd hek hev

theorem dictUpdate_dk {entries : List (LC × LC)} :
    ∀ {d : List (LC × LC)}, dk d → dk (dictUpdate d entries) := by
  induction entries with
  | nil => intro d hd; exact hd
  | cons e es ih =>
      intro d hd
      rw [dictUpdate, List.foldl_cons]
      exact ih (dictInsert_dk hd)

theorem dropWhile_append_singleton {p : Char → Bool} {x : Char} (hx : p x = false)
    (ys : LC) : (ys ++ [x]).dropWhile p = ys.dropWhile p ++ [x] := by
  induction ys with
  | nil => simp [List.dropWhile_cons, hx]
  | cons y ys ih =>
      rw [List.cons_append, List.dropWhile_cons, List.dropWhile_cons]
      by_cases hy : p y = true
      · rw [if_pos hy, if_pos hy]
        exact ih
      · rw [if_neg hy, if_neg hy]
        rfl

theorem pyRStrip_cons {a : Char} (ha : isPyWs a = false) (w : LC) :
    pyRStrip (a :: w) = a :: pyRStrip w := by
  rw [pyRStrip, pyRStrip, List.reverse_cons, dropWhile_append_singleton ha]
  simp

theorem pyStrip_cons {a : Char} (ha : isPyWs a = false) (w : LC) :
    pyStrip (a :: w) = a :: pyRStrip w := by
  rw [pyStrip, pyLStrip, List.dropWhile_cons, ha]
  simp only [Bool.false_eq_true, if_false]
  exact pyRStrip_cons ha w

theorem pyRStrip_subset (s : LC) : pyRStrip s ⊆ s :=
  (pyRStrip_isPre s).sublist.subset

theorem parseLangLine_good {line : LC} (hsafe : lineSafe line = true)
    {acc : List (LC × LC)} (hacc : ∀ p ∈ acc, goodPair p) :
    ∀ p ∈ parseLangLine acc line, goodPair p := by
  intro p hp
  rw [parseLangLine] at hp
  by_cases h1 : (pyStrip line).isEmpty = true
  · rw [if_pos h1] at hp
    exact hacc p hp
  · rw [if_neg h1] at hp
    by_cases h2 : ((pyStrip line).head? == some '#') = true
    · rw [if_pos h2] at hp
      exact hacc p hp
    · rw [if_neg h2] at hp
      by_cases h3 : pyContainsChar (pyStrip line) '=' = true
      · rw [if_pos h3] at hp
        have hlsub : pyStrip line ⊆ line := pyStrip_subset line
        have hlsafe : lineSafe (pyStrip line) = true := lineSafe_subset hlsub hsafe
        have hkgood : goodKey (pyStrip ((pyStrip line).takeWhile neEq)) = true := by
          rw [goodKey]
          have hsub2 : pyStrip ((pyStrip line).takeWhile neEq) ⊆ pyStrip line :=
            fun c hc =>
              (List.takeWhile_sublist neEq).subset (pyStrip_subset _ hc)
          have hls : lineSafe (pyStrip ((pyStrip line).takeWhile neEq)) = true :=
            lineSafe_subset (fun c hc => hlsub (hsub2 hc)) hsafe
          have hnoeq : pyContainsChar (pyStrip ((pyStrip line).takeWhile neEq)) '=' =
              false := by
            rw [pyContainsChar, List.any_eq_false]
            intro c hc
            have hcin : c ∈ (pyStrip line).takeWhile neEq := pyStrip_subset _ hc
            have := List.mem_takeWhile_imp hcin
            rw [neEq] at this
            simp only [bne_iff_ne, ne_eq] at this
            simp only [beq_eq_false_iff_ne, ne_eq]
            intro h0
            exact this (by simpa using h0)
          have hsi : (pyStrip (pyStrip ((pyStrip line).takeWhile neEq)) ==
              pyStrip ((pyStrip line).takeWhile neEq)) = true := by
            rw [pyStrip_idem]
            simp
          have hhash : (List.head? (pyStrip ((pyStrip line).takeWhile neEq)) ==
              some '#') = false := by
            cases hl0 : pyStrip line with
            | nil =>
                rw [hl0] at h1
                simp at h1
            | cons a l2 =>
                have hanw : isPyWs a = false := by
                  refine pyStrip_head_not_ws (s := line) ?_
                  rw [hl0]
                  rfl
                have hane : a ≠ '#' := by
                  intro h0
                  rw [hl0, h0] at h2
                  simp at h2
                rw [List.takeWhile_cons]
                by_cases hna : neEq a = true
                · rw [if_pos hna]
                  rw [pyStrip_cons hanw]
                  simp only [List.head?_cons, beq_eq_false_iff_ne, ne_eq,
                    Option.some.injEq]
                  exact hane
                · rw [if_neg hna]
                  rfl
          rw [hls, hnoeq, hsi, hhash]
          rfl
        have hvgood : goodVal (pyStrip (((pyStrip line).dropWhile neEq).tail)) =
            true := by
          rw [goodVal]
          have hsub2 : pyStrip (((pyStrip line).dropWhile neEq).tail) ⊆ line := by
            intro c hc
            have h4 := pyStrip_subset _ hc
            have h5 : ((pyStrip line).dropWhile neEq).tail ⊆
                (pyStrip line).dropWhile neEq := (List.tail_sublist _).subset
            exact hlsub ((List.dropWhile_sublist neEq).subset (h5 h4))
          have hls : lineSafe (pyStrip (((pyStrip line).dropWhile neEq).tail)) =
              true := lineSafe_subset hsub2 hsafe
          rw [hls, pyStrip_idem]
          simp
        exact dictInsert_good hacc hkgood hvgood p hp
      · rw [if_neg h3] at hp
        exact hacc p hp

theorem parseLangLine_dk {line : LC} {acc : List (LC × LC)} (hacc : dk acc) :
    dk (parseLangLine acc line) := by
  rw [parseLangLine]
  split
  · exact hacc
  · split
    · exact hacc
    · split
      · exact dictInsert_dk hacc
      · exact hacc

theorem parse_lang_content_good (t : LC) :
    ∀ p ∈ parse_lang_content t, goodPair p := by
  rw [parse_lang_content]
  have hlines := splitLines_lineSafe (s := t)
  have hgen : ∀ (ls : List LC), (∀ l ∈ ls, lineSafe l = true) →
      ∀ (acc : List (LC × LC)), (∀ p ∈ acc, goodPair p) →
      ∀ p ∈ ls.foldl parseLangLine acc, goodPair p := by
    intro ls
    induction ls with
    | nil => intro _ acc hacc p hp; exact hacc p hp
    | cons l ls ih =>
        intro hsafe acc hacc p hp
        rw [List.foldl_cons] at hp
        exact ih (fun x hx => hsafe x (by simp [hx]))
          (parseLangLine acc l)
          (parseLangLine_good (hsafe l (by simp)) hacc) p hp
  exact hgen (splitLines t) hlines [] (by simp)

theorem parse_lang_content_dk (t : LC) : dk (parse_lang_content t) := by
  rw [parse_lang_content]
  have hgen : ∀ (ls : List LC) (acc : List (LC × LC)), dk acc →
      dk (ls.foldl parseLangLine acc) := by
    intro ls
    induction ls with
    | nil => intro acc hacc; exact hacc
    | cons l ls ih =>
        intro acc hacc
        rw [List.foldl_cons]
        exact ih _ (parseLangLine_dk hacc)
  exact hgen (splitLines t) [] (by rw [dk]; exact List.Pairwise.nil)

theorem insSorted_perm (p : LC × LC) (l : List (LC × LC)) :
    List.Perm (insSorted p l) (p :: l) := by
  induction l with
  | nil => exact List.Perm.refl _
  | cons q qs ih =>
      rw [insSorted]
      split
      · exact List.Perm.refl _
      · exact List.Perm.trans (ih.cons q) (List.Perm.swap p q qs)

theorem sortPairs_perm (l : List (LC × LC)) : List.Perm (sortPairs l) l := by
  induction l with
  | nil => exact List.Perm.refl _
  | cons p ps ih =>
      rw [sortPairs]
      exact List.Perm.trans (insSorted_perm p _) (ih.cons p)

theorem dictGet_some_of_mem_dk {d : List (LC × LC)} {k v : LC} (hd : dk d)
    (hm : (k, v) ∈ d) : dictGet d k = some v := by
  induction d with
  | nil => simp at hm
  | cons q qs ih =>
      rw [dk, List.pairwise_cons] at hd
      rw [List.mem_cons] at hm
      rw [dictGet_cons]
      rcases hm with hm | hm
      · rw [← hm]
        simp
      · have hq1 : q.1 ≠ k := hd.1 (k, v) hm
        rw [if_neg (by simpa using hq1)]
        exact ih hd.2 hm

theorem dictGet_none_iff {d : List (LC × LC)} {k : LC} :
    dictGet d k = none ↔ ∀ p ∈ d, p.1 ≠ k := by
  constructor
  · intro h p hp h0
    have : d.find? (fun q => q.1 == k) = none := by
      rw [dictGet] at h
      cases hf : d.find? (fun q => q.1 == k) with
      | none => rfl
      | some q => rw [hf] at h; simp at h
    rw [List.find?_eq_none] at this
    exact this p hp (by simp [h0])
  · intro h
    rw [dictGet]
    have : d.find? (fun q => q.1 == k) = none := by
      rw [List.find?_eq_none]
      intro p hp
      simp only [Bool.not_eq_true, beq_eq_false_iff_ne, ne_eq]
      exact h p hp
    rw [this]
    rfl

theorem dictGet_perm_dk {d e : List (LC × LC)} (hperm : List.Perm d e) (hd : dk d)
    (k : LC) : dictGet d k = dictGet e k := by
  have hde : dk e := by
    rw [dk] at hd ⊢
    exact (hperm.pairwise_iff (fun hab => Ne.symm hab)).mp hd
  cases hget : dictGet d k with
  | some v =>
      exact (dictGet_some_of_mem_dk hde (hperm.mem_iff.mp (dictGet_some_mem hget))).symm
  | none =>
      symm
      rw [dictGet_none_iff] at hget ⊢
      intro p hp
      exact hget p (hperm.mem_iff.mpr hp)

/-- Folding a distinct-key pair list over dictInsert reads back like the
pair list itself, falling through to the start dictionary. -/
theorem dictUpdate_get_dk {ps : List (LC × LC)} (hdk : dk ps) (k : LC) :
    ∀ (acc : List (LC × LC)),
    dictGet (dictUpdate acc ps) k =
      match dictGet ps k with
      | some v => some v
      | none => dictGet acc k := by
  induction ps with
  | nil => intro acc; rfl
  | cons p ps ih =>
      intro acc
      rw [dk, List.pairwise_cons] at hdk
      rw [dictUpdate, List.foldl_cons]
      have step : (ps.foldl (fun acc q => dictInsert acc q.1 q.2)
          (dictInsert acc p.1 p.2)) = dictUpdate (dictInsert acc p.1 p.2) ps := rfl
      rw [step, ih hdk.2 (dictInsert acc p.1 p.2), dictGet_cons]
      by_cases hk : (p.1 == k) = true
      · have hk1 : p.1 = k := by simpa using hk
        have hnone : dictGet ps k = none := by
          rw [dictGet_none_iff]
          intro q hq
          rw [← hk1]
          exact Ne.symm (hdk.1 q hq)
        rw [hnone, if_pos hk, dictGet_insert, if_pos hk1.symm]
      · rw [if_neg hk]
        cases hget : dictGet ps k with
        | some v => rfl
        | none =>
            simp only []
            rw [dictGet_insert, if_neg (by
              intro h0
              rw [h0] at hk
              simp at hk)]

/-- Decomposition of a first-occurrence replacement: either nothing
matched, or the string splits around the leftmost occurrence. -/
theorem replaceFirst_decomp (pat repl : LC) (s : LC) :
    replaceFirst pat repl s = s ∨
    ∃ a b, s = a ++ pat ++ b ∧ replaceFirst pat repl s = a ++ repl ++ b := by
  induction s with
  | nil => exact Or.inl rfl
  | cons c cs ih =>
      rw [replaceFirst]
      by_cases hpre : pat.isPrefixOf (c :: cs) = true
      · rw [if_pos hpre]
        rw [List.isPrefixOf_iff_prefix] at hpre
        obtain ⟨b, hb⟩ := hpre
        refine Or.inr ⟨[], b, ?_, ?_⟩
        · rw [List.nil_append, ← hb]
        · rw [List.nil_append, ← hb]
          rw [List.drop_left]
      · rw [if_neg hpre]
        rcases ih with ih | ⟨a, b, hs, hr⟩
        · exact Or.inl (by rw [ih])
        · refine Or.inr ⟨c :: a, b, ?_, ?_⟩
          · rw [hs]
            simp
          · rw [hr]
            simp

theorem head_append_left {a b : LC} (h : a ≠ []) : (a ++ b).head? = a.head? := by
  cases a with
  | nil => exact absurd rfl h
  | cons c cs => rfl

theorem goodKey_replace {pat repl k : LC} (hk : goodKey k = true)
    (hrne : repl ≠ [])
    (hrsafe : lineSafe repl = true)
    (hreq : ∀ c ∈ repl, c ≠ '=')
    (hrhead : ∀ c, repl.head? = some c → isPyWs c = false ∧ c ≠ '#')
    (hrlast : ∀ c, repl.reverse.head? = some c → isPyWs c = false) :
    goodKey (replaceFirst pat repl k) = true := by
  rcases replaceFirst_decomp pat repl k with h | ⟨a, b, hs, hr⟩
  · rw [h]
    exact hk
  · rw [hr]
    obtain ⟨hksafe, hkeq, hkstrip, hkhash⟩ := goodKey_props hk
    have hasub : ∀ c ∈ a, c ∈ k := by
      intro c hc
      rw [hs]
      simp [hc]
    have hbsub : ∀ c ∈ b, c ∈ k := by
      intro c hc
      rw [hs]
      simp [hc]
    have hmem : ∀ c ∈ a ++ repl ++ b, c ∈ k ∨ c ∈ repl := by
      intro c hc
      rw [List.append_assoc, List.mem_append] at hc
      rcases hc with hc | hc
      · exact Or.inl (hasub c hc)
      · rw [List.mem_append] at hc
        rcases hc with hc | hc
        · exact Or.inr hc
        · exact Or.inl (hbsub c hc)
    rw [goodKey]
    have h1 : lineSafe (a ++ repl ++ b) = true := by
      rw [lineSafe, List.all_eq_true]
      intro c hc
      rcases hmem c hc with hc2 | hc2
      · rw [lineSafe, List.all_eq_true] at hksafe
        exact hksafe c hc2
      · rw [lineSafe, List.all_eq_true] at hrsafe
        exact hrsafe c hc2
    have h2 : pyContainsChar (a ++ repl ++ b) '=' = false := by
      rw [pyContainsChar, List.any_eq_false]
      intro c hc
      intro h0
      have hceq : c = '=' := by simpa using h0
      subst hceq
      rcases hmem '=' hc with hc2 | hc2
      · have : pyContainsChar k '=' = true := by
          rw [pyContainsChar, List.any_eq_true]
          exact ⟨'=', hc2, by simp⟩
        rw [this] at hkeq
        exact Bool.noConfusion hkeq
      · exact hreq '=' hc2 rfl
    have hheads : ∀ c, (a ++ repl ++ b).head? = some c →
        isPyWs c = false ∧ c ≠ '#' := by
      intro c hc
      cases ha : a with
      | nil =>
          rw [ha, List.nil_append] at hc
          rw [head_append_left hrne] at hc
          exact hrhead c hc
      | cons x xs =>
          rw [ha] at hc
          have hcx : x = c := by simpa using hc
          subst hcx
          have hkx : k.head? = some x := by
            rw [hs, ha]
            rfl
          constructor
          · exact (pyStrip_eq_self_iff.mp hkstrip).1 x hkx
          · intro h0
            rw [h0] at hkx
            exact hkhash hkx
    have hlasts : ∀ c, (a ++ repl ++ b).reverse.head? = some c →
        isPyWs c = false := by
      intro c hc
      rw [List.append_assoc, List.reverse_append] at hc
      cases hb : b with
      | nil =>
          rw [hb] at hc
          rw [List.reverse_append] at hc
          simp only [List.reverse_nil, List.nil_append] at hc
          rw [head_append_left (by simpa using hrne)] at hc
          exact hrlast c hc
      | cons x xs =>
          rw [hb] at hc
          rw [List.reverse_append] at hc
          rw [List.append_assoc] at hc
          rw [head_append_left (by simp)] at hc
          refine (pyStrip_eq_self_iff.mp hkstrip).2 c ?_
          rw [hs, hb]
          rw [List.append_assoc, List.reverse_append, List.reverse_append]
          rw [List.append_assoc]
          rw [head_append_left (by simp)]
          exact hc
    have h3 : (pyStrip (a ++ repl ++ b) == a ++ repl ++ b) = true := by
      rw [pyStrip_eq_self_iff.mpr ⟨fun c hc => (hheads c hc).1, hlasts⟩]
      simp
    have h4 : ((a ++ repl ++ b).head? == some '#') = false := by
      cases hh : (a ++ repl ++ b).head? with
      | none => rfl
      | some c =>
          have := (hheads c hh).2
          simpa using this
    rw [h1, h2, h3, h4]
    rfl

theorem key_case_variant_good {k : LC} (hk : goodKey k = true) :
    goodKey (key_case_variant k) = true := by
  rw [key_case_variant]
  split
  · split
    · refine goodKey_replace hk (by decide) (by decide) (by decide) ?_ ?_
      · intro c hc
        have hc2 : some 'b' = some c := hc
        have hbc : 'b' = c := Option.some.inj hc2
        subst hbc
        exact ⟨by decide, by decide⟩
      · intro c hc
        have hc2 : some '.' = some c := hc
        have hbc : '.' = c := Option.some.inj hc2
        subst hbc
        decide
    · refine goodKey_replace hk (by decide) (by decide) (by decide) ?_ ?_
      · intro c hc
        have hc2 : some 'b' = some c := hc
        have hbc : 'b' = c := Option.some.inj hc2
        subst hbc
        exact ⟨by decide, by decide⟩
      · intro c hc
        have hc2 : some '.' = some c := hc
        have hbc : '.' = c := Option.some.inj hc2
        subst hbc
        decide
  · exact hk

theorem aliasPass_get {d : List (LC × LC)} {k v : LC}
    (h : dictGet d k = some v) : dictGet (aliasPass d) k = some v := by
  rw [aliasPass]
  have hgen : ∀ (snap acc : List (LC × LC)), dictGet acc k = some v →
      dictGet (snap.foldl (fun acc p =>
        let alt := key_case_variant p.1
        if alt != p.1 && !(dictMem acc alt) then dictInsert acc alt p.2 else acc)
        acc) k = some v := by
    intro snap
    induction snap with
    | nil => intro acc hacc; exact hacc
    | cons p ps ih =>
        intro acc hacc
        rw [List.foldl_cons]
        refine ih _ ?_
        simp only []
        split
        · next hcond =>
            rw [Bool.and_eq_true] at hcond
            have halt : key_case_variant p.1 ≠ k := by
              intro h0
              have : dictMem acc (key_case_variant p.1) = true := by
                rw [h0]
                exact dictGet_ne_none_mem (by rw [hacc]; simp)
              rw [this] at hcond
              simp at hcond
            rw [dictGet_insert, if_neg (Ne.symm halt)]
            exact hacc
        · exact hacc
  exact hgen d d h

theorem aliasPass_good {d : List (LC × LC)} (hd : ∀ p ∈ d, goodPair p) :
    ∀ p ∈ aliasPass d, goodPair p := by
  rw [aliasPass]
  have hgen : ∀ (snap : List (LC × LC)), (∀ p ∈ snap, goodPair p) →
      ∀ (acc : List (LC × LC)), (∀ p ∈ acc, goodPair p) →
      ∀ p ∈ snap.foldl (fun acc p =>
        let alt := key_case_variant p.1
        if alt != p.1 && !(dictMem acc alt) then dictInsert acc alt p.2 else acc)
        acc, goodPair p := by
    intro snap
    induction snap with
    | nil => intro _ acc hacc p hp; exact hacc p hp
    | cons q qs ih =>
        intro hsnap acc hacc p hp
        rw [List.foldl_cons] at hp
        refine ih (fun x hx => hsnap x (by simp [hx])) _ ?_ p hp
        simp only []
        split
        · obtain ⟨hqk, hqv⟩ := hsnap q (by simp)
          exact dictInsert_good hacc (key_case_variant_good hqk) hqv
        · exact hacc
  exact hgen d hd d hd

theorem aliasPass_dk {d : List (LC × LC)} (hd : dk d) : dk (aliasPass d) := by
  rw [aliasPass]
  have hgen : ∀ (snap acc : List (LC × LC)), dk acc →
      dk (snap.foldl (fun acc p =>
        let alt := key_case_variant p.1
        if alt != p.1 && !(dictMem acc alt) then dictInsert acc alt p.2 else acc)
        acc) := by
    intro snap
    induction snap with
    | nil => intro acc hacc; exact hacc
    | cons q qs ih =>
        intro acc hacc
        rw [List.foldl_cons]
        refine ih _ ?_
        simp only []
        split
        · exact dictInsert_dk hacc
        · exact hacc
  exact hgen d d hd

/-- Serialize-then-reparse round trip of the .lang format: on a
distinct-key dictionary of line-safe entries, parsing the serialized
content reads back exactly the dictionary. -/
theorem parse_lang_roundtrip {d : List (LC × LC)} (hgood : ∀ p ∈ d, goodPair p)
    (hdk : dk d) (k : LC) :
    dictGet (parse_lang_content (lang_to_content d false)) k = dictGet d k := by
  have hsort_perm := sortPairs_perm d
  have hsort_good : ∀ p ∈ sortPairs d, goodPair p :=
    fun p hp => hgood p (hsort_perm.mem_iff.mp hp)
  have hsort_dk : dk (sortPairs d) := by
    rw [dk] at hdk ⊢
    exact (hsort_perm.pairwise_iff (fun hab => Ne.symm hab)).mpr hdk
  have hmapeq : (sortPairs d).map
      (fun p => p.1 ++ (if false = true then sL (" = ") else sL ("=")) ++ p.2) =
      (sortPairs d).map (fun p => p.1 ++ '=' :: p.2) := by
    refine List.map_congr_left ?_
    intro p _
    simp only [Bool.false_eq_true, if_false]
    rw [List.append_assoc]
    rfl
  rw [lang_to_content, hmapeq]
  have hlines : ∀ l ∈ (sortPairs d).map (fun p => p.1 ++ '=' :: p.2),
      l ≠ [] ∧ lineSafe l = true := by
    intro l hl
    rw [List.mem_map] at hl
    obtain ⟨p, hp, hpl⟩ := hl
    obtain ⟨hpk, hpv⟩ := hsort_good p hp
    obtain ⟨hksafe, _, _, _⟩ := goodKey_props hpk
    obtain ⟨hvsafe, _⟩ := goodVal_props hpv
    constructor
    · rw [← hpl]
      intro h0
      rw [List.append_eq_nil] at h0
      exact absurd h0.2 (by simp)
    · rw [← hpl, lineSafe, List.all_eq_true]
      intro c hc
      rw [List.mem_append] at hc
      rcases hc with hc | hc
      · rw [lineSafe, List.all_eq_true] at hksafe
        exact hksafe c hc
      · rw [List.mem_cons] at hc
        rcases hc with hc | hc
        · rw [hc]
          decide
        · rw [lineSafe, List.all_eq_true] at hvsafe
          exact hvsafe c hc
  rw [parse_lang_content, splitLines_joinNL hlines]
  rw [foldl_parseLangLine_map (fun p hp => hsort_good p hp) []]
  rw [dictUpdate_get_dk hsort_dk k []]
  have hsget := dictGet_perm_dk hsort_perm hsort_dk k
  cases hget : dictGet (sortPairs d) k with
  | some v =>
      simp only [hget]
      rw [hget] at hsget
      exact hsget
  | none =>
      simp only [hget]
      rw [hget] at hsget
      exact hsget

/-- C5 counterexample row: a lang entry whose translated text embeds a
newline followed by a forged farewell line. -/
def c5_row : Row :=
  ⟨RowType.lang, sL ("Server/Languages/en-US/x.lang"), sL ("z"), sL ("s"),
    some (sL ("inj\nfarewell=HACK"))⟩

/-- C5 counterexample.  The target ru-RU file initially maps farewell to
Buck; the only written key is z, yet after the lang write-back the key
farewell reads back as HACK: the injected newline in the translated text
forges an extra line that overrides a pre-existing unrelated key. -/
theorem C5_counterexample :
    (lang_entries_for [c5_row] (sL ("Server/Languages/ru-RU/x.lang"))).map
      Prod.fst = [sL ("z")] ∧
    dictGet (parse_lang_content (sL ("farewell=Buck"))) (sL ("farewell")) =
      some (sL ("Buck")) ∧
    dictGet (parse_lang_content (write_ru_lang (some (sL ("farewell=Buck")))
        (lang_entries_for [c5_row] (sL ("Server/Languages/ru-RU/x.lang")))))
      (sL ("farewell")) = some (sL ("HACK")) ∧
    some (sL ("HACK")) ≠ some (sL ("Buck")) := by
  decide

/-- C5 amended.  For a pre-existing target-locale .lang file, after the
lang write-back of save_all_translations, every key present beforehand
and not among the written entries' keys still maps to its previous value,
provided the written entries are line-safe: keys contain no line
boundaries, no equals sign, no surrounding whitespace and no leading
comment character, and translated values contain no line boundaries. -/
theorem C5_merge_preserving (rows : List Row) (ru_rel old k v : LC)
    (hold : dictGet (parse_lang_content old) k = some v)
    (hnot : dictMem (lang_entries_for rows ru_rel) k = false)
    (hgood : ∀ p ∈ lang_entries_for rows ru_rel,
      goodKey p.1 = true ∧ goodVal p.2 = true) :
    dictGet (parse_lang_content
      (write_ru_lang (some old) (lang_entries_for rows ru_rel))) k = some v := by
  have hparse_good := parse_lang_content_good old
  have hparse_dk := parse_lang_content_dk old
  have hupd_good : ∀ p ∈ dictUpdate (parse_lang_content old)
      (lang_entries_for rows ru_rel), goodPair p :=
    dictUpdate_good (fun p hp => hgood p hp) hparse_good
  have hupd_dk : dk (dictUpdate (parse_lang_content old)
      (lang_entries_for rows ru_rel)) := dictUpdate_dk hparse_dk
  have hupd_get : dictGet (dictUpdate (parse_lang_content old)
      (lang_entries_for rows ru_rel)) k = some v := by
    rw [dictUpdate_get_notin ?_ _]
    · exact hold
    · intro p hp h0
      rw [dictMem, List.any_eq_false] at hnot
      exact hnot p hp (by simp [h0])
  have halias_get := aliasPass_get hupd_get
  have halias_good := aliasPass_good hupd_good
  have halias_dk := aliasPass_dk hupd_dk
  rw [write_ru_lang]
  rw [parse_lang_roundtrip halias_good halias_dk k]
  exact halias_get

/-- Witness row for C5 amended: a well-formed lang entry. -/
def c5_wrow : Row :=
  ⟨RowType.lang, sL ("Server/Languages/en-US/x.lang"), sL ("greeting"),
    sL ("Hello"), some (sL ("Privet"))⟩

theorem C5_merge_preserving_witness :
    dictGet (parse_lang_content
      (write_ru_lang (some (sL ("farewell=Poka")))
        (lang_entries_for [c5_wrow] (sL ("Server/Languages/ru-RU/x.lang")))))
      (sL ("farewell")) = some (sL ("Poka")) :=
  C5_merge_preserving [c5_wrow] (sL ("Server/Languages/ru-RU/x.lang"))
    (sL ("farewell=Poka")) (sL ("farewell")) (sL ("Poka"))
    (by decide) (by decide) (by decide)

/- ---------------------------------------------------------------
   JSON values.  The collection model works over already-decoded JSON:
   a file carries the value json.loads would produce.  Objects are the
   parsed dicts, each key once, in insertion order; numbers keep their
   canonical textual form.
   --------------------------------------------------------------- -/

mutual
inductive JValue where
  | jstr (s : LC)
  | jnum (raw : LC)
  | jbool (b : Bool)
  | jnull
  | jarr (elems : JArr)
  | jobj (fields : JObj)
inductive JArr where
  | anil
  | acons (hd : JValue) (tl : JArr)
inductive JObj where
  | onil
  | ocons (key : LC) (val : JValue) (tl : JObj)
end

/-- Python truthiness of a decoded JSON value. -/
def jTruthy : JValue → Bool
  | JValue.jstr s => !s.isEmpty
  | JValue.jnum raw =>
      !(raw == sL ("0") || raw == sL ("0.0") || raw == sL ("-0.0"))
  | JValue.jbool b => b
  | JValue.jnull => false
  | JValue.jarr JArr.anil => false
  | JValue.jarr (JArr.acons _ _) => true
  | JValue.jobj JObj.onil => false
  | JValue.jobj (JObj.ocons _ _ _) => true

/-- dict.get on a decoded JSON object. -/
def jLookup : JObj → LC → Option JValue
  | JObj.onil, _ => none
  | JObj.ocons k2 v tl, k => if k2 == k then some v else jLookup tl k

def jIsStr : JValue → Bool
  | JValue.jstr _ => true
  | _ => false

/-- A JSON value stored into a row's translated field: the saving model
keeps only string values (rows carrying a non-string pre-fill are not
examined by any claim). -/
def jStrOpt : Option JValue → Option LC
  | some (JValue.jstr s) => some s
  | _ => none

/-- The keys of a decoded JSON object. -/
def objKeys : JObj → List LC
  | JObj.onil => []
  | JObj.ocons k _ tl => k :: objKeys tl

def arrElems : JArr → List JValue
  | JArr.anil => []
  | JArr.acons v tl => v :: arrElems tl

/-- Python enumerate over a JSON value: lists yield their elements,
dicts their keys, strings their characters; truthy numbers and booleans
are not iterable and raise. -/
def enumerateLike : JValue → Option (List JValue)
  | JValue.jarr a => some (arrElems a)
  | JValue.jobj o => some ((objKeys o).map JValue.jstr)
  | JValue.jstr s => some (s.map (fun c => JValue.jstr [c]))
  | _ => none

/- ---------------------------------------------------------------
   The model file tree: paths relative to the extracted mod base, in
   scan order.  Every entry is a file; unreadable models a read_text
   decode failure and parsed = none a json.loads failure.
   --------------------------------------------------------------- -/

inductive FileData where
  | textOK (content : LC) (parsed : Option JValue)
  | unreadable

structure FSEntry where
  path : List LC
  data : FileData

abbrev FS := List FSEntry

/-- f.read_text(): none models a raised decode error. -/
def readFile (fs : FS) (p : List LC) : Option LC :=
  match (fs.find? (fun e => e.path == p)).map (fun e => e.data) with
  | some (FileData.textOK c _) => some c
  | _ => none

/-- json.loads(f.read_text()): none models a raised decode or parse
error. -/
def loadFile (fs : FS) (p : List LC) : Option JValue :=
  match (fs.find? (fun e => e.path == p)).map (fun e => e.data) with
  | some (FileData.textOK _ (some v)) => some v
  | _ => none

def isFile (fs : FS) (p : List LC) : Bool := fs.any (fun e => e.path == p)

/-- p names a directory: some file lies strictly below it. -/
def isDir (fs : FS) (p : List LC) : Bool :=
  fs.any (fun e => p.isPrefixOf e.path && decide (p.length < e.path.length))

def pathExists (fs : FS) (p : List LC) : Bool := isFile fs p || isDir fs p

/-- The immediate child name an entry contributes under a directory. -/
def childName (base p : List LC) : Option LC :=
  if base.isPrefixOf p then (p.drop base.length).head? else none

def dedupLC (l : List LC) : List LC :=
  l.foldl (fun acc n => if acc.any (fun m => m == n) then acc else acc ++ [n]) []

def insSortedLC (n : LC) : List LC → List LC
  | [] => [n]
  | m :: ms => if lcLe n m then n :: m :: ms else m :: insSortedLC n ms

def sortLC : List LC → List LC
  | [] => []
  | n :: ns => insSortedLC n (sortLC ns)

/-- sorted(dir.iterdir()): the distinct immediate child names under a
directory, in code-point order (sorting Path objects compares the path
strings, which agree with name order below a common prefix). -/
def sortedChildren (fs : FS) (dir : List LC) : List LC :=
  sortLC (dedupLC (fs.filterMap (fun e => childName dir e.path)))

def fileName (p : List LC) : LC := p.getLastD []

/-- dir.glob("*" + ext): the files directly inside the directory whose
name ends in the extension, in tree order. -/
def globFiles (fs : FS) (dir : List LC) (ext : LC) : List (List LC) :=
  fs.filterMap (fun e =>
    if e.path.length == dir.length + 1 && dir.isPrefixOf e.path &&
        ext.isSuffixOf (fileName e.path) then some e.path else none)

/-- base.rglob("*" + ext): every file in the tree whose name ends in
the extension, in tree order. -/
def rglobFiles (fs : FS) (ext : LC) : List (List LC) :=
  fs.filterMap (fun e =>
    if ext.isSuffixOf (fileName e.path) then some e.path else none)

/- ---------------------------------------------------------------
   Small string helpers used by the collection pass.
   --------------------------------------------------------------- -/

def digitChar (n : Nat) : Char := Char.ofNat (48 + n)

def natReprGo : Nat → Nat → LC
  | 0, _ => []
  | fuel + 1, n =>
      if n < 10 then [digitChar n]
      else natReprGo fuel (n / 10) ++ [digitChar (n % 10)]

/-- Decimal representation of a natural number, Python str(i). -/
def natRepr (n : Nat) : LC := natReprGo (n + 1) n

def pyUpperChar (c : Char) : Char :=
  if 97 ≤ c.toNat ∧ c.toNat ≤ 122 then Char.ofNat (c.toNat - 32) else c

def pyTitleGo : Bool → LC → LC
  | _, [] => []
  | prevAlpha, c :: cs =>
      (if isAsciiLetter c then
        (if prevAlpha then pyLowerChar c else pyUpperChar c)
      else c) :: pyTitleGo (isAsciiLetter c) cs

/-- Python str.title() over ASCII letters. -/
def pyTitle (s : LC) : LC := pyTitleGo false s

def replaceAllGo (pat repl : LC) : Nat → LC → LC
  | 0, s => s
  | _ + 1, [] => []
  | fuel + 1, c :: cs =>
      if !pat.isEmpty && pat.isPrefixOf (c :: cs) then
        repl ++ replaceAllGo pat repl fuel ((c :: cs).drop pat.length)
      else c :: replaceAllGo pat repl fuel cs

/-- Python s.replace(pat, repl), every occurrence, for a non-empty
pattern. -/
def replaceAll (pat repl s : LC) : LC := replaceAllGo pat repl s.length s

/-- Python str.split("."). -/
def splitDot : LC → List LC
  | [] => [[]]
  | c :: cs =>
      if c = '.' then [] :: splitDot cs
      else
        match splitDot cs with
        | h :: t => (c :: h) :: t
        | [] => [[c]]

/-- _is_translation_key (translation_manager.py lines 122-135). -/
def is_translation_key (text : LC) : Bool :=
  if text.isEmpty || (pyStrip text).isEmpty then false
  else
    let s := pyStrip text
    if pyContainsChar s ' ' then false
    else
      let parts := splitDot s
      if parts.length < 2 then false
      else parts.all (fun p =>
        !p.isEmpty &&
        (let q := p.filter (fun c => !(c == '_' || c == '-'))
         !q.isEmpty && q.all pyIsAlnum))

/-- _key_to_default_display_name (lines 217-229). -/
def key_to_default_display_name (key : LC) : LC :=
  let stem := replaceAll (sL (".description")) [] (replaceAll (sL (".name")) [] key)
  let parts := splitDot stem
  let lastPart := parts.getLastD key
  let name := pyStrip (replaceAll (sL ("_")) (sL (" ")) lastPart)
  if name.isEmpty then key
  else
    let result := pyTitle name
    if pyContainsSub (sL (".description")) key then sL ("Description: ") ++ result
    else result

/-- Python a or b on optional strings: the first operand when truthy,
otherwise the second. -/
def pyOr (a b : Option LC) : Option LC :=
  match a with
  | some s => if s.isEmpty then b else some s
  | none => b

/-- JSON_TEXT_KEYS (lines 12-15); the collection compares the
lowercased key against this set, so its one mixed-case entry can never
match. -/
def JSON_TEXT_KEYS : List LC :=
  [sL ("name"), sL ("description"), sL ("title"), sL ("text"),
   sL ("displayName"), sL ("message"), sL ("lore"), sL ("display_name"),
   sL ("desc"), sL ("label"), sL ("hint"), sL ("placeholder")]

def jsonTextKeyMem (k : LC) : Bool := JSON_TEXT_KEYS.any (fun t => t == k)

/-- One component of a JSON path: a dict key or a list index. -/
inductive PathElem where
  | pstr (s : LC)
  | pidx (n : Nat)
deriving DecidableEq, Repr

mutual
/-- _json_find_text_paths (lines 415-427). -/
def jsonFindTextPaths : JValue → List PathElem → List (List PathElem × LC)
  | JValue.jobj o, path => jftObj o path
  | JValue.jarr a, path => jftArr a 0 path
  | _, _ => []

def jftObj : JObj → List PathElem → List (List PathElem × LC)
  | JObj.onil, _ => []
  | JObj.ocons k v tl, path =>
      (if jsonTextKeyMem (pyLower k) && jIsStr v then
        match v with
        | JValue.jstr s => [(path ++ [PathElem.pstr k], s)]
        | _ => []
      else jsonFindTextPaths v (path ++ [PathElem.pstr k])) ++ jftObj tl path

def jftArr : JArr → Nat → List PathElem → List (List PathElem × LC)
  | JArr.anil, _, _ => []
  | JArr.acons v tl, i, path =>
      jsonFindTextPaths v (path ++ [PathElem.pidx i]) ++ jftArr tl (i + 1) path
end

/-- _path_to_key_str (lines 430-434): indices render bracketed, keys
after the first rendered part get a leading dot, and leading dots are
stripped. -/
def pathToKeyParts : List PathElem → Bool → List LC
  | [], _ => []
  | PathElem.pidx n :: tl, _ =>
      (sL ("[") ++ natRepr n ++ sL ("]")) :: pathToKeyParts tl false
  | PathElem.pstr s :: tl, first =>
      (if first then s else '.' :: s) :: pathToKeyParts tl false

def path_to_key_str (path : List PathElem) : LC :=
  (List.flatten (pathToKeyParts path true)).dropWhile (fun c => c == '.')

mutual
/-- _extract_server_translation_keys (lines 192-205). -/
def extract_server_translation_keys : JValue → List LC
  | JValue.jobj o => estObj o
  | JValue.jarr a => estArr a
  | _ => []

def estObj : JObj → List LC
  | JObj.onil => []
  | JObj.ocons _ v tl =>
      (match v with
       | JValue.jstr s =>
           if (sL ("server.")).isPrefixOf s then [s.drop 7] else []
       | JValue.jobj _ => extract_server_translation_keys v
       | JValue.jarr _ => extract_server_translation_keys v
       | _ => []) ++ estObj tl

def estArr : JArr → List LC
  | JArr.anil => []
  | JArr.acons v tl => extract_server_translation_keys v ++ estArr tl
end

/- ---------------------------------------------------------------
   The .ui text scanner (_UI_TEXT_PATTERN, extract_ui_strings).
   --------------------------------------------------------------- -/

def notQuote (c : Char) : Bool := c != '"'

/-- First alternative of _UI_TEXT_PATTERN at the current position:
Text: whitespace* quote value quote. -/
def matchUIText (s : LC) : Option (LC × LC × LC) :=
  if (sL ("Text:")).isPrefixOf s then
    let s1 := s.drop 5
    let ws := s1.takeWhile isPyWs
    match s1.drop ws.length with
    | '"' :: s2 =>
        let val := s2.takeWhile notQuote
        (match s2.drop val.length with
        | '"' :: rest =>
            some (sL ("Text:") ++ ws ++ '"' :: (val ++ ['"']), val, rest)
        | _ => none)
    | _ => none
  else none

/-- Second alternative: @Text whitespace* equals whitespace* quote value
quote. -/
def matchUIAtText (s : LC) : Option (LC × LC × LC) :=
  if (sL ("@Text")).isPrefixOf s then
    let s1 := s.drop 5
    let ws := s1.takeWhile isPyWs
    match s1.drop ws.length with
    | '=' :: s2 =>
        let ws2 := s2.takeWhile isPyWs
        (match s2.drop ws2.length with
        | '"' :: s3 =>
            let val := s3.takeWhile notQuote
            (match s3.drop val.length with
            | '"' :: rest =>
                some (sL ("@Text") ++ ws ++ '=' :: (ws2 ++ '"' :: (val ++ ['"'])),
                  val, rest)
            | _ => none)
        | _ => none)
    | _ => none
  else none

def matchUIAt (s : LC) : Option (LC × LC × LC) :=
  (matchUIText s).orElse (fun _ => matchUIAtText s)

/-- Left-to-right non-overlapping scan recording match-start positions,
finditer semantics. -/
def uiScanGo : Nat → Nat → LC → List (Nat × LC)
  | 0, _, _ => []
  | fuel + 1, pos, s =>
      match matchUIAt s with
      | some (whole, val, rest) => (pos, val) :: uiScanGo fuel (pos + whole.length) rest
      | none =>
          match s with
          | [] => []
          | _ :: cs => uiScanGo fuel (pos + 1) cs

/-- extract_ui_strings (lines 239-247): the value inside the quotes and
the match start position, for every match. -/
def extract_ui_strings (content : LC) : List (Nat × LC) :=
  uiScanGo content.length 0 content

/- ---------------------------------------------------------------
   collect_all_strings (lines 271-412): five scans appended in order.
   The result is none exactly when one of the two unguarded reads of
   target-locale .lang files raises out of the function.
   --------------------------------------------------------------- -/

/-- The source filter shared by all scans: neither key-shaped nor
skippable. -/
def passFilters (s : LC) : Bool :=
  !(is_translation_key s) && !(should_skip_source s)

/-- One top-level manifest field (lines 288-291): absent or falsy values
are skipped; a truthy non-string raises before any append. -/
def manifestField (rel key : LC) (v? : Option JValue) : Option (List Row) :=
  match v? with
  | none => some []
  | some v =>
      if jTruthy v then
        match v with
        | JValue.jstr s =>
            some (if passFilters s then
              [⟨RowType.manifest, rel, key, s, none⟩] else [])
        | _ => none
      else some []

/-- The Authors loop (lines 292-294): author entries that are dicts with
a truthy string Name contribute a row; a truthy non-string Name raises,
keeping the rows appended so far. -/
def authorsLoop (rel : LC) : Nat → List JValue → List Row
  | _, [] => []
  | i, a :: tl =>
      match a with
      | JValue.jobj af =>
          (match jLookup af (sL ("Name")) with
          | some nv =>
              if jTruthy nv then
                match nv with
                | JValue.jstr s =>
                    (if passFilters s then
                      [⟨RowType.manifest, rel,
                        sL ("Authors[") ++ natRepr i ++ sL ("].Name"), s, none⟩]
                    else []) ++ authorsLoop rel (i + 1) tl
                | _ => []
              else authorsLoop rel (i + 1) tl
          | none => authorsLoop rel (i + 1) tl)
      | _ => authorsLoop rel (i + 1) tl

/-- data.get("Authors") or [] (line 292): a falsy value gives the empty
iteration; a truthy non-iterable raises. -/
def authorsList (fields : JObj) : Option (List JValue) :=
  match jLookup fields (sL ("Authors")) with
  | none => some []
  | some v => if jTruthy v then enumerateLike v else some []

/-- The manifest try block (lines 285-296) over decoded data, keeping
the rows appended before any raise. -/
def manifestBlock (rel : LC) (data : JValue) : List Row :=
  match data with
  | JValue.jobj fields =>
      (match manifestField rel (sL ("Name")) (jLookup fields (sL ("Name"))) with
      | none => []
      | some r1 =>
          match manifestField rel (sL ("Description"))
              (jLookup fields (sL ("Description"))) with
          | none => r1
          | some r2 =>
              match authorsList fields with
              | none => r1 ++ r2
              | some authors => r1 ++ r2 ++ authorsLoop rel 0 authors)
  | _ => []

/-- Scan 1 (lines 281-297): the first of manifest.json, pack.json that
exists; a read or parse failure contributes nothing. -/
def scan1 (fs : FS) : List Row :=
  match (if isFile fs [sL ("manifest.json")] then some (sL ("manifest.json"))
        else if isFile fs [sL ("pack.json")] then some (sL ("pack.json"))
        else none) with
  | none => []
  | some name =>
      match loadFile fs [name] with
      | none => []
      | some data => manifestBlock name data

/-- The unguarded ru-RU pre-read of scan 2 (lines 305-307): an
undecodable target-locale .lang file raises out of the collection. -/
def ruPreRead (fs : FS) : List (List LC) → Option (List (LC × List (LC × LC)))
  | [] => some []
  | p :: tl =>
      match readFile fs p with
      | none => none
      | some c =>
          match ruPreRead fs tl with
          | none => none
          | some rest => some ((fileName p, parse_lang_content c) :: rest)

def assocGet {α : Type} (d : List (LC × α)) (k : LC) : Option α :=
  (d.find? (fun p => p.1 == k)).map (fun p => p.2)

/-- The per-file body of scan 2 (lines 312-319). -/
def scan2File (ruEnts : List (LC × List (LC × LC))) (rel name content : LC) :
    List Row :=
  let entries := parse_lang_content content
  let ru := (assocGet ruEnts name).getD []
  entries.filterMap (fun p =>
    if passFilters p.2 then
      some ⟨RowType.lang, rel, p.1, p.2, dictGet ru p.1⟩
    else none)

/-- Scan 2 file loop (lines 311-321): a read failure skips the file. -/
def scan2Loop (fs : FS) (ruEnts : List (LC × List (LC × LC))) :
    List (List LC) → List Row
  | [] => []
  | p :: tl =>
      (match readFile fs p with
      | some content => scan2File ruEnts (joinSlash p) (fileName p) content
      | none => []) ++ scan2Loop fs ruEnts tl

/-- The one locale directory scans 2 and 2b process: the first sorted
child of Server/Languages that is a directory and not ru-RU. -/
def firstLocaleDir (fs : FS) (langRoot : List LC) : Option LC :=
  (sortedChildren fs langRoot).find?
    (fun n => isDir fs (langRoot ++ [n]) && n != sL ("ru-RU"))

/-- Scan 2 (lines 299-322). -/
def scan2 (fs : FS) (langRoot ruDir : List LC) : Option (List Row) :=
  if isDir fs langRoot then
    match (if isDir fs ruDir then
          ruPreRead fs (globFiles fs ruDir (sL (".lang")))
        else some []) with
    | none => none
    | some ruEnts =>
        match firstLocaleDir fs langRoot with
        | none => some []
        | some n =>
            some (scan2Loop fs ruEnts
              (globFiles fs (langRoot ++ [n]) (sL (".lang"))))
  else some []

/-- The seen set produced by the scan 2 appends: exactly the (rel, key)
pairs of its rows, added when each row is. -/
def seenOf (rows : List Row) : List (LC × LC) :=
  rows.map (fun r => (r.file_rel, r.key))

/-- Scan 2b preparation (lines 325-335): fold every .lang file of the
default locale directory into one dict, remembering the first file's
relative path; the reads are unguarded. -/
def prep2bLoop (fs : FS) : List (List LC) → List (LC × LC) → Option LC →
    Option (List (LC × LC) × Option LC)
  | [], ents, rel? => some (ents, rel?)
  | p :: tl, ents, rel? =>
      if isFile fs p then
        match readFile fs p with
        | none => none
        | some c =>
            prep2bLoop fs tl (dictUpdate ents (parse_lang_content c))
              (match rel? with
               | some r => some r
               | none => some (joinSlash p))
      else prep2bLoop fs tl ents rel?

def prep2b (fs : FS) (langRoot : List LC) :
    Option (List (LC × LC) × Option LC) :=
  if isDir fs langRoot then
    match firstLocaleDir fs langRoot with
    | none => some ([], none)
    | some n =>
        prep2bLoop fs (globFiles fs (langRoot ++ [n]) (sL (".lang"))) [] none
  else some ([], none)

/-- The ru_val computation for one key (lines 347-351); these reads sit
inside the try block, so a failure skips the rest of the file. -/
def ruValLoop (fs : FS) (key : LC) : List (List LC) → Option LC →
    Option (Option LC)
  | [], acc => some acc
  | p :: tl, acc =>
      match readFile fs p with
      | none => none
      | some c =>
          let ents := parse_lang_content c
          ruValLoop fs key tl
            (pyOr (dictGet ents key)
              (pyOr acc (dictGet ents (key_case_variant key))))

def ruValFor (fs : FS) (ruDir : List LC) (key : LC) : Option (Option LC) :=
  if pathExists fs ruDir then
    ruValLoop fs key (globFiles fs ruDir (sL (".lang"))) none
  else some none

def seenMem (seen : List (LC × LC)) (q : LC × LC) : Bool :=
  seen.any (fun r => r.1 == q.1 && r.2 == q.2)

/-- The key loop of scan 2b for one JSON file (lines 342-354): keys
already seen are skipped, the seen set is extended before the lookups,
and a raise keeps the rows appended so far. -/
def scan2bKeys (fs : FS) (ruDir : List LC) (defaultRel : LC)
    (enAll : List (LC × LC)) :
    List LC → List (LC × LC) → List Row × List (LC × LC)
  | [], seen => ([], seen)
  | key :: tl, seen =>
      if seenMem seen (defaultRel, key) then
        scan2bKeys fs ruDir defaultRel enAll tl seen
      else
        let seen1 := seen ++ [(defaultRel, key)]
        match ruValFor fs ruDir key with
        | none => ([], seen1)
        | some ruVal =>
            let srcVal := (pyOr (dictGet enAll key)
              (pyOr (dictGet enAll (key_case_variant key))
                (some (key_to_default_display_name key)))).getD []
            let rows1 := if !(should_skip_source srcVal) then
                [⟨RowType.lang, defaultRel, key, srcVal, ruVal⟩] else []
            let pr := scan2bKeys fs ruDir defaultRel enAll tl seen1
            (rows1 ++ pr.1, pr.2)

/-- Scan 2b file loop (lines 337-356): files under a Languages or
Translations path component are skipped; a parse failure or an
undecodable ru-RU read drops the rest of the file but keeps its earlier
rows and seen-set additions. -/
def scan2bJson (fs : FS) (ruDir : List LC) (defaultRel : LC)
    (enAll : List (LC × LC)) :
    List (List LC) → List (LC × LC) → List Row × List (LC × LC)
  | [], seen => ([], seen)
  | p :: tl, seen =>
      if p.any (fun seg => seg == sL ("Languages")) ||
          p.any (fun seg => seg == sL ("Translations")) then
        scan2bJson fs ruDir defaultRel enAll tl seen
      else
        match loadFile fs p with
        | none => scan2bJson fs ruDir defaultRel enAll tl seen
        | some data =>
            let pr1 := scan2bKeys fs ruDir defaultRel enAll
              (extract_server_translation_keys data) seen
            let pr2 := scan2bJson fs ruDir defaultRel enAll tl pr1.2
            (pr1.1 ++ pr2.1, pr2.2)

/-- The nested item loop of scan 3 (lines 376-379), reached only when
ru_inner is a dict. -/
def scan3NestedRows (rel k : LC) (ri : JObj) : JObj → List Row
  | JObj.onil => []
  | JObj.ocons k2 v2 tl =>
      (match v2 with
      | JValue.jstr s =>
          if passFilters s then
            [⟨RowType.common_json, rel, k ++ '.' :: k2, s, jStrOpt (jLookup ri k2)⟩]
          else []
      | _ => []) ++ scan3NestedRows rel k ri tl

/-- The item loop of scan 3 (lines 370-379): ru_data.get on a non-dict
ru_data raises, dropping the rest of the file but keeping earlier
rows. -/
def scan3Items (rel : LC) (ruData : JValue) : JObj → List Row
  | JObj.onil => []
  | JObj.ocons k v tl =>
      match v with
      | JValue.jstr s =>
          if passFilters s then
            match ruData with
            | JValue.jobj ro =>
                ⟨RowType.common_json, rel, k, s, jStrOpt (jLookup ro k)⟩ ::
                  scan3Items rel ruData tl
            | _ => []
          else scan3Items rel ruData tl
      | JValue.jobj inner =>
          (match ruData with
          | JValue.jobj ro =>
              (match (jLookup ro k).getD (JValue.jobj JObj.onil) with
               | JValue.jobj ri => scan3NestedRows rel k ri inner
               | _ => []) ++ scan3Items rel ruData tl
          | _ => [])
      | _ => scan3Items rel ruData tl

/-- One file of scan 3 (lines 361-381). -/
def scan3File (fs : FS) (transRoot : List LC) (p : List LC) : List Row :=
  if (sL ("ru")).isPrefixOf (fileName p) then []
  else
    match loadFile fs p with
    | none => []
    | some data =>
        match data with
        | JValue.jobj fields =>
            (match (if pathExists fs (transRoot ++ [sL ("ru_RU.json")]) then
                  loadFile fs (transRoot ++ [sL ("ru_RU.json")])
                else some (JValue.jobj JObj.onil)) with
            | none => []
            | some ruData => scan3Items (joinSlash p) ruData fields)
        | _ => []

/-- Scan 3 (lines 358-381). -/
def scan3 (fs : FS) (transRoot : List LC) : List Row :=
  if isDir fs transRoot then
    (globFiles fs transRoot (sL (".json"))).foldr
      (fun p acc => scan3File fs transRoot p ++ acc) []
  else []

/-- The match loop of scan 4 for one file (lines 391-394). -/
def scan4Matches (rel : LC) : List (Nat × LC) → List (LC × LC) →
    List Row × List (LC × LC)
  | [], seen => ([], seen)
  | (pos, s) :: tl, seen =>
      if !(pyStrip s).isEmpty && passFilters s && !(seenMem seen (rel, s)) then
        let pr := scan4Matches rel tl (seen ++ [(rel, s)])
        (⟨RowType.ui, rel, natRepr pos, s, none⟩ :: pr.1, pr.2)
      else scan4Matches rel tl seen

/-- Scan 4 (lines 384-396): every .ui file; a read failure skips the
file; the seen set spans files. -/
def scan4Loop (fs : FS) : List (List LC) → List (LC × LC) → List Row
  | [], _ => []
  | p :: tl, seen =>
      match readFile fs p with
      | none => scan4Loop fs tl seen
      | some content =>
          let pr := scan4Matches (joinSlash p) (extract_ui_strings content) seen
          pr.1 ++ scan4Loop fs tl pr.2

def scan4 (fs : FS) : List Row := scan4Loop fs (rglobFiles fs (sL (".ui"))) []

/-- One file of scan 5 (lines 403-408). -/
def scan5File (rel : LC) (data : JValue) : List Row :=
  (jsonFindTextPaths data []).filterMap (fun pv =>
    if !(pyStrip pv.2).isEmpty && passFilters pv.2 then
      some ⟨RowType.json, rel, path_to_key_str pv.1, pv.2, none⟩
    else none)

/-- Scan 5 (lines 399-410). -/
def scan5 (fs : FS) : List Row :=
  (rglobFiles fs (sL (".json"))).foldr (fun p acc =>
    (if p.any (fun seg => seg == sL ("Languages")) ||
        p.any (fun seg => seg == sL ("Translations")) then []
    else
      match loadFile fs p with
      | none => []
      | some data => scan5File (joinSlash p) data) ++ acc) []

/-- collect_all_strings (lines 271-412): the five scans in order; none
models the exception raised out of the function by the two unguarded
reads of locale .lang files. -/
def collect_all_strings (fs : FS) : Option (List Row) :=
  let langRoot := [sL ("Server"), sL ("Languages")]
  let ruDir := langRoot ++ [sL ("ru-RU")]
  let transRoot := [sL ("Common"), sL ("Translations")]
  match scan2 fs langRoot ruDir with
  | none => none
  | some rows2 =>
      match prep2b fs langRoot with
      | none => none
      | some prep =>
          let rows2b :=
            match prep.2 with
            | none => []
            | some defaultRel =>
                (scan2bJson fs ruDir defaultRel prep.1
                  (rglobFiles fs (sL (".json"))) (seenOf rows2)).1
          some (scan1 fs ++ rows2 ++ rows2b ++ scan3 fs transRoot ++
            scan4 fs ++ scan5 fs)

/- ---------------------------------------------------------------
   Well-formed trees and path arithmetic.
   --------------------------------------------------------------- -/

/-- A well-formed tree: no two entries share a path, and path segments
are non-empty and slash-free (as real file names are). -/
def fsWF (fs : FS) : Prop :=
  (fs.map FSEntry.path).Nodup ∧
  ∀ e ∈ fs, ∀ s ∈ e.path, s ≠ [] ∧ ¬ '/' ∈ s

/-- Splitting at the first slash is unambiguous for slash-free
prefixes. -/
theorem slash_split {a b x y : LC} (ha : ¬ '/' ∈ a) (hb : ¬ '/' ∈ b)
    (h : a ++ '/' :: x = b ++ '/' :: y) : a = b ∧ x = y := by
  induction a generalizing b with
  | nil =>
      cases b with
      | nil => simpa using h
      | cons d b' =>
          simp only [List.nil_append, List.cons_append, List.cons.injEq] at h
          exact absurd (h.1 ▸ List.mem_cons_self d b') hb
  | cons c a' ih =>
      cases b with
      | nil =>
          simp only [List.cons_append, List.nil_append, List.cons.injEq] at h
          exact absurd (h.1 ▸ List.mem_cons_self c a') ha
      | cons d b' =>
          simp only [List.cons_append, List.cons.injEq] at h
          have ha' : ¬ '/' ∈ a' := fun hm => ha (List.mem_cons_of_mem c hm)
          have hb' : ¬ '/' ∈ b' := fun hm => hb (List.mem_cons_of_mem d hm)
          obtain ⟨h1, h2⟩ := ih ha' hb' h.2
          exact ⟨by rw [h.1, h1], h2⟩

theorem joinSlash_nil_eq : joinSlash [] = [] := rfl

theorem joinSlash_cons_nil (a : LC) : joinSlash [a] = a := rfl

theorem joinSlash_cons_cons (a b : LC) (ps : List LC) :
    joinSlash (a :: b :: ps) = a ++ '/' :: joinSlash (b :: ps) := rfl

/-- Relative paths with non-empty slash-free segments render to distinct
strings. -/
theorem joinSlash_inj {p q : List LC}
    (hp : ∀ s ∈ p, s ≠ [] ∧ ¬ '/' ∈ s) (hq : ∀ s ∈ q, s ≠ [] ∧ ¬ '/' ∈ s)
    (h : joinSlash p = joinSlash q) : p = q := by
  induction p generalizing q with
  | nil =>
      cases q with
      | nil => rfl
      | cons b qs =>
          exfalso
          cases qs with
          | nil =>
              exact (hq b (List.mem_cons_self b [])).1
                (by simpa [joinSlash_cons_nil] using h.symm)
          | cons b2 qs2 =>
              rw [joinSlash_nil_eq, joinSlash_cons_cons] at h
              exact List.append_ne_nil_of_right_ne_nil b (by simp) h.symm
  | cons a ps ih =>
      cases q with
      | nil =>
          exfalso
          cases ps with
          | nil =>
              exact (hp a (List.mem_cons_self a [])).1
                (by simpa [joinSlash_cons_nil] using h)
          | cons a2 ps2 =>
              rw [joinSlash_nil_eq, joinSlash_cons_cons] at h
              exact List.append_ne_nil_of_right_ne_nil a (by simp) h
      | cons b qs =>
          cases ps with
          | nil =>
              cases qs with
              | nil => simpa [joinSlash_cons_nil] using h
              | cons b2 qs2 =>
                  exfalso
                  rw [joinSlash_cons_nil, joinSlash_cons_cons] at h
                  exact (hp a (List.mem_cons_self a [])).2
                    (h ▸ List.mem_append_right b (List.mem_cons_self '/' _))
          | cons a2 ps2 =>
              cases qs with
              | nil =>
                  exfalso
                  rw [joinSlash_cons_nil, joinSlash_cons_cons] at h
                  exact (hq b (List.mem_cons_self b [])).2
                    (h ▸ List.mem_append_right a (List.mem_cons_self '/' _))
              | cons b2 qs2 =>
                  rw [joinSlash_cons_cons, joinSlash_cons_cons] at h
                  obtain ⟨h1, h2⟩ := slash_split
                    (hp a (List.mem_cons_self a (a2 :: ps2))).2
                    (hq b (List.mem_cons_self b (b2 :: qs2))).2 h
                  have := ih (fun s hs => hp s (List.mem_cons_of_mem a hs))
                    (fun s hs => hq s (List.mem_cons_of_mem b hs)) h2
                  rw [h1, this]

/-- Decimal digit value of the characters natRepr emits. -/
theorem digitChar_toNat {m : Nat} (h : m < 10) : (digitChar m).toNat = 48 + m := by
  interval_cases m <;> rfl

def parseDec (s : LC) : Nat := s.foldl (fun acc c => acc * 10 + (c.toNat - 48)) 0

theorem parseDec_append_digit (a : LC) (c : Char) :
    parseDec (a ++ [c]) = parseDec a * 10 + (c.toNat - 48) := by
  simp [parseDec, List.foldl_append]

theorem parseDec_natReprGo : ∀ fuel n, n < fuel →
    parseDec (natReprGo fuel n) = n := by
  intro fuel
  induction fuel with
  | zero => intro n hn; omega
  | succ f ih =>
      intro n hn
      by_cases h10 : n < 10
      · simp only [natReprGo, if_pos h10]
        simp [parseDec, digitChar_toNat h10]
      · simp only [natReprGo, if_neg h10]
        rw [parseDec_append_digit]
        have hdiv : n / 10 < n := Nat.div_lt_self (by omega) (by omega)
        rw [ih (n / 10) (by omega)]
        have := Nat.div_add_mod n 10
        rw [digitChar_toNat (Nat.mod_lt n (by omega))]
        omega

theorem parseDec_natRepr (n : Nat) : parseDec (natRepr n) = n :=
  parseDec_natReprGo (n + 1) n (Nat.lt_succ_self n)

theorem natRepr_inj {m n : Nat} (h : natRepr m = natRepr n) : m = n := by
  have := parseDec_natRepr m
  rw [h, parseDec_natRepr] at this
  exact this.symm

/-- Equality test on strings agrees with equality. -/
theorem lcBeq_iff {a b : LC} : (a == b) = true ↔ a = b := beq_iff_eq

theorem seenMem_iff {seen : List (LC × LC)} {q : LC × LC} :
    seenMem seen q = true ↔ q ∈ seen := by
  simp only [seenMem, List.any_eq_true, Bool.and_eq_true, beq_iff_eq]
  constructor
  · rintro ⟨r, hr, h1, h2⟩
    have : r = q := Prod.ext h1 h2
    exact this ▸ hr
  · intro hq
    exact ⟨q, hq, rfl, rfl⟩

theorem seenMem_append (a b : List (LC × LC)) (q : LC × LC) :
    seenMem (a ++ b) q = (seenMem a q || seenMem b q) := by
  simp [seenMem, List.any_append]

/-- The file condition of globFiles as a predicate. -/
def globCond (dir : List LC) (ext : LC) (e : FSEntry) : Bool :=
  e.path.length == dir.length + 1 && dir.isPrefixOf e.path &&
    ext.isSuffixOf (fileName e.path)

theorem filterMap_ite {α β : Type} (p : α → Bool) (g : α → β) (l : List α) :
    l.filterMap (fun a => if p a then some (g a) else none) =
      (l.filter p).map g := by
  induction l with
  | nil => rfl
  | cons a t ih =>
      cases h : p a with
      | true => simp [List.filterMap_cons, List.filter_cons, h, ih]
      | false => simp [List.filterMap_cons, List.filter_cons, h, ih]

theorem globFiles_eq_map (fs : FS) (dir : List LC) (ext : LC) :
    globFiles fs dir ext = (fs.filter (globCond dir ext)).map FSEntry.path :=
  filterMap_ite (globCond dir ext) FSEntry.path fs

/-- The file condition of rglobFiles as a predicate. -/
def rglobCond (ext : LC) (e : FSEntry) : Bool := ext.isSuffixOf (fileName e.path)

theorem rglobFiles_eq_map (fs : FS) (ext : LC) :
    rglobFiles fs ext = (fs.filter (rglobCond ext)).map FSEntry.path :=
  filterMap_ite (rglobCond ext) FSEntry.path fs

theorem globFiles_nodup {fs : FS} (h : (fs.map FSEntry.path).Nodup)
    (dir : List LC) (ext : LC) : (globFiles fs dir ext).Nodup := by
  rw [globFiles_eq_map]
  exact h.sublist (List.Sublist.map FSEntry.path (List.filter_sublist fs))

theorem rglobFiles_nodup {fs : FS} (h : (fs.map FSEntry.path).Nodup)
    (ext : LC) : (rglobFiles fs ext).Nodup := by
  rw [rglobFiles_eq_map]
  exact h.sublist (List.Sublist.map FSEntry.path (List.filter_sublist fs))

theorem mem_globFiles {fs : FS} {p dir : List LC} {ext : LC}
    (h : p ∈ globFiles fs dir ext) :
    ∃ e ∈ fs, e.path = p ∧ globCond dir ext e = true := by
  rw [globFiles_eq_map] at h
  obtain ⟨e, he, hp⟩ := List.mem_map.mp h
  exact ⟨e, (List.mem_filter.mp he).1, hp, (List.mem_filter.mp he).2⟩

theorem mem_rglobFiles {fs : FS} {p : List LC} {ext : LC}
    (h : p ∈ rglobFiles fs ext) :
    ∃ e ∈ fs, e.path = p ∧ rglobCond ext e = true := by
  rw [rglobFiles_eq_map] at h
  obtain ⟨e, he, hp⟩ := List.mem_map.mp h
  exact ⟨e, (List.mem_filter.mp he).1, hp, (List.mem_filter.mp he).2⟩

theorem glob_segWF {fs : FS} (hwf : fsWF fs) {p dir : List LC} {ext : LC}
    (h : p ∈ globFiles fs dir ext) : ∀ s ∈ p, s ≠ [] ∧ ¬ '/' ∈ s := by
  obtain ⟨e, he, rfl, -⟩ := mem_globFiles h
  exact hwf.2 e he

theorem rglob_segWF {fs : FS} (hwf : fsWF fs) {p : List LC} {ext : LC}
    (h : p ∈ rglobFiles fs ext) : ∀ s ∈ p, s ≠ [] ∧ ¬ '/' ∈ s := by
  obtain ⟨e, he, rfl, -⟩ := mem_rglobFiles h
  exact hwf.2 e he

/-- Pairwise transfer through filterMap. -/
theorem pairwise_filterMap_of {α β : Type} {R : α → α → Prop} {S : β → β → Prop}
    {f : α → Option β} {l : List α} (hl : l.Pairwise R)
    (h : ∀ a b x y, R a b → f a = some x → f b = some y → S x y) :
    (l.filterMap f).Pairwise S := by
  induction l with
  | nil => exact List.Pairwise.nil
  | cons a t ih =>
      rw [List.pairwise_cons] at hl
      rw [List.filterMap_cons]
      cases hf : f a with
      | none => exact ih hl.2
      | some x =>
          refine List.Pairwise.cons ?_ (ih hl.2)
          intro y hy
          obtain ⟨b, hb, hfb⟩ := List.mem_filterMap.mp hy
          exact h a b x y (hl.1 b hb) hf hfb

/- ---------------------------------------------------------------
   Uniqueness of (file_rel, key) within the manifest scan.
   --------------------------------------------------------------- -/

def rkDistinct (a b : Row) : Prop := a.file_rel ≠ b.file_rel ∨ a.key ≠ b.key

def rsDistinct (a b : Row) : Prop := a.file_rel ≠ b.file_rel ∨ a.source ≠ b.source

theorem authorsKey_inj {i j : Nat}
    (h : sL ("Authors[") ++ natRepr i ++ sL ("].Name") =
      sL ("Authors[") ++ natRepr j ++ sL ("].Name")) : i = j := by
  rw [List.append_assoc, List.append_assoc] at h
  have h2 := List.append_cancel_left h
  exact natRepr_inj (List.append_cancel_right h2)

theorem key_ne_of_head {a b : LC} {x y : Char} (hx : a.head? = some x)
    (hy : b.head? = some y) (hxy : x ≠ y) : a ≠ b := by
  intro h
  rw [h, hy] at hx
  exact hxy (Option.some.inj hx).symm

theorem authors_key_head (j : Nat) :
    (sL ("Authors[") ++ natRepr j ++ sL ("].Name")).head? = some 'A' := by
  rw [List.append_assoc, head_append_left (by decide)]
  rfl

theorem manifestField_cases {rel key : LC} {v? : Option JValue} {l : List Row}
    (h : manifestField rel key v? = some l) :
    l = [] ∨ ∃ s, l = [⟨RowType.manifest, rel, key, s, none⟩] := by
  cases v? with
  | none => exact Or.inl (Option.some.inj h).symm
  | some v =>
      cases v with
      | jstr s =>
          simp only [manifestField] at h
          by_cases htr : jTruthy (JValue.jstr s) = true
          · rw [if_pos htr] at h
            by_cases hpf : passFilters s = true
            · rw [if_pos hpf] at h
              exact Or.inr ⟨s, (Option.some.inj h).symm⟩
            · rw [if_neg hpf] at h
              exact Or.inl (Option.some.inj h).symm
          · rw [if_neg htr] at h
            exact Or.inl (Option.some.inj h).symm
      | jnum raw =>
          simp only [manifestField] at h
          by_cases htr : jTruthy (JValue.jnum raw) = true
          · rw [if_pos htr] at h; exact absurd h (by simp)
          · rw [if_neg htr] at h; exact Or.inl (Option.some.inj h).symm
      | jbool b =>
          simp only [manifestField] at h
          by_cases htr : jTruthy (JValue.jbool b) = true
          · rw [if_pos htr] at h; exact absurd h (by simp)
          · rw [if_neg htr] at h; exact Or.inl (Option.some.inj h).symm
      | jnull =>
          simp only [manifestField] at h
          by_cases htr : jTruthy JValue.jnull = true
          · rw [if_pos htr] at h; exact absurd h (by simp)
          · rw [if_neg htr] at h; exact Or.inl (Option.some.inj h).symm
      | jarr a =>
          simp only [manifestField] at h
          by_cases htr : jTruthy (JValue.jarr a) = true
          · rw [if_pos htr] at h; exact absurd h (by simp)
          · rw [if_neg htr] at h; exact Or.inl (Option.some.inj h).symm
      | jobj o =>
          simp only [manifestField] at h
          by_cases htr : jTruthy (JValue.jobj o) = true
          · rw [if_pos htr] at h; exact absurd h (by simp)
          · rw [if_neg htr] at h; exact Or.inl (Option.some.inj h).symm

theorem mf_rows_facts {rel key : LC} {v? : Option JValue} {l : List Row}
    (h : manifestField rel key v? = some l) :
    (∀ r ∈ l, r.type = RowType.manifest ∧ r.file_rel = rel ∧ r.key = key) ∧
    l.Pairwise (fun a b => a.key ≠ b.key) := by
  rcases manifestField_cases h with rfl | ⟨s, rfl⟩
  · exact ⟨fun r hr => absurd hr (List.not_mem_nil r), List.Pairwise.nil⟩
  · refine ⟨?_, List.pairwise_singleton _ _⟩
    intro r hr
    rw [List.mem_singleton] at hr
    subst hr
    exact ⟨rfl, rfl, rfl⟩

theorem authorsLoop_facts (rel : LC) : ∀ (l : List JValue) (i : Nat),
    ∀ r ∈ authorsLoop rel i l,
    r.type = RowType.manifest ∧ r.file_rel = rel ∧
    ∃ j, i ≤ j ∧ r.key = sL ("Authors[") ++ natRepr j ++ sL ("].Name") := by
  intro l
  induction l with
  | nil => intro i r hr; exact absurd hr (List.not_mem_nil r)
  | cons a tl ih =>
      intro i r hr
      cases a with
      | jobj af =>
          simp only [authorsLoop] at hr
          cases hlk : jLookup af (sL ("Name")) with
          | none =>
              simp only [hlk] at hr
              obtain ⟨ht, hf, j, hj, hk⟩ := ih (i + 1) r hr
              exact ⟨ht, hf, j, by omega, hk⟩
          | some nv =>
              simp only [hlk] at hr
              by_cases htr : jTruthy nv = true
              · rw [if_pos htr] at hr
                cases nv with
                | jstr s =>
                    rcases List.mem_append.mp hr with hr1 | hr2
                    · by_cases hpf : passFilters s = true
                      · rw [if_pos hpf, List.mem_singleton] at hr1
                        subst hr1
                        exact ⟨rfl, rfl, i, Nat.le_refl i, rfl⟩
                      · rw [if_neg hpf] at hr1
                        exact absurd hr1 (List.not_mem_nil r)
                    · obtain ⟨ht, hf, j, hj, hk⟩ := ih (i + 1) r hr2
                      exact ⟨ht, hf, j, by omega, hk⟩
                | jnum raw => exact absurd hr (List.not_mem_nil r)
                | jbool b => exact absurd hr (List.not_mem_nil r)
                | jnull => exact absurd hr (List.not_mem_nil r)
                | jarr el => exact absurd hr (List.not_mem_nil r)
                | jobj o => exact absurd hr (List.not_mem_nil r)
              · rw [if_neg htr] at hr
                obtain ⟨ht, hf, j, hj, hk⟩ := ih (i + 1) r hr
                exact ⟨ht, hf, j, by omega, hk⟩
      | jstr s =>
          simp only [authorsLoop] at hr
          obtain ⟨ht, hf, j, hj, hk⟩ := ih (i + 1) r hr
          exact ⟨ht, hf, j, by omega, hk⟩
      | jnum raw =>
          simp only [authorsLoop] at hr
          obtain ⟨ht, hf, j, hj, hk⟩ := ih (i + 1) r hr
          exact ⟨ht, hf, j, by omega, hk⟩
      | jbool b =>
          simp only [authorsLoop] at hr
          obtain ⟨ht, hf, j, hj, hk⟩ := ih (i + 1) r hr
          exact ⟨ht, hf, j, by omega, hk⟩
      | jnull =>
          simp only [authorsLoop] at hr
          obtain ⟨ht, hf, j, hj, hk⟩ := ih (i + 1) r hr
          exact ⟨ht, hf, j, by omega, hk⟩
      | jarr el =>
          simp only [authorsLoop] at hr
          obtain ⟨ht, hf, j, hj, hk⟩ := ih (i + 1) r hr
          exact ⟨ht, hf, j, by omega, hk⟩

theorem authorsLoop_pairwise (rel : LC) : ∀ (l : List JValue) (i : Nat),
    (authorsLoop rel i l).Pairwise (fun a b => a.key ≠ b.key) := by
  intro l
  induction l with
  | nil => intro i; exact List.Pairwise.nil
  | cons a tl ih =>
      intro i
      cases a with
      | jobj af =>
          cases hlk : jLookup af (sL ("Name")) with
          | none => simp only [authorsLoop, hlk]; exact ih (i + 1)
          | some nv =>
              cases nv with
              | jstr s =>
                  simp only [authorsLoop, hlk]
                  by_cases htr : jTruthy (JValue.jstr s) = true
                  · rw [if_pos htr]
                    by_cases hpf : passFilters s = true
                    · rw [if_pos hpf, List.singleton_append]
                      refine List.Pairwise.cons ?_ (ih (i + 1))
                      intro r hr
                      obtain ⟨-, -, j, hj, hk⟩ := authorsLoop_facts rel tl (i + 1) r hr
                      intro hEq
                      rw [hk] at hEq
                      exact absurd (authorsKey_inj hEq) (by omega)
                    · rw [if_neg hpf, List.nil_append]
                      exact ih (i + 1)
                  · rw [if_neg htr]
                    exact ih (i + 1)
              | jnum raw =>
                  simp only [authorsLoop, hlk]
                  by_cases htr : jTruthy (JValue.jnum raw) = true
                  · rw [if_pos htr]; exact List.Pairwise.nil
                  · rw [if_neg htr]; exact ih (i + 1)
              | jbool b =>
                  simp only [authorsLoop, hlk]
                  by_cases htr : jTruthy (JValue.jbool b) = true
                  · rw [if_pos htr]; exact List.Pairwise.nil
                  · rw [if_neg htr]; exact ih (i + 1)
              | jnull =>
                  simp only [authorsLoop, hlk]
                  by_cases htr : jTruthy JValue.jnull = true
                  · rw [if_pos htr]; exact List.Pairwise.nil
                  · rw [if_neg htr]; exact ih (i + 1)
              | jarr el =>
                  simp only [authorsLoop, hlk]
                  by_cases htr : jTruthy (JValue.jarr el) = true
                  · rw [if_pos htr]; exact List.Pairwise.nil
                  · rw [if_neg htr]; exact ih (i + 1)
              | jobj o =>
                  simp only [authorsLoop, hlk]
                  by_cases htr : jTruthy (JValue.jobj o) = true
                  · rw [if_pos htr]; exact List.Pairwise.nil
                  · rw [if_neg htr]; exact ih (i + 1)
      | jstr s => simp only [authorsLoop]; exact ih (i + 1)
      | jnum raw => simp only [authorsLoop]; exact ih (i + 1)
      | jbool b => simp only [authorsLoop]; exact ih (i + 1)
      | jnull => simp only [authorsLoop]; exact ih (i + 1)
      | jarr el => simp only [authorsLoop]; exact ih (i + 1)

theorem manifestBlock_spec (rel : LC) (data : JValue) :
    (∀ r ∈ manifestBlock rel data,
      r.type = RowType.manifest ∧ r.file_rel = rel) ∧
    (manifestBlock rel data).Pairwise (fun a b => a.key ≠ b.key) := by
  cases data with
  | jstr s => exact ⟨fun r hr => absurd hr (List.not_mem_nil r), List.Pairwise.nil⟩
  | jnum raw => exact ⟨fun r hr => absurd hr (List.not_mem_nil r), List.Pairwise.nil⟩
  | jbool b => exact ⟨fun r hr => absurd hr (List.not_mem_nil r), List.Pairwise.nil⟩
  | jnull => exact ⟨fun r hr => absurd hr (List.not_mem_nil r), List.Pairwise.nil⟩
  | jarr a => exact ⟨fun r hr => absurd hr (List.not_mem_nil r), List.Pairwise.nil⟩
  | jobj fields =>
      simp only [manifestBlock]
      cases h1 : manifestField rel (sL ("Name")) (jLookup fields (sL ("Name"))) with
      | none => exact ⟨fun r hr => absurd hr (List.not_mem_nil r), List.Pairwise.nil⟩
      | some l1 =>
          obtain ⟨hf1, hp1⟩ := mf_rows_facts h1
          cases h2 : manifestField rel (sL ("Description"))
              (jLookup fields (sL ("Description"))) with
          | none =>
              exact ⟨fun r hr => ⟨(hf1 r hr).1, (hf1 r hr).2.1⟩, hp1⟩
          | some l2 =>
              obtain ⟨hf2, hp2⟩ := mf_rows_facts h2
              have hcross12 : ∀ a ∈ l1, ∀ b ∈ l2, a.key ≠ b.key := by
                intro a ha b hb
                rw [(hf1 a ha).2.2, (hf2 b hb).2.2]
                decide
              cases h3 : authorsList fields with
              | none =>
                  refine ⟨?_, List.pairwise_append.mpr ⟨hp1, hp2, ?_⟩⟩
                  · intro r hr
                    rcases List.mem_append.mp hr with hr | hr
                    · exact ⟨(hf1 r hr).1, (hf1 r hr).2.1⟩
                    · exact ⟨(hf2 r hr).1, (hf2 r hr).2.1⟩
                  · exact hcross12
              | some authors =>
                  have hfa := authorsLoop_facts rel authors 0
                  have hcross1a : ∀ a ∈ l1, ∀ b ∈ authorsLoop rel 0 authors,
                      a.key ≠ b.key := by
                    intro a ha b hb
                    obtain ⟨-, -, j, -, hk⟩ := hfa b hb
                    rw [(hf1 a ha).2.2, hk]
                    exact key_ne_of_head rfl (authors_key_head j) (by decide)
                  have hcross2a : ∀ a ∈ l2, ∀ b ∈ authorsLoop rel 0 authors,
                      a.key ≠ b.key := by
                    intro a ha b hb
                    obtain ⟨-, -, j, -, hk⟩ := hfa b hb
                    rw [(hf2 a ha).2.2, hk]
                    exact key_ne_of_head rfl (authors_key_head j) (by decide)
                  refine ⟨?_, ?_⟩
                  · intro r hr
                    rcases List.mem_append.mp hr with hr | hr
                    · rcases List.mem_append.mp hr with hr | hr
                      · exact ⟨(hf1 r hr).1, (hf1 r hr).2.1⟩
                      · exact ⟨(hf2 r hr).1, (hf2 r hr).2.1⟩
                    · obtain ⟨ht, hfr, -⟩ := hfa r hr
                      exact ⟨ht, hfr⟩
                  · refine List.pairwise_append.mpr
                      ⟨List.pairwise_append.mpr ⟨hp1, hp2, hcross12⟩,
                        authorsLoop_pairwise rel authors 0, ?_⟩
                    intro a ha b hb
                    rcases List.mem_append.mp ha with ha | ha
                    · exact hcross1a a ha b hb
                    · exact hcross2a a ha b hb

theorem scan1_spec (fs : FS) :
    (∀ r ∈ scan1 fs, r.type = RowType.manifest) ∧
    (scan1 fs).Pairwise rkDistinct := by
  cases hname : (if isFile fs [sL ("manifest.json")] then some (sL ("manifest.json"))
      else if isFile fs [sL ("pack.json")] then some (sL ("pack.json"))
      else none) with
  | none =>
      have hs : scan1 fs = [] := by simp only [scan1, hname]
      rw [hs]
      exact ⟨fun r hr => absurd hr (List.not_mem_nil r), List.Pairwise.nil⟩
  | some name =>
      cases hload : loadFile fs [name] with
      | none =>
          have hs : scan1 fs = [] := by simp only [scan1, hname, hload]
          rw [hs]
          exact ⟨fun r hr => absurd hr (List.not_mem_nil r), List.Pairwise.nil⟩
      | some data =>
          have hs : scan1 fs = manifestBlock name data := by simp only [scan1, hname, hload]
          rw [hs]
          obtain ⟨hf, hp⟩ := manifestBlock_spec name data
          exact ⟨fun r hr => (hf r hr).1, hp.imp (fun h => Or.inr h)⟩

/- ---------------------------------------------------------------
   Uniqueness of (file_rel, key) within the lang scans.
   --------------------------------------------------------------- -/

theorem scan2File_facts (ruEnts : List (LC × List (LC × LC)))
    (rel name content : LC) :
    (∀ r ∈ scan2File ruEnts rel name content,
      r.type = RowType.lang ∧ r.file_rel = rel) ∧
    (scan2File ruEnts rel name content).Pairwise (fun a b => a.key ≠ b.key) := by
  constructor
  · intro r hr
    simp only [scan2File] at hr
    rw [List.mem_filterMap] at hr
    obtain ⟨p, hp, he⟩ := hr
    by_cases hpf : passFilters p.2 = true
    · rw [if_pos hpf] at he
      cases he
      exact ⟨rfl, rfl⟩
    · rw [if_neg hpf] at he
      exact absurd he (by simp)
  · simp only [scan2File]
    have hdk := parse_lang_content_dk content
    refine pairwise_filterMap_of hdk ?_
    intro a b x y hR ha hb
    by_cases hpa : passFilters a.2 = true
    · rw [if_pos hpa] at ha
      by_cases hpb : passFilters b.2 = true
      · rw [if_pos hpb] at hb
        cases ha
        cases hb
        exact hR
      · rw [if_neg hpb] at hb
        exact absurd hb (by simp)
    · rw [if_neg hpa] at ha
      exact absurd ha (by simp)

theorem scan2Loop_spec (fs : FS) (ruEnts : List (LC × List (LC × LC))) :
    ∀ ps : List (List LC), ps.Nodup →
    (∀ p ∈ ps, ∀ s ∈ p, s ≠ [] ∧ ¬ '/' ∈ s) →
    (scan2Loop fs ruEnts ps).Pairwise rkDistinct ∧
    (∀ r ∈ scan2Loop fs ruEnts ps, r.type = RowType.lang ∧
      ∃ p ∈ ps, r.file_rel = joinSlash p) := by
  intro ps
  induction ps with
  | nil =>
      intro _ _
      exact ⟨List.Pairwise.nil, fun r hr => absurd hr (List.not_mem_nil r)⟩
  | cons p tl ih =>
      intro hnd hwfp
      rw [List.nodup_cons] at hnd
      obtain ⟨ihp, ihf⟩ := ih hnd.2 (fun q hq => hwfp q (List.mem_cons_of_mem p hq))
      cases hrf : readFile fs p with
      | none =>
          simp only [scan2Loop, hrf, List.nil_append]
          refine ⟨ihp, ?_⟩
          intro r hr
          obtain ⟨ht, q, hq, hrel⟩ := ihf r hr
          exact ⟨ht, q, List.mem_cons_of_mem p hq, hrel⟩
      | some content =>
          simp only [scan2Loop, hrf]
          obtain ⟨hbf, hbp⟩ :=
            scan2File_facts ruEnts (joinSlash p) (fileName p) content
          refine ⟨List.pairwise_append.mpr
            ⟨hbp.imp (fun h => Or.inr h), ihp, ?_⟩, ?_⟩
          · intro a ha b hb
            obtain ⟨-, q, hq, hbrel⟩ := ihf b hb
            left
            rw [(hbf a ha).2, hbrel]
            intro hEq
            have heq := joinSlash_inj (hwfp p (List.mem_cons_self p tl))
              (hwfp q (List.mem_cons_of_mem p hq)) hEq
            exact hnd.1 (heq ▸ hq)
          · intro r hr
            rcases List.mem_append.mp hr with hr | hr
            · exact ⟨(hbf r hr).1, p, List.mem_cons_self p tl, (hbf r hr).2⟩
            · obtain ⟨ht, q, hq, hrel⟩ := ihf r hr
              exact ⟨ht, q, List.mem_cons_of_mem p hq, hrel⟩

theorem scan2_spec {fs : FS} {langRoot ruDir : List LC} {rows2 : List Row}
    (hwf : fsWF fs) (h : scan2 fs langRoot ruDir = some rows2) :
    rows2.Pairwise rkDistinct ∧ ∀ r ∈ rows2, r.type = RowType.lang := by
  rw [scan2] at h
  by_cases hdir : isDir fs langRoot = true
  · rw [if_pos hdir] at h
    cases hpre : (if isDir fs ruDir = true then
        ruPreRead fs (globFiles fs ruDir (sL (".lang"))) else some []) with
    | none =>
        simp only [hpre] at h
        exact absurd h (by simp)
    | some ruEnts =>
        simp only [hpre] at h
        cases hfl : firstLocaleDir fs langRoot with
        | none =>
            simp only [hfl] at h
            obtain rfl : ([] : List Row) = rows2 := Option.some.inj h
            exact ⟨List.Pairwise.nil, fun r hr => absurd hr (List.not_mem_nil r)⟩
        | some n =>
            simp only [hfl] at h
            obtain rfl := Option.some.inj h
            obtain ⟨hp, hf⟩ := scan2Loop_spec fs ruEnts
              (globFiles fs (langRoot ++ [n]) (sL (".lang")))
              (globFiles_nodup hwf.1 _ _)
              (fun p hp => glob_segWF hwf hp)
            exact ⟨hp, fun r hr => (hf r hr).1⟩
  · rw [if_neg hdir] at h
    obtain rfl : ([] : List Row) = rows2 := Option.some.inj h
    exact ⟨List.Pairwise.nil, fun r hr => absurd hr (List.not_mem_nil r)⟩

theorem scan2bKeys_spec (fs : FS) (ruDir : List LC) (defaultRel : LC)
    (enAll : List (LC × LC)) :
    ∀ (keys : List LC) (seen : List (LC × LC)),
    (∀ r ∈ (scan2bKeys fs ruDir defaultRel enAll keys seen).1,
      r.type = RowType.lang ∧ r.file_rel = defaultRel ∧
      seenMem seen (defaultRel, r.key) = false ∧
      seenMem (scan2bKeys fs ruDir defaultRel enAll keys seen).2
        (defaultRel, r.key) = true) ∧
    (scan2bKeys fs ruDir defaultRel enAll keys seen).1.Pairwise
      (fun a b => a.key ≠ b.key) ∧
    (∀ q, seenMem seen q = true →
      seenMem (scan2bKeys fs ruDir defaultRel enAll keys seen).2 q = true) := by
  intro keys
  induction keys with
  | nil =>
      intro seen
      exact ⟨fun r hr => absurd hr (List.not_mem_nil r), List.Pairwise.nil,
        fun q hq => hq⟩
  | cons key tl ih =>
      intro seen
      by_cases hsm : seenMem seen (defaultRel, key) = true
      · simp only [scan2bKeys, if_pos hsm]
        exact ih seen
      · simp only [scan2bKeys, if_neg hsm]
        cases hrv : ruValFor fs ruDir key with
        | none =>
            simp only [hrv]
            refine ⟨fun r hr => absurd hr (List.not_mem_nil r), List.Pairwise.nil, ?_⟩
            intro q hq
            rw [seenMem_append, hq]
            rfl
        | some ruVal =>
            simp only [hrv]
            obtain ⟨ihf, ihp, ihm⟩ := ih (seen ++ [(defaultRel, key)])
            have hmem1 : seenMem (seen ++ [(defaultRel, key)])
                (defaultRel, key) = true := by
              rw [seenMem_append]
              have : seenMem [(defaultRel, key)] (defaultRel, key) = true := by
                simp [seenMem]
              rw [this, Bool.or_true]
            have htailne : ∀ r ∈ (scan2bKeys fs ruDir defaultRel enAll tl
                (seen ++ [(defaultRel, key)])).1, r.key ≠ key := by
              intro r hr hEq
              have hf := (ihf r hr).2.2.1
              rw [hEq] at hf
              rw [hmem1] at hf
              exact Bool.true_eq_false.mp hf
            have htailseen : ∀ r ∈ (scan2bKeys fs ruDir defaultRel enAll tl
                (seen ++ [(defaultRel, key)])).1,
                seenMem seen (defaultRel, r.key) = false := by
              intro r hr
              have hf := (ihf r hr).2.2.1
              rw [seenMem_append] at hf
              exact (Bool.or_eq_false_iff.mp hf).1
            cases hss : should_skip_source ((pyOr (dictGet enAll key)
                (pyOr (dictGet enAll (key_case_variant key))
                  (some (key_to_default_display_name key)))).getD []) with
            | true =>
                simp only [hss, Bool.not_true, if_neg (by decide : ¬ (false = true)),
                  List.nil_append]
                refine ⟨?_, ihp, fun q hq => ihm q (by rw [seenMem_append, hq]; rfl)⟩
                intro r hr
                exact ⟨(ihf r hr).1, (ihf r hr).2.1, htailseen r hr, (ihf r hr).2.2.2⟩
            | false =>
                simp only [hss, Bool.not_false, if_pos rfl, List.singleton_append]
                refine ⟨?_, ?_, fun q hq => ihm q (by rw [seenMem_append, hq]; rfl)⟩
                · intro r hr
                  rcases List.mem_cons.mp hr with rfl | hr
                  · refine ⟨rfl, rfl, ?_, ihm _ hmem1⟩
                    exact Bool.not_eq_true _ ▸ Bool.of_not_eq_true hsm
                  · exact ⟨(ihf r hr).1, (ihf r hr).2.1, htailseen r hr,
                      (ihf r hr).2.2.2⟩
                · exact List.Pairwise.cons (fun r hr hEq =>
                    htailne r hr hEq.symm) ihp

theorem scan2bJson_spec (fs : FS) (ruDir : List LC) (defaultRel : LC)
    (enAll : List (LC × LC)) :
    ∀ (ps : List (List LC)) (seen : List (LC × LC)),
    (∀ r ∈ (scan2bJson fs ruDir defaultRel enAll ps seen).1,
      r.type = RowType.lang ∧ r.file_rel = defaultRel ∧
      seenMem seen (defaultRel, r.key) = false) ∧
    (scan2bJson fs ruDir defaultRel enAll ps seen).1.Pairwise
      (fun a b => a.key ≠ b.key) := by
  intro ps
  induction ps with
  | nil =>
      intro seen
      exact ⟨fun r hr => absurd hr (List.not_mem_nil r), List.Pairwise.nil⟩
  | cons p tl ih =>
      intro seen
      by_cases hskip : (p.any (fun seg => seg == sL ("Languages")) ||
          p.any (fun seg => seg == sL ("Translations"))) = true
      · simp only [scan2bJson, if_pos hskip]
        exact ih seen
      · simp only [scan2bJson, if_neg hskip]
        cases hld : loadFile fs p with
        | none =>
            simp only [hld]
            exact ih seen
        | some data =>
            simp only [hld]
            obtain ⟨hkf, hkp, hkm⟩ := scan2bKeys_spec fs ruDir defaultRel enAll
              (extract_server_translation_keys data) seen
            obtain ⟨ihf, ihp⟩ := ih (scan2bKeys fs ruDir defaultRel enAll
              (extract_server_translation_keys data) seen).2
            refine ⟨?_, List.pairwise_append.mpr ⟨hkp, ihp, ?_⟩⟩
            · intro r hr
              rcases List.mem_append.mp hr with hr | hr
              · exact ⟨(hkf r hr).1, (hkf r hr).2.1, (hkf r hr).2.2.1⟩
              · refine ⟨(ihf r hr).1, (ihf r hr).2.1, ?_⟩
                have hnot := (ihf r hr).2.2
                cases hsn : seenMem seen (defaultRel, r.key) with
                | false => rfl
                | true => rw [hkm _ hsn] at hnot; exact hnot
            · intro a ha b hb
              intro hEq
              have hcov := (hkf a ha).2.2.2
              have hnb := (ihf b hb).2.2
              rw [← hEq] at hnb
              rw [hcov] at hnb
              exact Bool.true_eq_false.mp hnb

/- ---------------------------------------------------------------
   Uniqueness within the ui scan.
   --------------------------------------------------------------- -/

theorem matchUIText_whole {s whole val rest : LC}
    (h : matchUIText s = some (whole, val, rest)) : whole ≠ [] := by
  rw [matchUIText] at h
  simp only [] at h
  split at h
  · split at h
    · split at h
      · cases h
        rw [show sL ("Text:") = 'T' :: sL ("ext:") from rfl]
        simp
      · exact absurd h (by simp)
    · exact absurd h (by simp)
  · exact absurd h (by simp)

theorem matchUIAtText_whole {s whole val rest : LC}
    (h : matchUIAtText s = some (whole, val, rest)) : whole ≠ [] := by
  rw [matchUIAtText] at h
  simp only [] at h
  split at h
  · split at h
    · split at h
      · split at h
        · cases h
          rw [show sL ("@Text") = '@' :: sL ("Text") from rfl]
          simp
        · exact absurd h (by simp)
      · exact absurd h (by simp)
    · exact absurd h (by simp)
  · exact absurd h (by simp)

theorem matchUIAt_whole {s whole val rest : LC}
    (h : matchUIAt s = some (whole, val, rest)) : whole ≠ [] := by
  rw [matchUIAt] at h
  cases hm : matchUIText s with
  | some t =>
      rw [hm] at h
      simp only [Option.orElse] at h
      cases h
      exact matchUIText_whole hm
  | none =>
      rw [hm] at h
      simp only [Option.orElse] at h
      exact matchUIAtText_whole h

theorem uiScanGo_spec : ∀ (fuel pos : Nat) (s : LC),
    (∀ q ∈ uiScanGo fuel pos s, pos ≤ q.1) ∧
    (uiScanGo fuel pos s).Pairwise (fun a b => a.1 < b.1) := by
  intro fuel
  induction fuel with
  | zero =>
      intro pos s
      exact ⟨fun q hq => absurd hq (List.not_mem_nil q), List.Pairwise.nil⟩
  | succ f ih =>
      intro pos s
      cases hm : matchUIAt s with
      | some t =>
          obtain ⟨whole, val, rest⟩ := t
          simp only [uiScanGo, hm]
          obtain ⟨ihm, ihp⟩ := ih (pos + whole.length) rest
          have hw : 1 ≤ whole.length := by
            have hne := matchUIAt_whole hm
            cases whole with
            | nil => exact absurd rfl hne
            | cons c cs => simp
          refine ⟨?_, List.Pairwise.cons ?_ ihp⟩
          · intro q hq
            rcases List.mem_cons.mp hq with rfl | hq
            · exact Nat.le_refl pos
            · have := ihm q hq
              omega
          · intro q hq
            have := ihm q hq
            show pos < q.1
            omega
      | none =>
          cases s with
          | nil =>
              simp only [uiScanGo, hm]
              exact ⟨fun q hq => absurd hq (List.not_mem_nil q), List.Pairwise.nil⟩
          | cons c cs =>
              simp only [uiScanGo, hm]
              obtain ⟨ihm, ihp⟩ := ih (pos + 1) cs
              refine ⟨?_, ihp⟩
              intro q hq
              have := ihm q hq
              omega

theorem scan4Matches_spec (rel : LC) : ∀ (l : List (Nat × LC))
    (seen : List (LC × LC)),
    List.Sublist ((scan4Matches rel l seen).1.map Row.key)
      (l.map (fun q => natRepr q.1)) ∧
    (∀ r ∈ (scan4Matches rel l seen).1,
      r.type = RowType.ui ∧ r.file_rel = rel ∧
      seenMem seen (rel, r.source) = false ∧
      seenMem (scan4Matches rel l seen).2 (rel, r.source) = true) ∧
    (∀ q, seenMem seen q = true →
      seenMem (scan4Matches rel l seen).2 q = true) := by
  intro l
  induction l with
  | nil =>
      intro seen
      exact ⟨List.nil_sublist _, fun r hr => absurd hr (List.not_mem_nil r),
        fun q hq => hq⟩
  | cons m tl ih =>
      obtain ⟨pos, s⟩ := m
      intro seen
      by_cases hc : (!(pyStrip s).isEmpty && passFilters s &&
          !(seenMem seen (rel, s))) = true
      · simp only [scan4Matches, if_pos hc]
        obtain ⟨ihs, ihf, ihm⟩ := ih (seen ++ [(rel, s)])
        have hmem1 : seenMem (seen ++ [(rel, s)]) (rel, s) = true := by
          rw [seenMem_append]
          have : seenMem [(rel, s)] (rel, s) = true := by simp [seenMem]
          rw [this, Bool.or_true]
        have hseenfalse : seenMem seen (rel, s) = false := by
          rw [Bool.and_eq_true, Bool.and_eq_true] at hc
          have := hc.2
          cases hv : seenMem seen (rel, s) with
          | false => rfl
          | true => rw [hv] at this; exact absurd this (by decide)
        refine ⟨List.Sublist.cons₂ _ ihs, ?_, ?_⟩
        · intro r hr
          rcases List.mem_cons.mp hr with rfl | hr
          · exact ⟨rfl, rfl, hseenfalse, ihm _ hmem1⟩
          · have hf := ihf r hr
            refine ⟨hf.1, hf.2.1, ?_, hf.2.2.2⟩
            have := hf.2.2.1
            rw [seenMem_append] at this
            exact (Bool.or_eq_false_iff.mp this).1
        · intro q hq
          exact ihm q (by rw [seenMem_append, hq]; rfl)
      · simp only [scan4Matches, if_neg hc]
        obtain ⟨ihs, ihf, ihm⟩ := ih seen
        exact ⟨List.Sublist.cons _ ihs, ihf, ihm⟩

theorem scan4Matches_pairwise_src (rel : LC) : ∀ (l : List (Nat × LC))
    (seen : List (LC × LC)),
    (scan4Matches rel l seen).1.Pairwise (fun a b => a.source ≠ b.source) := by
  intro l
  induction l with
  | nil => intro seen; exact List.Pairwise.nil
  | cons m tl ih =>
      obtain ⟨pos, s⟩ := m
      intro seen
      by_cases hc : (!(pyStrip s).isEmpty && passFilters s &&
          !(seenMem seen (rel, s))) = true
      · simp only [scan4Matches, if_pos hc]
        refine List.Pairwise.cons ?_ (ih (seen ++ [(rel, s)]))
        intro r hr
        have hf := ((scan4Matches_spec rel tl (seen ++ [(rel, s)])).2.1 r hr).2.2.1
        intro hEq
        rw [← hEq, seenMem_append] at hf
        have : seenMem [(rel, s)] (rel, s) = true := by simp [seenMem]
        rw [this, Bool.or_true] at hf
        exact Bool.true_eq_false.mp hf
      · simp only [scan4Matches, if_neg hc]
        exact ih seen

theorem scan4Matches_pairwise_key (rel : LC) (l : List (Nat × LC))
    (seen : List (LC × LC)) (hl : l.Pairwise (fun a b => a.1 < b.1)) :
    (scan4Matches rel l seen).1.Pairwise (fun a b => a.key ≠ b.key) := by
  have hsub := (scan4Matches_spec rel l seen).1
  have hmap : (l.map (fun q => natRepr q.1)).Pairwise (fun a b => a ≠ b) := by
    rw [List.pairwise_map]
    exact hl.imp (fun h hEq => Nat.ne_of_lt h (natRepr_inj hEq))
  have hpw := hmap.sublist hsub
  rwa [List.pairwise_map] at hpw

theorem scan4Loop_spec (fs : FS) : ∀ (ps : List (List LC))
    (seen : List (LC × LC)), ps.Nodup →
    (∀ p ∈ ps, ∀ s ∈ p, s ≠ [] ∧ ¬ '/' ∈ s) →
    (scan4Loop fs ps seen).Pairwise rkDistinct ∧
    (scan4Loop fs ps seen).Pairwise rsDistinct ∧
    (∀ r ∈ scan4Loop fs ps seen, r.type = RowType.ui ∧
      seenMem seen (r.file_rel, r.source) = false ∧
      ∃ p ∈ ps, r.file_rel = joinSlash p) := by
  intro ps
  induction ps with
  | nil =>
      intro seen _ _
      exact ⟨List.Pairwise.nil, List.Pairwise.nil,
        fun r hr => absurd hr (List.not_mem_nil r)⟩
  | cons p tl ih =>
      intro seen hnd hwfp
      rw [List.nodup_cons] at hnd
      cases hrf : readFile fs p with
      | none =>
          simp only [scan4Loop, hrf]
          obtain ⟨ihk, ihs, ihf⟩ := ih seen hnd.2
            (fun q hq => hwfp q (List.mem_cons_of_mem p hq))
          refine ⟨ihk, ihs, ?_⟩
          intro r hr
          obtain ⟨ht, hsn, q, hq, hrel⟩ := ihf r hr
          exact ⟨ht, hsn, q, List.mem_cons_of_mem p hq, hrel⟩
      | some content =>
          simp only [scan4Loop, hrf]
          obtain ⟨msub, mf, mm⟩ :=
            scan4Matches_spec (joinSlash p) (extract_ui_strings content) seen
          obtain ⟨ihk, ihs, ihf⟩ := ih
            (scan4Matches (joinSlash p) (extract_ui_strings content) seen).2
            hnd.2 (fun q hq => hwfp q (List.mem_cons_of_mem p hq))
          have hkey := scan4Matches_pairwise_key (joinSlash p)
            (extract_ui_strings content) seen
            (uiScanGo_spec content.length 0 content).2
          have hsrc := scan4Matches_pairwise_src (joinSlash p)
            (extract_ui_strings content) seen
          refine ⟨List.pairwise_append.mpr
              ⟨hkey.imp (fun h => Or.inr h), ihk, ?_⟩,
            List.pairwise_append.mpr
              ⟨hsrc.imp (fun h => Or.inr h), ihs, ?_⟩, ?_⟩
          · intro a ha b hb
            obtain ⟨-, -, q, hq, hbrel⟩ := ihf b hb
            left
            rw [(mf a ha).2.1, hbrel]
            intro hEq
            have heq := joinSlash_inj (hwfp p (List.mem_cons_self p tl))
              (hwfp q (List.mem_cons_of_mem p hq)) hEq
            exact hnd.1 (heq ▸ hq)
          · intro a ha b hb
            by_cases hrel : a.file_rel = b.file_rel
            · right
              intro hsrceq
              have hcov := (mf a ha).2.2.2
              have hnb := (ihf b hb).2.1
              rw [← hrel, ← hsrceq, (mf a ha).2.1] at hnb
              rw [hcov] at hnb
              exact Bool.true_eq_false.mp hnb
            · exact Or.inl hrel
          · intro r hr
            rcases List.mem_append.mp hr with hr | hr
            · have hf := mf r hr
              exact ⟨hf.1, hf.2.1 ▸ hf.2.2.1, p, List.mem_cons_self p tl, hf.2.1⟩
            · obtain ⟨ht, hsn, q, hq, hrel⟩ := ihf r hr
              refine ⟨ht, ?_, q, List.mem_cons_of_mem p hq, hrel⟩
              cases hv : seenMem seen (r.file_rel, r.source) with
              | false => rfl
              | true => rw [mm _ hv] at hsn; exact hsn

theorem scan4_spec (fs : FS) (hwf : fsWF fs) :
    (scan4 fs).Pairwise rkDistinct ∧ (scan4 fs).Pairwise rsDistinct ∧
    ∀ r ∈ scan4 fs, r.type = RowType.ui := by
  obtain ⟨hk, hs, hf⟩ := scan4Loop_spec fs (rglobFiles fs (sL (".ui"))) []
    (rglobFiles_nodup hwf.1 _) (fun p hp => rglob_segWF hwf hp)
  exact ⟨hk, hs, fun r hr => (hf r hr).1⟩

/- ---------------------------------------------------------------
   Row types of scans 3 and 5.
   --------------------------------------------------------------- -/

theorem scan3NestedRows_type (rel k : LC) (ri : JObj) : ∀ (o : JObj),
    ∀ r ∈ scan3NestedRows rel k ri o, r.type = RowType.common_json
  | JObj.onil, r, hr => absurd hr (List.not_mem_nil r)
  | JObj.ocons k2 v2 tl, r, hr => by
      cases v2 with
      | jstr s =>
          simp only [scan3NestedRows] at hr
          rcases List.mem_append.mp hr with hr | hr
          · by_cases hpf : passFilters s = true
            · rw [if_pos hpf, List.mem_singleton] at hr
              subst hr
              rfl
            · rw [if_neg hpf] at hr
              exact absurd hr (List.not_mem_nil r)
          · exact scan3NestedRows_type rel k ri tl r hr
      | jnum raw =>
          simp only [scan3NestedRows] at hr
          rcases List.mem_append.mp hr with hr | hr
          · exact absurd hr (List.not_mem_nil r)
          · exact scan3NestedRows_type rel k ri tl r hr
      | jbool b =>
          simp only [scan3NestedRows] at hr
          rcases List.mem_append.mp hr with hr | hr
          · exact absurd hr (List.not_mem_nil r)
          · exact scan3NestedRows_type rel k ri tl r hr
      | jnull =>
          simp only [scan3NestedRows] at hr
          rcases List.mem_append.mp hr with hr | hr
          · exact absurd hr (List.not_mem_nil r)
          · exact scan3NestedRows_type rel k ri tl r hr
      | jarr a =>
          simp only [scan3NestedRows] at hr
          rcases List.mem_append.mp hr with hr | hr
          · exact absurd hr (List.not_mem_nil r)
          · exact scan3NestedRows_type rel k ri tl r hr
      | jobj o2 =>
          simp only [scan3NestedRows] at hr
          rcases List.mem_append.mp hr with hr | hr
          · exact absurd hr (List.not_mem_nil r)
          · exact scan3NestedRows_type rel k ri tl r hr

theorem scan3Items_type (rel : LC) (ruData : JValue) : ∀ (o : JObj),
    ∀ r ∈ scan3Items rel ruData o, r.type = RowType.common_json
  | JObj.onil, r, hr => absurd hr (List.not_mem_nil r)
  | JObj.ocons k v tl, r, hr => by
      cases v with
      | jstr s =>
          simp only [scan3Items] at hr
          by_cases hpf : passFilters s = true
          · rw [if_pos hpf] at hr
            cases hrd : ruData with
            | jobj ro =>
                rw [hrd] at hr
                rcases List.mem_cons.mp hr with rfl | hr
                · rfl
                · exact scan3Items_type rel ruData tl r (hrd ▸ hr)
            | jstr s2 => rw [hrd] at hr; exact absurd hr (List.not_mem_nil r)
            | jnum raw => rw [hrd] at hr; exact absurd hr (List.not_mem_nil r)
            | jbool b => rw [hrd] at hr; exact absurd hr (List.not_mem_nil r)
            | jnull => rw [hrd] at hr; exact absurd hr (List.not_mem_nil r)
            | jarr a => rw [hrd] at hr; exact absurd hr (List.not_mem_nil r)
          · rw [if_neg hpf] at hr
            exact scan3Items_type rel ruData tl r hr
      | jobj inner =>
          simp only [scan3Items] at hr
          cases hrd : ruData with
          | jobj ro =>
              rw [hrd] at hr
              rcases List.mem_append.mp hr with hr | hr
              · cases hlk : (jLookup ro k).getD (JValue.jobj JObj.onil) with
                | jobj ri =>
                    rw [hlk] at hr
                    exact scan3NestedRows_type rel k ri inner r hr
                | jstr s2 => rw [hlk] at hr; exact absurd hr (List.not_mem_nil r)
                | jnum raw => rw [hlk] at hr; exact absurd hr (List.not_mem_nil r)
                | jbool b => rw [hlk] at hr; exact absurd hr (List.not_mem_nil r)
                | jnull => rw [hlk] at hr; exact absurd hr (List.not_mem_nil r)
                | jarr a => rw [hlk] at hr; exact absurd hr (List.not_mem_nil r)
              · exact scan3Items_type rel ruData tl r (hrd ▸ hr)
          | jstr s2 => rw [hrd] at hr; exact absurd hr (List.not_mem_nil r)
          | jnum raw => rw [hrd] at hr; exact absurd hr (List.not_mem_nil r)
          | jbool b => rw [hrd] at hr; exact absurd hr (List.not_mem_nil r)
          | jnull => rw [hrd] at hr; exact absurd hr (List.not_mem_nil r)
          | jarr a => rw [hrd] at hr; exact absurd hr (List.not_mem_nil r)
      | jnum raw =>
          simp only [scan3Items] at hr
          exact scan3Items_type rel ruData tl r hr
      | jbool b =>
          simp only [scan3Items] at hr
          exact scan3Items_type rel ruData tl r hr
      | jnull =>
          simp only [scan3Items] at hr
          exact scan3Items_type rel ruData tl r hr
      | jarr a =>
          simp only [scan3Items] at hr
          exact scan3Items_type rel ruData tl r hr

theorem scan3File_type (fs : FS) (transRoot : List LC) (p : List LC) :
    ∀ r ∈ scan3File fs transRoot p, r.type = RowType.common_json := by
  intro r hr
  rw [scan3File] at hr
  split at hr
  · exact absurd hr (List.not_mem_nil r)
  · cases hld : loadFile fs p with
    | none => rw [hld] at hr; exact absurd hr (List.not_mem_nil r)
    | some data =>
        rw [hld] at hr
        cases data with
        | jobj fields =>
            cases hru : (if pathExists fs (transRoot ++ [sL ("ru_RU.json")]) = true
                then loadFile fs (transRoot ++ [sL ("ru_RU.json")])
                else some (JValue.jobj JObj.onil)) with
            | none =>
                simp only [hru] at hr
                exact absurd hr (List.not_mem_nil r)
            | some ruData =>
                simp only [hru] at hr
                exact scan3Items_type (joinSlash p) ruData fields r hr
        | jstr s => exact absurd hr (List.not_mem_nil r)
        | jnum raw => exact absurd hr (List.not_mem_nil r)
        | jbool b => exact absurd hr (List.not_mem_nil r)
        | jnull => exact absurd hr (List.not_mem_nil r)
        | jarr a => exact absurd hr (List.not_mem_nil r)

theorem scan3Fold_type (fs : FS) (transRoot : List LC) : ∀ (ps : List (List LC)),
    ∀ r ∈ ps.foldr (fun p acc => scan3File fs transRoot p ++ acc) [],
    r.type = RowType.common_json := by
  intro ps
  induction ps with
  | nil => intro r hr; exact absurd hr (List.not_mem_nil r)
  | cons p tl ih =>
      intro r hr
      rw [List.foldr_cons] at hr
      rcases List.mem_append.mp hr with hr | hr
      · exact scan3File_type fs transRoot p r hr
      · exact ih r hr

theorem scan3_type (fs : FS) (transRoot : List LC) :
    ∀ r ∈ scan3 fs transRoot, r.type = RowType.common_json := by
  intro r hr
  rw [scan3] at hr
  split at hr
  · exact scan3Fold_type fs transRoot _ r hr
  · exact absurd hr (List.not_mem_nil r)

theorem scan5Fold_type (fs : FS) : ∀ (ps : List (List LC)),
    ∀ r ∈ ps.foldr (fun p acc =>
      (if p.any (fun seg => seg == sL ("Languages")) ||
          p.any (fun seg => seg == sL ("Translations")) then []
      else
        match loadFile fs p with
        | none => []
        | some data => scan5File (joinSlash p) data) ++ acc) [],
    r.type = RowType.json := by
  intro ps
  induction ps with
  | nil => intro r hr; exact absurd hr (List.not_mem_nil r)
  | cons p tl ih =>
      intro r hr
      rw [List.foldr_cons] at hr
      rcases List.mem_append.mp hr with hr | hr
      · split at hr
        · exact absurd hr (List.not_mem_nil r)
        · cases hld : loadFile fs p with
          | none =>
              simp only [hld] at hr
              exact absurd hr (List.not_mem_nil r)
          | some data =>
              simp only [hld] at hr
              rw [scan5File, List.mem_filterMap] at hr
              obtain ⟨pv, hpv, he⟩ := hr
              split at he
              · cases he
                rfl
              · exact absurd he (by simp)
      · exact ih r hr

theorem scan5_type (fs : FS) : ∀ r ∈ scan5 fs, r.type = RowType.json := by
  intro r hr
  rw [scan5] at hr
  exact scan5Fold_type fs _ r hr

theorem filter_type_self {t : RowType} {l : List Row}
    (h : ∀ r ∈ l, r.type = t) :
    l.filter (fun r => r.type == t) = l := by
  rw [List.filter_eq_self]
  intro r hr
  rw [h r hr]
  exact beq_self_eq_true t

theorem filter_type_nil {t t2 : RowType} {l : List Row} (hne : t2 ≠ t)
    (h : ∀ r ∈ l, r.type = t2) :
    l.filter (fun r => r.type == t) = [] := by
  rw [List.filter_eq_nil_iff]
  intro r hr
  rw [h r hr]
  simp only [beq_iff_eq]
  exact hne

theorem seenOf_mem {rows : List Row} {a : Row} (ha : a ∈ rows) :
    seenMem (seenOf rows) (a.file_rel, a.key) = true := by
  rw [seenMem_iff, seenOf]
  exact List.mem_map.mpr ⟨a, ha, rfl⟩

/-- Splitting a successful collection into its five scan blocks. -/
theorem collect_decomp {fs : FS} {rows : List Row}
    (h : collect_all_strings fs = some rows) :
    ∃ rows2 rows2b,
      scan2 fs [sL ("Server"), sL ("Languages")]
        ([sL ("Server"), sL ("Languages")] ++ [sL ("ru-RU")]) = some rows2 ∧
      rows = scan1 fs ++ rows2 ++ rows2b ++
        scan3 fs [sL ("Common"), sL ("Translations")] ++ scan4 fs ++ scan5 fs ∧
      (rows2b = [] ∨ ∃ defaultRel enAll,
        rows2b = (scan2bJson fs
          ([sL ("Server"), sL ("Languages")] ++ [sL ("ru-RU")]) defaultRel enAll
          (rglobFiles fs (sL (".json"))) (seenOf rows2)).1) := by
  rw [collect_all_strings] at h
  cases h2 : scan2 fs [sL ("Server"), sL ("Languages")]
      ([sL ("Server"), sL ("Languages")] ++ [sL ("ru-RU")]) with
  | none =>
      simp only [h2] at h
      exact Option.noConfusion h
  | some rows2 =>
      simp only [h2] at h
      cases hp : prep2b fs [sL ("Server"), sL ("Languages")] with
      | none =>
          simp only [hp] at h
          exact Option.noConfusion h
      | some prep =>
          simp only [hp] at h
          obtain ⟨enAll, relOpt⟩ := prep
          cases relOpt with
          | none =>
              refine ⟨rows2, [], rfl, ?_, Or.inl rfl⟩
              exact (Option.some.inj h).symm
          | some defaultRel =>
              refine ⟨rows2, _, rfl, (Option.some.inj h).symm,
                Or.inr ⟨defaultRel, enAll, rfl⟩⟩

/-- C7 counterexample tree: one Common/Translations source file holding
both a top-level key a.b and a nested object a with inner key b. -/
def c7_fs : FS :=
  [⟨[sL ("Common"), sL ("Translations"), sL ("en_US.json")],
    FileData.textOK []
      (some (JValue.jobj (JObj.ocons (sL ("a.b")) (JValue.jstr (sL ("x")))
        (JObj.ocons (sL ("a"))
          (JValue.jobj (JObj.ocons (sL ("b")) (JValue.jstr (sL ("y"))) JObj.onil))
          JObj.onil))))⟩]

/-- C7 counterexample.  Collecting the tree yields two distinct
common_json entries with the same (file_rel, key) pair a.b: the flat key
and the dotted join of the nested key collide, so type-wide uniqueness
fails for common_json entries. -/
theorem C7_counterexample :
    collect_all_strings c7_fs =
      some [⟨RowType.common_json, sL ("Common/Translations/en_US.json"),
              sL ("a.b"), sL ("x"), none⟩,
            ⟨RowType.common_json, sL ("Common/Translations/en_US.json"),
              sL ("a.b"), sL ("y"), none⟩] ∧
    (⟨RowType.common_json, sL ("Common/Translations/en_US.json"),
        sL ("a.b"), sL ("x"), none⟩ : Row) ≠
      ⟨RowType.common_json, sL ("Common/Translations/en_US.json"),
        sL ("a.b"), sL ("y"), none⟩ := by
  decide

/-- C7 amended.  Over any well-formed tree (distinct file paths,
non-empty slash-free path segments), a successful collection pass yields
a catalogue in which the (file_rel, key) pair is unique across entries
of the manifest type, across entries of the lang type and across entries
of the ui type, and ui entries are additionally pairwise distinct on
(file_rel, source); common_json and generic json entries may collide. -/
theorem C7_catalogue_uniqueness (fs : FS) (rows : List Row) (hwf : fsWF fs)
    (hcollect : collect_all_strings fs = some rows) :
    (rows.filter (fun r => r.type == RowType.manifest)).Pairwise rkDistinct ∧
    (rows.filter (fun r => r.type == RowType.lang)).Pairwise rkDistinct ∧
    (rows.filter (fun r => r.type == RowType.ui)).Pairwise rkDistinct ∧
    (rows.filter (fun r => r.type == RowType.ui)).Pairwise rsDistinct := by
  obtain ⟨rows2, rows2b, h2, hrows, h2b⟩ := collect_decomp hcollect
  obtain ⟨h2p, h2t⟩ := scan2_spec hwf h2
  have h1 := scan1_spec fs
  have h3t := scan3_type fs [sL ("Common"), sL ("Translations")]
  obtain ⟨h4k, h4s, h4t⟩ := scan4_spec fs hwf
  have h5t := scan5_type fs
  have h2bfacts : (∀ r ∈ rows2b, r.type = RowType.lang ∧
      seenMem (seenOf rows2) (r.file_rel, r.key) = false) ∧
      rows2b.Pairwise rkDistinct := by
    rcases h2b with rfl | ⟨drel, enAll, rfl⟩
    · exact ⟨fun r hr => absurd hr (List.not_mem_nil r), List.Pairwise.nil⟩
    · obtain ⟨hf, hp⟩ := scan2bJson_spec fs
        ([sL ("Server"), sL ("Languages")] ++ [sL ("ru-RU")]) drel enAll
        (rglobFiles fs (sL (".json"))) (seenOf rows2)
      refine ⟨?_, hp.imp (fun h => Or.inr h)⟩
      intro r hr
      obtain ⟨ht, hrel, hsn⟩ := hf r hr
      exact ⟨ht, by rw [hrel]; exact hsn⟩
  have h2bt : ∀ r ∈ rows2b, r.type = RowType.lang :=
    fun r hr => (h2bfacts.1 r hr).1
  subst hrows
  have hm : (scan1 fs ++ rows2 ++ rows2b ++
      scan3 fs [sL ("Common"), sL ("Translations")] ++ scan4 fs ++
      scan5 fs).filter (fun r => r.type == RowType.manifest) = scan1 fs := by
    simp only [List.filter_append]
    rw [filter_type_self h1.1, filter_type_nil (by decide) h2t,
      filter_type_nil (by decide) h2bt, filter_type_nil (by decide) h3t,
      filter_type_nil (by decide) h4t, filter_type_nil (by decide) h5t]
    simp
  have hl : (scan1 fs ++ rows2 ++ rows2b ++
      scan3 fs [sL ("Common"), sL ("Translations")] ++ scan4 fs ++
      scan5 fs).filter (fun r => r.type == RowType.lang) =
      rows2 ++ rows2b := by
    simp only [List.filter_append]
    rw [filter_type_nil (by decide) h1.1, filter_type_self h2t,
      filter_type_self h2bt, filter_type_nil (by decide) h3t,
      filter_type_nil (by decide) h4t, filter_type_nil (by decide) h5t]
    simp
  have hu : (scan1 fs ++ rows2 ++ rows2b ++
      scan3 fs [sL ("Common"), sL ("Translations")] ++ scan4 fs ++
      scan5 fs).filter (fun r => r.type == RowType.ui) = scan4 fs := by
    simp only [List.filter_append]
    rw [filter_type_nil (by decide) h1.1, filter_type_nil (by decide) h2t,
      filter_type_nil (by decide) h2bt, filter_type_nil (by decide) h3t,
      filter_type_self h4t, filter_type_nil (by decide) h5t]
    simp
  rw [hm, hl, hu]
  refine ⟨h1.2, List.pairwise_append.mpr ⟨h2p, h2bfacts.2, ?_⟩, h4k, h4s⟩
  intro a ha b hb
  by_cases hrel : a.file_rel = b.file_rel
  · right
    intro hkey
    have hb2 := (h2bfacts.1 b hb).2
    rw [← hrel, ← hkey] at hb2
    rw [seenOf_mem ha] at hb2
    exact Bool.true_eq_false.mp hb2
  · exact Or.inl hrel

/-- C7 witness tree: a manifest, one default-locale .lang file with two
keys, and a .ui file whose two matches carry the same text. -/
def c7w_fs : FS :=
  [⟨[sL ("manifest.json")],
    FileData.textOK []
      (some (JValue.jobj (JObj.ocons (sL ("Name")) (JValue.jstr (sL ("My Mod")))
        (JObj.ocons (sL ("Description")) (JValue.jstr (sL ("Cool mod")))
          JObj.onil))))⟩,
   ⟨[sL ("Server"), sL ("Languages"), sL ("en-US"), sL ("a.lang")],
    FileData.textOK (sL ("greeting=Hello\nfarewell=Bye")) none⟩,
   ⟨[sL ("ui"), sL ("b.ui")],
    FileData.textOK (sL ("Text: \"Hi\" @Text = \"Hi\"")) none⟩]

def c7w_rows : List Row :=
  [⟨RowType.manifest, sL ("manifest.json"), sL ("Name"), sL ("My Mod"), none⟩,
   ⟨RowType.manifest, sL ("manifest.json"), sL ("Description"),
     sL ("Cool mod"), none⟩,
   ⟨RowType.lang, sL ("Server/Languages/en-US/a.lang"), sL ("greeting"),
     sL ("Hello"), none⟩,
   ⟨RowType.lang, sL ("Server/Languages/en-US/a.lang"), sL ("farewell"),
     sL ("Bye"), none⟩,
   ⟨RowType.ui, sL ("ui/b.ui"), sL ("0"), sL ("Hi"), none⟩,
   ⟨RowType.json, sL ("manifest.json"), sL ("Name"), sL ("My Mod"), none⟩,
   ⟨RowType.json, sL ("manifest.json"), sL ("Description"),
     sL ("Cool mod"), none⟩]

theorem C7_catalogue_uniqueness_witness :
    (c7w_rows.filter (fun r => r.type == RowType.manifest)).Pairwise
      rkDistinct ∧
    (c7w_rows.filter (fun r => r.type == RowType.lang)).Pairwise rkDistinct ∧
    (c7w_rows.filter (fun r => r.type == RowType.ui)).Pairwise rkDistinct ∧
    (c7w_rows.filter (fun r => r.type == RowType.ui)).Pairwise rsDistinct :=
  C7_catalogue_uniqueness c7w_fs c7w_rows
    (by constructor
        · decide
        · decide)
    (by decide)

/- ---------------------------------------------------------------
   C8: tolerance of the collection pass.
   --------------------------------------------------------------- -/

/-- read_text succeeds on this file. -/
def isReadable : FileData → Bool
  | FileData.textOK _ _ => true
  | FileData.unreadable => false

theorem readFile_isSome {fs : FS} {p : List LC}
    (hex : ∃ e ∈ fs, e.path = p)
    (hall : ∀ e ∈ fs, e.path = p → isReadable e.data = true) :
    (readFile fs p).isSome = true := by
  cases hf : fs.find? (fun e => e.path == p) with
  | none =>
      exfalso
      obtain ⟨e, he, rfl⟩ := hex
      have hnone := List.find?_eq_none.mp hf e he
      simp at hnone
  | some e =>
      have hmem := List.mem_of_find?_eq_some hf
      have hpred : e.path = p := by
        have hp2 := List.find?_some hf
        rwa [beq_iff_eq] at hp2
      have hrd := hall e hmem hpred
      rw [readFile, hf]
      simp only [Option.map_some']
      cases hd : e.data with
      | textOK c j => rfl
      | unreadable => rw [hd] at hrd; exact absurd hrd (by decide)

theorem glob_read_ok {fs : FS} {dir p : List LC}
    (hpre : [sL ("Server"), sL ("Languages")] <+: dir)
    (hp : p ∈ globFiles fs dir (sL (".lang")))
    (hall : ∀ e ∈ fs,
      ([sL ("Server"), sL ("Languages")]).isPrefixOf e.path = true →
      (sL (".lang")).isSuffixOf (fileName e.path) = true →
      isReadable e.data = true) :
    (readFile fs p).isSome = true := by
  obtain ⟨e0, he0, he0p, hcond⟩ := mem_globFiles hp
  rw [globCond, Bool.and_eq_true, Bool.and_eq_true] at hcond
  apply readFile_isSome ⟨e0, he0, he0p⟩
  intro e he hep
  apply hall e he
  · rw [List.isPrefixOf_iff_prefix]
    refine List.IsPrefix.trans hpre ?_
    rw [hep, ← he0p]
    exact (List.isPrefixOf_iff_prefix).mp hcond.1.2
  · rw [hep, ← he0p]
    exact hcond.2

theorem ruPreRead_isSome {fs : FS} : ∀ {ps : List (List LC)},
    (∀ p ∈ ps, (readFile fs p).isSome = true) →
    (ruPreRead fs ps).isSome = true := by
  intro ps
  induction ps with
  | nil => intro _; rfl
  | cons p tl ih =>
      intro h
      have hp := h p (List.mem_cons_self p tl)
      cases hrf : readFile fs p with
      | none => rw [hrf] at hp; exact absurd hp (by decide)
      | some c =>
          have hrec := ih (fun q hq => h q (List.mem_cons_of_mem p hq))
          cases hrr : ruPreRead fs tl with
          | none => rw [hrr] at hrec; exact absurd hrec (by decide)
          | some rest => simp only [ruPreRead, hrf, hrr]; rfl

theorem prep2bLoop_isSome {fs : FS} : ∀ (ps : List (List LC))
    (ents : List (LC × LC)) (rel? : Option LC),
    (∀ p ∈ ps, (readFile fs p).isSome = true) →
    (prep2bLoop fs ps ents rel?).isSome = true := by
  intro ps
  induction ps with
  | nil => intro _ _ _; rfl
  | cons p tl ih =>
      intro ents rel? h
      by_cases hif : isFile fs p = true
      · simp only [prep2bLoop, if_pos hif]
        have hp := h p (List.mem_cons_self p tl)
        cases hrf : readFile fs p with
        | none => rw [hrf] at hp; exact absurd hp (by decide)
        | some c =>
            simp only [hrf]
            exact ih _ _ (fun q hq => h q (List.mem_cons_of_mem p hq))
      · simp only [prep2bLoop, if_neg hif]
        exact ih _ _ (fun q hq => h q (List.mem_cons_of_mem p hq))

/-- C8 counterexample files: an undecodable target-locale .lang file, a
readable default-locale .lang file and an unparsable JSON file. -/
def c8_bad : FSEntry :=
  ⟨[sL ("Server"), sL ("Languages"), sL ("ru-RU"), sL ("a.lang")],
    FileData.unreadable⟩

def c8_en : FSEntry :=
  ⟨[sL ("Server"), sL ("Languages"), sL ("en-US"), sL ("b.lang")],
    FileData.textOK (sL ("greeting=Hello")) none⟩

def c8_badjson : FSEntry :=
  ⟨[sL ("data.json")], FileData.textOK (sL ("not json")) none⟩

/-- C8 counterexample.  One undecodable ru-RU .lang file makes the whole
collection raise instead of skipping that file: the pass aborts and no
catalogue is returned, while the same tree without the bad locale file
(but still holding an unparsable JSON file, which is tolerated)
collects fine. -/
theorem C8_counterexample :
    collect_all_strings [c8_bad, c8_en] = none ∧
    collect_all_strings [c8_en, c8_badjson] =
      some [⟨RowType.lang, sL ("Server/Languages/en-US/b.lang"),
        sL ("greeting"), sL ("Hello"), none⟩] := by
  decide

/-- C8 amended.  The per-file reads of the manifest, generic JSON,
Common/Translations and .ui scans sit inside try blocks, so their
failures are tolerated; only the unguarded reads of .lang files under
Server/Languages can abort the pass.  If every such file is readable,
the collection always returns a catalogue. -/
theorem C8_collection_tolerance (fs : FS)
    (h : ∀ e ∈ fs,
      ([sL ("Server"), sL ("Languages")]).isPrefixOf e.path = true →
      (sL (".lang")).isSuffixOf (fileName e.path) = true →
      isReadable e.data = true) :
    ∃ rows, collect_all_strings fs = some rows := by
  have hscan2 : (scan2 fs [sL ("Server"), sL ("Languages")]
      ([sL ("Server"), sL ("Languages")] ++ [sL ("ru-RU")])).isSome = true := by
    rw [scan2]
    by_cases hdir : isDir fs [sL ("Server"), sL ("Languages")] = true
    · rw [if_pos hdir]
      have hru : (if isDir fs ([sL ("Server"), sL ("Languages")] ++ [sL ("ru-RU")]) = true
          then ruPreRead fs (globFiles fs
            ([sL ("Server"), sL ("Languages")] ++ [sL ("ru-RU")]) (sL (".lang")))
          else some []).isSome = true := by
        by_cases hrd : isDir fs
            ([sL ("Server"), sL ("Languages")] ++ [sL ("ru-RU")]) = true
        · rw [if_pos hrd]
          apply ruPreRead_isSome
          intro p hp
          exact glob_read_ok (List.prefix_append _ _) hp h
        · rw [if_neg hrd]; rfl
      cases hpre : (if isDir fs ([sL ("Server"), sL ("Languages")] ++ [sL ("ru-RU")]) = true
          then ruPreRead fs (globFiles fs
            ([sL ("Server"), sL ("Languages")] ++ [sL ("ru-RU")]) (sL (".lang")))
          else some []) with
      | none => rw [hpre] at hru; exact absurd hru (by decide)
      | some ruEnts =>
          simp only [hpre]
          cases hfl : firstLocaleDir fs [sL ("Server"), sL ("Languages")] with
          | none => simp only [hfl]; rfl
          | some n => simp only [hfl]; rfl
    · rw [if_neg hdir]; rfl
  have hprep : (prep2b fs [sL ("Server"), sL ("Languages")]).isSome = true := by
    rw [prep2b]
    by_cases hdir : isDir fs [sL ("Server"), sL ("Languages")] = true
    · rw [if_pos hdir]
      cases hfl : firstLocaleDir fs [sL ("Server"), sL ("Languages")] with
      | none => rfl
      | some n =>
          apply prep2bLoop_isSome
          intro p hp
          exact glob_read_ok (List.prefix_append _ _) hp h
    · rw [if_neg hdir]; rfl
  obtain ⟨rows2, h2⟩ := Option.isSome_iff_exists.mp hscan2
  obtain ⟨prep, hp⟩ := Option.isSome_iff_exists.mp hprep
  have hc : (collect_all_strings fs).isSome = true := by
    rw [collect_all_strings]
    simp only [h2, hp]
    rfl
  exact Option.isSome_iff_exists.mp hc

theorem C8_collection_tolerance_witness :
    ∃ rows, collect_all_strings [c8_en, c8_badjson] = some rows :=
  C8_collection_tolerance [c8_en, c8_badjson] (by decide)

/- ---------------------------------------------------------------
   C6: the write-back pass.  The ui branch rewrites quoted values
   through apply_ui_translations (lines 250-267, 550-556); the lang
   branch is write_ru_lang above (lines 519-533).
   --------------------------------------------------------------- -/

/-- The replacement loop of apply_ui_translations for one match: the
first pair whose source equals the value and whose translation is
truthy wins; otherwise the match is kept as is. -/
def uiReplVal (replacements : List (LC × LC)) (val : LC) : Option LC :=
  (replacements.find? (fun st => val == st.1 && !st.2.isEmpty)).map (fun st => st.2)

/-- _UI_TEXT_PATTERN.sub over the content: each match is replaced by
prefix + translation + closing quote (every match of either alternative
ends with the value followed by one quote), other text is copied. -/
def applyUIGo (replacements : List (LC × LC)) : Nat → LC → LC
  | 0, s => s
  | fuel + 1, s =>
      match matchUIAt s with
      | some (whole, val, rest) =>
          (match uiReplVal replacements val with
           | some tr => whole.take (whole.length - (val.length + 1)) ++ tr ++ ['"']
           | none => whole) ++ applyUIGo replacements fuel rest
      | none =>
          match s with
          | [] => []
          | c :: cs => c :: applyUIGo replacements fuel cs

/-- apply_ui_translations (lines 250-267). -/
def apply_ui_translations (content : LC) (replacements : List (LC × LC)) : LC :=
  if replacements.isEmpty then content
  else applyUIGo replacements content.length content

/-- The grouping pass of save_all_translations restricted to the ui
rows of one file (lines 480-495): the pairs (source, stripped
translation) of the ui rows with truthy translation, in row order. -/
def ui_pairs_for (rows : List Row) (rel : LC) : List (LC × LC) :=
  rows.foldl (fun acc r =>
    let tr := pyStrip (r.translated.getD [])
    if r.type = RowType.ui ∧ ¬tr.isEmpty ∧ r.file_rel = rel
    then acc ++ [(r.source, tr)] else acc) []

/-- The ui branch of save_all_translations for one file (lines
550-556). -/
def write_ui_file (content : LC) (rows : List Row) (rel : LC) : LC :=
  apply_ui_translations content (ui_pairs_for rows rel)

/-- C6 counterexample rows: one ui row translating A to B and another
translating B to C in the same file. -/
def c6_rows : List Row :=
  [⟨RowType.ui, sL ("f.ui"), sL ("0"), sL ("A"), some (sL ("B"))⟩,
   ⟨RowType.ui, sL ("f.ui"), sL ("5"), sL ("B"), some (sL ("C"))⟩]

/-- C6 counterexample.  Writing the same ui rows twice is not
idempotent: the first save rewrites Text: "A" to Text: "B", and the
second save matches the freshly written B against the second
replacement pair and rewrites it again to Text: "C". -/
theorem C6_counterexample :
    write_ui_file (sL ("Text: \"A\"")) c6_rows (sL ("f.ui")) =
      sL ("Text: \"B\"") ∧
    write_ui_file (write_ui_file (sL ("Text: \"A\"")) c6_rows (sL ("f.ui")))
        c6_rows (sL ("f.ui")) = sL ("Text: \"C\"") ∧
    sL ("Text: \"C\"") ≠ sL ("Text: \"B\"") := by
  decide

/- ---------------------------------------------------------------
   Order facts about the serialization sort.
   --------------------------------------------------------------- -/

theorem lcLe_total : ∀ a b : LC, lcLe a b = true ∨ lcLe b a = true := by
  intro a
  induction a with
  | nil => intro b; exact Or.inl rfl
  | cons x xs ih =>
      intro b
      cases b with
      | nil => exact Or.inr rfl
      | cons y ys =>
          by_cases hxy : x.toNat < y.toNat
          · exact Or.inl (by simp [lcLe, hxy])
          · by_cases hyx : y.toNat < x.toNat
            · exact Or.inr (by simp [lcLe, hyx])
            · rcases ih ys with h | h
              · exact Or.inl (by simp [lcLe, hxy, hyx, h])
              · exact Or.inr (by simp [lcLe, hxy, hyx, h])

theorem lcLe_antisymm : ∀ {a b : LC}, lcLe a b = true → lcLe b a = true →
    a = b := by
  intro a
  induction a with
  | nil =>
      intro b h1 h2
      cases b with
      | nil => rfl
      | cons y ys => exact absurd h2 (by simp [lcLe])
  | cons x xs ih =>
      intro b h1 h2
      cases b with
      | nil => exact absurd h1 (by simp [lcLe])
      | cons y ys =>
          by_cases hxy : x.toNat < y.toNat
          · simp [lcLe, hxy, Nat.lt_asymm hxy] at h2
          · by_cases hyx : y.toNat < x.toNat
            · simp [lcLe, hxy, hyx] at h1
            · have hchar : x = y := by
                have hn : x.toNat = y.toNat := by omega
                have hx := Char.ofNat_toNat x
                rw [hn, Char.ofNat_toNat y] at hx
                exact hx.symm
              have h1' : lcLe xs ys = true := by
                simp [lcLe, hxy, hyx] at h1
                exact h1
              have h2' : lcLe ys xs = true := by
                simp [lcLe, hxy, hyx] at h2
                exact h2
              rw [hchar, ih h1' h2']

theorem lcLe_trans : ∀ {a b c : LC}, lcLe a b = true → lcLe b c = true →
    lcLe a c = true := by
  intro a
  induction a with
  | nil => intro b c _ _; rfl
  | cons x xs ih =>
      intro b c h1 h2
      cases b with
      | nil => exact absurd h1 (by simp [lcLe])
      | cons y ys =>
          cases c with
          | nil => exact absurd h2 (by simp [lcLe])
          | cons z zs =>
              by_cases hxy : x.toNat < y.toNat
              · by_cases hyz : y.toNat < z.toNat
                · simp [lcLe, Nat.lt_trans hxy hyz]
                · by_cases hzy : z.toNat < y.toNat
                  · simp [lcLe, hyz, hzy] at h2
                  · have hxz : x.toNat < z.toNat := by omega
                    simp [lcLe, hxz]
              · by_cases hyx : y.toNat < x.toNat
                · simp [lcLe, hxy, hyx] at h1
                · by_cases hyz : y.toNat < z.toNat
                  · have hxz : x.toNat < z.toNat := by omega
                    simp [lcLe, hxz]
                  · by_cases hzy : z.toNat < y.toNat
                    · simp [lcLe, hyz, hzy] at h2
                    · have hxz : ¬ x.toNat < z.toNat := by omega
                      have hzx : ¬ z.toNat < x.toNat := by omega
                      have h1' : lcLe xs ys = true := by
                        simp [lcLe, hxy, hyx] at h1
                        exact h1
                      have h2' : lcLe ys zs = true := by
                        simp [lcLe, hyz, hzy] at h2
                        exact h2
                      simp [lcLe, hxz, hzx]
                      exact ih h1' h2'

theorem pairLe_total (p q : LC × LC) :
    pairLe p q = true ∨ pairLe q p = true := by
  rw [pairLe, pairLe]
  by_cases h : (p.1 == q.1) = true
  · have h2 : (q.1 == p.1) = true := by
      rw [beq_iff_eq] at h ⊢
      exact h.symm
    rw [if_pos h, if_pos h2]
    exact lcLe_total p.2 q.2
  · have h2 : ¬ (q.1 == p.1) = true := by
      rw [beq_iff_eq] at h ⊢
      exact fun he => h he.symm
    rw [if_neg h, if_neg h2]
    exact lcLe_total p.1 q.1

theorem pairLe_trans {p q r : LC × LC} (h1 : pairLe p q = true)
    (h2 : pairLe q r = true) : pairLe p r = true := by
  rw [pairLe] at h1 h2 ⊢
  by_cases hpq : (p.1 == q.1) = true
  · rw [if_pos hpq] at h1
    rw [beq_iff_eq] at hpq
    by_cases hqr : (q.1 == r.1) = true
    · rw [if_pos hqr] at h2
      rw [beq_iff_eq] at hqr
      rw [if_pos (by rw [beq_iff_eq]; exact hpq.trans hqr)]
      exact lcLe_trans h1 h2
    · rw [if_neg hqr] at h2
      rw [beq_iff_eq] at hqr
      rw [if_neg (by rw [beq_iff_eq]; intro he; exact hqr (hpq ▸ he))]
      rw [hpq]
      exact h2
  · rw [if_neg hpq] at h1
    rw [beq_iff_eq] at hpq
    by_cases hqr : (q.1 == r.1) = true
    · rw [if_pos hqr] at h2
      rw [beq_iff_eq] at hqr
      rw [if_neg (by rw [beq_iff_eq]; intro he; exact hpq (he.trans hqr.symm))]
      rw [← hqr]
      exact h1
    · rw [if_neg hqr] at h2
      rw [beq_iff_eq] at hqr
      by_cases hpr : (p.1 == r.1) = true
      · exfalso
        rw [beq_iff_eq] at hpr
        exact hpq (lcLe_antisymm h1 (hpr ▸ h2))
      · rw [if_neg hpr]
        exact lcLe_trans h1 h2

theorem insSorted_pairwise {p : LC × LC} {l : List (LC × LC)}
    (hl : l.Pairwise (fun a b => pairLe a b = true)) :
    (insSorted p l).Pairwise (fun a b => pairLe a b = true) := by
  induction l with
  | nil => exact List.pairwise_singleton _ _
  | cons q qs ih =>
      rw [List.pairwise_cons] at hl
      rw [insSorted]
      by_cases hpq : pairLe p q = true
      · rw [if_pos hpq]
        refine List.Pairwise.cons ?_ (List.Pairwise.cons hl.1 hl.2)
        intro b hb
        rcases List.mem_cons.mp hb with rfl | hb
        · exact hpq
        · exact pairLe_trans hpq (hl.1 b hb)
      · rw [if_neg hpq]
        refine List.Pairwise.cons ?_ (ih hl.2)
        intro b hb
        have hmem := (insSorted_perm p qs).mem_iff.mp hb
        rcases List.mem_cons.mp hmem with rfl | hb2
        · rcases pairLe_total q b with h | h
          · exact h
          · exact absurd h hpq
        · exact hl.1 b hb2

theorem sortPairs_pairwise (l : List (LC × LC)) :
    (sortPairs l).Pairwise (fun a b => pairLe a b = true) := by
  induction l with
  | nil => exact List.Pairwise.nil
  | cons p ps ih => exact insSorted_pairwise ih

theorem sortPairs_of_sorted {l : List (LC × LC)}
    (hl : l.Pairwise (fun a b => pairLe a b = true)) : sortPairs l = l := by
  induction l with
  | nil => rfl
  | cons p ps ih =>
      rw [List.pairwise_cons] at hl
      rw [sortPairs, ih hl.2]
      cases ps with
      | nil => rfl
      | cons q qs => rw [insSorted, if_pos (hl.1 q (List.mem_cons_self q qs))]

theorem sortPairs_idem (l : List (LC × LC)) :
    sortPairs (sortPairs l) = sortPairs l :=
  sortPairs_of_sorted (sortPairs_pairwise l)

/- ---------------------------------------------------------------
   Rewriting identical entries is a no-op on the dictionary.
   --------------------------------------------------------------- -/

theorem dictInsert_id {d : List (LC × LC)} {k v : LC} (hdk : dk d)
    (hget : dictGet d k = some v) : dictInsert d k v = d := by
  induction d with
  | nil => exact absurd hget (by simp [dictGet])
  | cons p ps ih =>
      rw [dk, List.pairwise_cons] at hdk
      by_cases hp : (p.1 == k) = true
      · have hk := lcBeq_iff.mp hp
        have hv : p.2 = v := by
          rw [dictGet_cons, if_pos hp] at hget
          exact Option.some.inj hget
        have hmem : dictMem (p :: ps) k = true := by
          rw [dictMem, List.any_cons, hp]
          rfl
        rw [dictInsert, if_pos hmem, List.map_cons, if_pos hp]
        have hmap : ps.map (fun q => if q.1 == k then (k, v) else q) = ps := by
          have hcongr : ∀ q ∈ ps, (if q.1 == k then (k, v) else q) = q := by
            intro q hq
            rw [if_neg ?_]
            rw [lcBeq_iff]
            intro h0
            exact hdk.1 q hq (hk.trans h0.symm)
          calc ps.map (fun q => if q.1 == k then (k, v) else q)
              = ps.map id := List.map_congr_left hcongr
            _ = ps := List.map_id ps
        rw [hmap]
        rw [← hk, ← hv]
      · have hget2 : dictGet ps k = some v := by
          rw [dictGet_cons, if_neg hp] at hget
          exact hget
        have hmem2 : dictMem ps k = true := by
          cases hm : dictMem ps k with
          | false => rw [dictMem_false_get hm] at hget2; exact absurd hget2 (by simp)
          | true => rfl
        have hmem : dictMem (p :: ps) k = true := by
          rw [dictMem, List.any_cons]
          rw [dictMem] at hmem2
          rw [hmem2, Bool.or_true]
        have hrec := ih hdk.2 hget2
        rw [dictInsert, if_pos hmem2] at hrec
        rw [dictInsert, if_pos hmem, List.map_cons, if_neg hp, hrec]

theorem dictUpdate_id {d : List (LC × LC)} : ∀ {entries : List (LC × LC)},
    dk d → (∀ p ∈ entries, dictGet d p.1 = some p.2) →
    dictUpdate d entries = d := by
  intro entries
  induction entries with
  | nil => intro _ _; rfl
  | cons e es ih =>
      intro hdk h
      rw [dictUpdate, List.foldl_cons]
      rw [dictInsert_id hdk (h e (List.mem_cons_self e es))]
      exact ih hdk (fun p hp => h p (List.mem_cons_of_mem e hp))

theorem dictUpdate_get_mem {d entries : List (LC × LC)} {k v : LC}
    (hdkE : dk entries) (hmem : (k, v) ∈ entries) :
    dictGet (dictUpdate d entries) k = some v := by
  rw [dictUpdate_get_dk hdkE k d, dictGet_some_of_mem_dk hdkE hmem]

theorem mem_dictInsert_keys {d : List (LC × LC)} {k v : LC} :
    ∀ p ∈ dictInsert d k v, p.1 = k ∨ p ∈ d := by
  intro p hp
  rw [dictInsert] at hp
  by_cases hm : dictMem d k = true
  · rw [if_pos hm] at hp
    obtain ⟨q, hq, he⟩ := List.mem_map.mp hp
    by_cases hqk : (q.1 == k) = true
    · rw [if_pos hqk] at he
      left
      rw [← he]
    · rw [if_neg hqk] at he
      right
      rw [← he]
      exact hq
  · rw [if_neg hm] at hp
    rcases List.mem_append.mp hp with hp | hp
    · right; exact hp
    · left
      rw [List.mem_singleton] at hp
      rw [hp]

theorem mem_dictUpdate_keys {d : List (LC × LC)} : ∀ {es : List (LC × LC)},
    ∀ p ∈ dictUpdate d es, p ∈ d ∨ ∃ q ∈ es, p.1 = q.1 := by
  intro es
  induction es generalizing d with
  | nil => intro p hp; exact Or.inl hp
  | cons e es2 ih =>
      intro p hp
      rw [dictUpdate, List.foldl_cons] at hp
      rcases ih (d := dictInsert d e.1 e.2) p hp with hp2 | ⟨q, hq, hk⟩
      · rcases mem_dictInsert_keys p hp2 with hk | hp3
        · exact Or.inr ⟨e, List.mem_cons_self e es2, hk⟩
        · exact Or.inl hp3
      · exact Or.inr ⟨q, List.mem_cons_of_mem e hq, hk⟩

theorem dictUpdate_fresh : ∀ {ps : List (LC × LC)} (acc : List (LC × LC)),
    dk ps → (∀ p ∈ ps, dictMem acc p.1 = false) →
    dictUpdate acc ps = acc ++ ps := by
  intro ps
  induction ps with
  | nil => intro acc _ _; simp [dictUpdate]
  | cons p ps2 ih =>
      intro acc hdk hf
      rw [dk, List.pairwise_cons] at hdk
      rw [dictUpdate, List.foldl_cons]
      have hins : dictInsert acc p.1 p.2 = acc ++ [p] := by
        rw [dictInsert,
          if_neg (by rw [hf p (List.mem_cons_self p ps2)]; simp)]
      rw [hins]
      have hf2 : ∀ q ∈ ps2, dictMem (acc ++ [p]) q.1 = false := by
        intro q hq
        rw [dictMem, List.any_append]
        have h1 : acc.any (fun r => r.1 == q.1) = false := hf q (List.mem_cons_of_mem p hq)
        have h2 : [p].any (fun r => r.1 == q.1) = false := by
          rw [List.any_cons, List.any_nil, Bool.or_false]
          rw [Bool.eq_false_iff]
          rw [ne_eq, lcBeq_iff]
          exact hdk.1 q hq
        rw [h1, h2]
        rfl
      have hrest := ih (acc ++ [p]) hdk.2 hf2
      rw [dictUpdate] at hrest
      rw [hrest, List.append_assoc]
      rfl

theorem aliasPass_id {d : List (LC × LC)}
    (h : ∀ p ∈ d, key_case_variant p.1 = p.1) : aliasPass d = d := by
  rw [aliasPass]
  have hgen : ∀ (l acc : List (LC × LC)),
      (∀ p ∈ l, key_case_variant p.1 = p.1) →
      l.foldl (fun acc p =>
        let alt := key_case_variant p.1
        if alt != p.1 && !(dictMem acc alt) then dictInsert acc alt p.2
        else acc) acc = acc := by
    intro l
    induction l with
    | nil => intro acc _; rfl
    | cons p ps ih =>
        intro acc hl
        rw [List.foldl_cons]
        have hv := hl p (List.mem_cons_self p ps)
        have hstep : (if key_case_variant p.1 != p.1 &&
            !(dictMem acc (key_case_variant p.1))
            then dictInsert acc (key_case_variant p.1) p.2 else acc) = acc := by
          rw [hv]
          simp
        change ps.foldl _ (if key_case_variant p.1 != p.1 &&
          !(dictMem acc (key_case_variant p.1))
          then dictInsert acc (key_case_variant p.1) p.2 else acc) = acc
        rw [hstep]
        exact ih acc (fun q hq => hl q (List.mem_cons_of_mem p hq))
  exact hgen d d h

/-- Serializing then reparsing a good dictionary gives exactly its
sorted pair list, folded into an empty dictionary. -/
theorem parse_serialize_eq {d : List (LC × LC)}
    (hgood : ∀ p ∈ d, goodPair p) :
    parse_lang_content (lang_to_content d false) =
      dictUpdate [] (sortPairs d) := by
  have hsort_perm := sortPairs_perm d
  have hsort_good : ∀ p ∈ sortPairs d, goodPair p :=
    fun p hp => hgood p (hsort_perm.mem_iff.mp hp)
  have hmapeq : (sortPairs d).map
      (fun p => p.1 ++ (if false = true then sL (" = ") else sL ("=")) ++ p.2) =
      (sortPairs d).map (fun p => p.1 ++ '=' :: p.2) := by
    refine List.map_congr_left ?_
    intro p _
    simp only [Bool.false_eq_true, if_false]
    rw [List.append_assoc]
    rfl
  rw [lang_to_content, hmapeq]
  have hlines : ∀ l ∈ (sortPairs d).map (fun p => p.1 ++ '=' :: p.2),
      l ≠ [] ∧ lineSafe l = true := by
    intro l hl
    rw [List.mem_map] at hl
    obtain ⟨p, hp, hpl⟩ := hl
    obtain ⟨hpk, hpv⟩ := hsort_good p hp
    obtain ⟨hksafe, _, _, _⟩ := goodKey_props hpk
    obtain ⟨hvsafe, _⟩ := goodVal_props hpv
    constructor
    · rw [← hpl]
      intro h0
      rw [List.append_eq_nil] at h0
      exact absurd h0.2 (by simp)
    · rw [← hpl, lineSafe, List.all_eq_true]
      intro c hc
      rw [List.mem_append] at hc
      rcases hc with hc | hc
      · rw [lineSafe, List.all_eq_true] at hksafe
        exact hksafe c hc
      · rw [List.mem_cons] at hc
        rcases hc with hc | hc
        · rw [hc]
          decide
        · rw [lineSafe, List.all_eq_true] at hvsafe
          exact hvsafe c hc
  rw [parse_lang_content, splitLines_joinNL hlines]
  rw [foldl_parseLangLine_map (fun p hp => hsort_good p hp) []]

/-- C6 amended.  The target-locale .lang write-back itself is
idempotent: rewriting the file produced by a first write with the same
line-safe entries leaves it byte-identical, provided no key involved
carries a benchcategories case alias (the alias loop is then a no-op
both times); the ui branch is the part of save_all_translations that is
not idempotent. -/
theorem C6_lang_writeback_idempotent (old : LC) (entries : List (LC × LC))
    (hgood : ∀ p ∈ entries, goodPair p) (hdkE : dk entries)
    (hvarE : ∀ p ∈ entries, key_case_variant p.1 = p.1)
    (hvarO : ∀ p ∈ parse_lang_content old, key_case_variant p.1 = p.1) :
    write_ru_lang (some (write_ru_lang (some old) entries)) entries =
      write_ru_lang (some old) entries := by
  have hd0good := parse_lang_content_good old
  have hd0dk := parse_lang_content_dk old
  have hDgood : ∀ p ∈ dictUpdate (parse_lang_content old) entries, goodPair p :=
    dictUpdate_good hgood hd0good
  have hDdk : dk (dictUpdate (parse_lang_content old) entries) :=
    dictUpdate_dk hd0dk
  have hDvar : ∀ p ∈ dictUpdate (parse_lang_content old) entries,
      key_case_variant p.1 = p.1 := by
    intro p hp
    rcases mem_dictUpdate_keys p hp with hp0 | ⟨q, hq, hk⟩
    · exact hvarO p hp0
    · rw [hk]
      exact hvarE q hq
  have halias1 : aliasPass (dictUpdate (parse_lang_content old) entries) =
      dictUpdate (parse_lang_content old) entries := aliasPass_id hDvar
  have hw1 : write_ru_lang (some old) entries =
      lang_to_content (dictUpdate (parse_lang_content old) entries) false := by
    rw [write_ru_lang, halias1]
  have hsperm := sortPairs_perm (dictUpdate (parse_lang_content old) entries)
  have hsdk : dk (sortPairs (dictUpdate (parse_lang_content old) entries)) := by
    rw [dk] at hDdk ⊢
    exact (hsperm.pairwise_iff (fun hab => Ne.symm hab)).mpr hDdk
  have hparse1 : parse_lang_content
      (lang_to_content (dictUpdate (parse_lang_content old) entries) false) =
      sortPairs (dictUpdate (parse_lang_content old) entries) := by
    rw [parse_serialize_eq hDgood]
    rw [dictUpdate_fresh ([] : List (LC × LC)) hsdk (fun p _ => rfl)]
    rw [List.nil_append]
  have hentget : ∀ p ∈ entries,
      dictGet (sortPairs (dictUpdate (parse_lang_content old) entries)) p.1 =
      some p.2 := by
    intro p hp
    rw [dictGet_perm_dk hsperm hsdk p.1]
    exact dictUpdate_get_mem hdkE hp
  have hupd2 : dictUpdate
      (sortPairs (dictUpdate (parse_lang_content old) entries)) entries =
      sortPairs (dictUpdate (parse_lang_content old) entries) :=
    dictUpdate_id hsdk hentget
  have hvar2 : ∀ p ∈ sortPairs (dictUpdate (parse_lang_content old) entries),
      key_case_variant p.1 = p.1 :=
    fun p hp => hDvar p (hsperm.mem_iff.mp hp)
  have halias2 := aliasPass_id hvar2
  rw [hw1, write_ru_lang, hparse1, hupd2, halias2]
  rw [lang_to_content, lang_to_content, sortPairs_idem]

theorem C6_lang_writeback_idempotent_witness :
    write_ru_lang (some (write_ru_lang (some (sL ("farewell=Poka")))
        [(sL ("greeting"), sL ("Privet"))]))
      [(sL ("greeting"), sL ("Privet"))] =
    write_ru_lang (some (sL ("farewell=Poka")))
      [(sL ("greeting"), sL ("Privet"))] :=
  C6_lang_writeback_idempotent (sL ("farewell=Poka"))
    [(sL ("greeting"), sL ("Privet"))]
    (by
      intro p hp
      rw [List.mem_singleton] at hp
      subst hp
      exact ⟨by decide, by decide⟩)
    (by rw [dk]; decide) (by decide) (by decide)

end HytaleTM
